import Mathlib

/-!
# Buffer cache (`kernel/bio.c`) and physical page allocator (`kernel/kalloc.c`)

A shallow embedding of the two kernel components and the properties checked
against their specification.

* The buffer cache keeps its slots on `NBUCKETS` circular doubly linked lists
  threaded through `prev` / `next` pointers.  The embedding keeps the pointer
  structure: a state maps every node (a slot or a bucket sentinel) to its
  record, and `push` / `pop` are the pointer assignments of the source.
* A call is a function from a state to `Except Err`: a normal return, a
  `panic`, an out-of-bounds array index (`undef`), a sleep on a held
  sleep lock (`blocks`) or a list walk that never meets its sentinel (`loops`).
  Spin locks are taken and given back inside one call, so at the granularity
  of whole calls only their array index is visible.
-/

namespace Bio

/-! ## Data model -/

/-- Number of hash buckets, `#define NBUCKETS 13`. -/
def NBUCKETS : Nat := 13

/-- Modelled from the spec: the pool size `NBUF` comes from `param.h`, which is
not among the sources; the specification fixes a pool of 30 buffer slots. -/
def NBUF : Nat := 30

/-- Modelled from the spec: a slot holds a fixed-size copy of the block's raw
bytes; the size constant lives in `fs.h`, which is not among the sources. -/
def BSIZE : Nat := 1024

/-- Values of `struct buf *`: the address of a slot, of a bucket sentinel, or 0. -/
inductive Ptr where
  | null
  | buf (i : Nat)
  | head (h : Nat)
deriving DecidableEq, Repr

/-- Ways a call can fail to return normally. -/
inductive Err where
  | panic (msg : String)
  | undef
  | blocks
  | loops
deriving DecidableEq, Repr

/-- Modelled from the spec: `struct buf` is declared in `buf.h`, which is not
among the sources.  Identity `(dev, blockno)`, the `valid` flag, `refcnt`,
the exclusive-use sleep lock (here: the process holding it, if any), the raw
bytes and the intrusive `prev` / `next` links. -/
structure Buf where
  valid : Nat
  dev : Nat
  blockno : Nat
  lock : Option Nat
  refcnt : Nat
  prev : Ptr
  next : Ptr
  data : List Nat

/-- One transfer issued to the disk driver: device, block and direction. -/
structure DiskOp where
  dev : Nat
  blockno : Nat
  write : Bool
deriving DecidableEq, Repr

/-- The `bcache` structure together with the disk behind it.  `log` records the
calls made to `virtio_disk_rw`, most recent first. -/
structure BCache where
  buf : Nat → Buf
  hashbucket : Nat → Buf
  disk : Nat → Nat → List Nat
  log : List DiskOp

/-- A zero-filled `struct buf` (static storage before `binit`). -/
def Buf.zero : Buf :=
  { valid := 0, dev := 0, blockno := 0, lock := none, refcnt := 0,
    prev := Ptr.null, next := Ptr.null, data := List.replicate BSIZE 0 }

/-- Read through a pointer.  No well-formed list contains the null pointer; reading
through it yields a zero record. -/
def BCache.deref (s : BCache) : Ptr → Buf
  | Ptr.null => Buf.zero
  | Ptr.buf i => s.buf i
  | Ptr.head h => s.hashbucket h

/-- Write through a pointer. -/
def BCache.store (s : BCache) (p : Ptr) (v : Buf) : BCache :=
  match p with
  | Ptr.null => s
  | Ptr.buf i => { s with buf := fun j => if j = i then v else s.buf j }
  | Ptr.head h => { s with hashbucket := fun j => if j = h then v else s.hashbucket j }

/-- Conversion of a `uint` argument to the `int` parameter of `hash`
(two's complement, 32 bits). -/
def toInt (n : Nat) : Int :=
  if n % 4294967296 < 2147483648 then ((n % 4294967296 : Nat) : Int)
  else ((n % 4294967296 : Nat) : Int) - 4294967296

/-- The source function `int hash(int num) { return num % NBUCKETS; }`; the C
remainder truncates toward zero. -/
def hash (num : Int) : Int := Int.tmod num (NBUCKETS : Int)

/-- Indexing `bcache.lock[i]` / `bcache.hashbucket[i]`: defined only inside the arrays. -/
def bucketIdx (i : Int) : Except Err Nat :=
  if 0 ≤ i ∧ i < (NBUCKETS : Int) then Except.ok i.toNat else Except.error Err.undef

/-- Upper bound on the length of any walk that comes back to its sentinel:
there are only `NBUF + NBUCKETS` nodes. -/
def FUEL : Nat := NBUF + NBUCKETS + 1

/-! ## Operations of `bio.c` -/

/-- The four assignments of `push(head, node)`. -/
def push (s : BCache) (head node : Ptr) : BCache :=
  let s1 := s.store node { s.deref node with prev := head }
  let s2 := s1.store node { s1.deref node with next := (s1.deref head).next }
  let s3 := s2.store (s2.deref head).next { s2.deref (s2.deref head).next with prev := node }
  s3.store head { s3.deref head with next := node }

/-- The two assignments of `pop(node)`. -/
def pop (s : BCache) (node : Ptr) : BCache :=
  let s1 := s.store (s.deref node).prev
    { s.deref (s.deref node).prev with next := (s.deref node).next }
  s1.store (s1.deref node).next
    { s1.deref (s1.deref node).next with prev := (s1.deref node).prev }

/-- Loop of `find_lru_block`: walk `prev` links from the tail. -/
def find_lru_loop (s : BCache) (head : Ptr) : Nat → Ptr → Except Err (Option Ptr)
  | 0, _ => Except.error Err.loops
  | n + 1, b =>
    if b = head then Except.ok none
    else if (s.deref b).refcnt = 0 then Except.ok (some b)
    else find_lru_loop s head n (s.deref b).prev

/-- The source function `find_lru_block(head)`. -/
def find_lru_block (s : BCache) (head : Ptr) : Except Err (Option Ptr) :=
  find_lru_loop s head FUEL (s.deref head).prev

/-- The source function `init_blocks(b, dev, blockno)`. -/
def init_blocks (s : BCache) (b : Ptr) (dev blockno : Nat) : BCache :=
  s.store b { s.deref b with dev := dev, blockno := blockno, valid := 0, refcnt := 1 }

/-- Modelled from the spec: `initsleeplock` (sleeplock.c is not among the
sources) leaves the exclusive-use lock free. -/
def initsleeplock (s : BCache) (b : Ptr) : BCache :=
  s.store b { s.deref b with lock := none }

/-- Modelled from the spec: `acquiresleep` takes the slot's exclusive-use lock,
blocking while another holder has it. -/
def acquiresleep (s : BCache) (pid : Nat) (b : Ptr) : Except Err BCache :=
  match (s.deref b).lock with
  | none => Except.ok (s.store b { s.deref b with lock := some pid })
  | some _ => Except.error Err.blocks

/-- Modelled from the spec: `holdingsleep` tells whether the caller holds the lock. -/
def holdingsleep (s : BCache) (pid : Nat) (b : Ptr) : Bool :=
  (s.deref b).lock == some pid

/-- Modelled from the spec: `releasesleep` gives the exclusive-use lock back. -/
def releasesleep (s : BCache) (b : Ptr) : BCache :=
  s.store b { s.deref b with lock := none }

/-- Modelled from the spec: the disk driver's synchronous transfer
`virtio_disk_rw(b, write)` between the device block `(b.dev, b.blockno)` and
`b.data` (virtio_disk.c is not among the sources). -/
def virtio_disk_rw (s : BCache) (b : Ptr) (write : Bool) : BCache :=
  let r := s.deref b
  if write then
    { s with
      disk := fun d n => if d = r.dev ∧ n = r.blockno then r.data else s.disk d n
      log := { dev := r.dev, blockno := r.blockno, write := true } :: s.log }
  else
    let s1 := s.store b { r with data := s.disk r.dev r.blockno }
    { s1 with log := { dev := r.dev, blockno := r.blockno, write := false } :: s1.log }

/-- Static storage before `binit`: every record zero-filled. -/
def boot (disk : Nat → Nat → List Nat) : BCache :=
  { buf := fun _ => Buf.zero, hashbucket := fun _ => Buf.zero, disk := disk, log := [] }

/-- The source function `binit`: empty rings, then every slot pushed on bucket `hash(i)`. -/
def binit (s : BCache) : BCache :=
  let s1 := (List.range NBUCKETS).foldl (fun s i =>
    let t := s.store (Ptr.head i) { s.deref (Ptr.head i) with prev := Ptr.head i }
    t.store (Ptr.head i) { t.deref (Ptr.head i) with next := Ptr.head i }) s
  (List.range NBUF).foldl (fun s i =>
    push (initsleeplock s (Ptr.buf i)) (Ptr.head (hash (i : Int)).toNat) (Ptr.buf i)) s1

/-- First loop of `bget`: walk `next` links looking for the identity. -/
def bget_scan (s : BCache) (head : Ptr) (dev blockno : Nat) : Nat → Ptr → Except Err (Option Ptr)
  | 0, _ => Except.error Err.loops
  | n + 1, b =>
    if b = head then Except.ok none
    else if (s.deref b).dev = dev ∧ (s.deref b).blockno = blockno then Except.ok (some b)
    else bget_scan s head dev blockno n (s.deref b).next

/-- Last loop of `bget`: visit the other buckets in index order and take the
first reclaimable slot; `panic` when the loop runs out. -/
def bget_steal (s : BCache) (pid dev blockno bucket_id : Nat) : List Nat → Except Err (Ptr × BCache)
  | [] => Except.error (Err.panic "bget: no buffers")
  | i :: rest =>
    if i = bucket_id then bget_steal s pid dev blockno bucket_id rest
    else
      match find_lru_block s (Ptr.head i) with
      | Except.error e => Except.error e
      | Except.ok (some b) =>
        let s1 := pop s b
        let s2 := push s1 (Ptr.head bucket_id) b
        let s3 := init_blocks s2 b dev blockno
        match acquiresleep s3 pid b with
        | Except.error e => Except.error e
        | Except.ok s4 => Except.ok (b, s4)
      | Except.ok none => bget_steal s pid dev blockno bucket_id rest

/-- The source function `bget(dev, blockno)`, called by process `pid`. -/
def bget (s : BCache) (pid dev blockno : Nat) : Except Err (Ptr × BCache) :=
  match bucketIdx (hash (toInt blockno)) with
  | Except.error e => Except.error e
  | Except.ok bucket_id =>
    let head := Ptr.head bucket_id
    match bget_scan s head dev blockno FUEL (s.deref head).next with
    | Except.error e => Except.error e
    | Except.ok (some b) =>
      let s1 := s.store b { s.deref b with refcnt := ((s.deref b).refcnt + 1) % 4294967296 }
      match acquiresleep s1 pid b with
      | Except.error e => Except.error e
      | Except.ok s2 => Except.ok (b, s2)
    | Except.ok none =>
      match find_lru_block s head with
      | Except.error e => Except.error e
      | Except.ok (some b) =>
        let s1 := init_blocks s b dev blockno
        match acquiresleep s1 pid b with
        | Except.error e => Except.error e
        | Except.ok s2 => Except.ok (b, s2)
      | Except.ok none => bget_steal s pid dev blockno bucket_id (List.range NBUCKETS)

/-- The source function `bread(dev, blockno)`. -/
def bread (s : BCache) (pid dev blockno : Nat) : Except Err (Ptr × BCache) :=
  match bget s pid dev blockno with
  | Except.error e => Except.error e
  | Except.ok (b, s1) =>
    if (s1.deref b).valid = 0 then
      let s2 := virtio_disk_rw s1 b false
      Except.ok (b, s2.store b { s2.deref b with valid := 1 })
    else Except.ok (b, s1)

/-- The source function `brelse(b)`, called by process `pid`. -/
def brelse (s : BCache) (pid : Nat) (b : Ptr) : Except Err BCache :=
  if holdingsleep s pid b = false then Except.error (Err.panic "brelse")
  else
    let s1 := releasesleep s b
    match bucketIdx (hash (toInt (s1.deref b).blockno)) with
    | Except.error e => Except.error e
    | Except.ok bucket_id =>
      let s2 := s1.store b { s1.deref b with refcnt := ((s1.deref b).refcnt + 4294967295) % 4294967296 }
      if (s2.deref b).refcnt = 0 then
        Except.ok (push (pop s2 b) (Ptr.head bucket_id) b)
      else Except.ok s2

/-- The source function `bpin(b)`. -/
def bpin (s : BCache) (b : Ptr) : Except Err BCache :=
  match bucketIdx (hash (toInt (s.deref b).blockno)) with
  | Except.error e => Except.error e
  | Except.ok _ =>
    Except.ok (s.store b { s.deref b with refcnt := ((s.deref b).refcnt + 1) % 4294967296 })

/-- The source function `bunpin(b)`. -/
def bunpin (s : BCache) (b : Ptr) : Except Err BCache :=
  match bucketIdx (hash (toInt (s.deref b).blockno)) with
  | Except.error e => Except.error e
  | Except.ok _ =>
    Except.ok (s.store b { s.deref b with refcnt := ((s.deref b).refcnt + 4294967295) % 4294967296 })

/-! ## Reading the lists -/

/-- Follow `next` links from `p` until the sentinel `head`. -/
def walk (s : BCache) (head : Ptr) : Nat → Ptr → List Ptr
  | 0, _ => []
  | n + 1, p => if p = head then [] else p :: walk s head n (s.deref p).next

/-- The slots of bucket `h`, most recently used first. -/
def blist (s : BCache) (h : Nat) : List Ptr :=
  walk s (Ptr.head h) FUEL (s.deref (Ptr.head h)).next

/-- The nodes `l` are linked in this order from `a` to `z`, in both directions. -/
def Seg (s : BCache) : Ptr → List Ptr → Ptr → Prop
  | a, [], z => (s.deref a).next = z ∧ (s.deref z).prev = a
  | a, x :: r, z => (s.deref a).next = x ∧ (s.deref x).prev = a ∧ Seg s x r z
/-- The bucket rings: bucket `h` is the circular list `L h` through its sentinel,
the lists hold slots only, without repetition, and no two lists share a slot. -/
structure Rings (s : BCache) (L : Nat → List Ptr) : Prop where
  ring : ∀ h, h < NBUCKETS → Seg s (Ptr.head h) (L h) (Ptr.head h)
  slot : ∀ h, h < NBUCKETS → ∀ p ∈ L h, ∃ i, i < NBUF ∧ p = Ptr.buf i
  nodup : ∀ h, h < NBUCKETS → (L h).Nodup
  disj : ∀ h h', h < NBUCKETS → h' < NBUCKETS → h ≠ h' → ∀ p ∈ L h, p ∉ L h'

/-- Bucket membership: the rings are well formed and every slot is on one of them. -/
structure Shape (s : BCache) (L : Nat → List Ptr) : Prop where
  rings : Rings s L
  total : ∀ i, i < NBUF → ∃ h, h < NBUCKETS ∧ Ptr.buf i ∈ L h
/-- Everything in a slot record except its list links. -/
def Buf.core (b : Buf) : Nat × Nat × Nat × Option Nat × Nat × List Nat :=
  (b.valid, b.dev, b.blockno, b.lock, b.refcnt, b.data)
/-- The test of the lookup loop of `bget`: the slot has identity `(dev, blockno)`. -/
def isId (s : BCache) (dev blockno : Nat) (p : Ptr) : Bool :=
  decide ((s.deref p).dev = dev ∧ (s.deref p).blockno = blockno)

/-- The test of `find_lru_block`: nobody holds a reference to the slot. -/
def isFree (s : BCache) (p : Ptr) : Bool := decide ((s.deref p).refcnt = 0)

/-- The reclaimable slot nearest the tail of a bucket list. -/
def victim (s : BCache) (l : List Ptr) : Option Ptr := l.reverse.find? (isFree s)

/-- The first bucket other than `h`, in the given order, that has a reclaimable
slot, with that slot. -/
def stealPick (s : BCache) (L : Nat → List Ptr) (h : Nat) : List Nat → Option (Nat × Ptr)
  | [] => none
  | i :: r =>
    if i = h then stealPick s L h r
    else match victim s (L i) with
      | some b => some (i, b)
      | none => stealPick s L h r

/-- The decision `bget` takes, read off the bucket lists. -/
inductive Pick where
  | hit (b : Ptr)
  | reuse (b : Ptr)
  | steal (i : Nat) (b : Ptr)
  | none

/-- The decision of `bget` for `(dev, blockno)` in bucket `h`. -/
def pick (s : BCache) (L : Nat → List Ptr) (dev blockno h : Nat) : Pick :=
  match (L h).find? (isId s dev blockno) with
  | some b => Pick.hit b
  | none =>
    match victim s (L h) with
    | some b => Pick.reuse b
    | none =>
      match stealPick s L h (List.range NBUCKETS) with
      | some (i, b) => Pick.steal i b
      | none => Pick.none

/-- Pair a returned slot with the state in which its sleep lock has been taken. -/
def locked (s : BCache) (pid : Nat) (b : Ptr) : Except Err (Ptr × BCache) :=
  match acquiresleep s pid b with
  | Except.error e => Except.error e
  | Except.ok t => Except.ok (b, t)
/-- Per-slot invariant: a held sleep lock comes with a reference and valid
contents, the reference count leaves room for one more holder, `valid` is a
flag, and the block number hashes to a bucket. -/
structure Good (r : Buf) : Prop where
  held : r.lock ≠ none → 1 ≤ r.refcnt ∧ r.valid = 1
  bound : r.refcnt + (if r.lock = none then 1 else 0) < 4294967296
  vbit : r.valid = 0 ∨ r.valid = 1
  idx : ∃ k, bucketIdx (hash (toInt r.blockno)) = Except.ok k

/-- Two slots of one bucket list with the same identity: the later one is not valid. -/
def Later (s : BCache) (x y : Ptr) : Prop :=
  (s.deref x).dev = (s.deref y).dev → (s.deref x).blockno = (s.deref y).blockno →
    (s.deref y).valid = 0

/-- The invariant of the buffer cache, with the bucket lists made explicit. -/
structure InvL (s : BCache) (L : Nat → List Ptr) : Prop where
  shape : Shape s L
  good : ∀ i, i < NBUF → Good (s.deref (Ptr.buf i))
  home : ∀ h, h < NBUCKETS → ∀ p ∈ L h, (s.deref p).valid = 1 →
    bucketIdx (hash (toInt (s.deref p).blockno)) = Except.ok h
  uniq : ∀ h, h < NBUCKETS → (L h).Pairwise (Later s)

/-- The invariant of the buffer cache. -/
def Inv (s : BCache) : Prop := InvL s (blist s)

/-- States reachable from `binit` by calls that return.  `brelse`, `bpin` and
`bunpin` are given slots of the pool; `brelse` checks itself that the caller holds
the slot; `bunpin` is applied to a slot that has a pin left (a reference beyond the
lock holder's), and `bpin` leaves the 32-bit count room. -/
inductive Reachable : BCache → Prop where
  | init (disk : Nat → Nat → List Nat) : Reachable (binit (boot disk))
  | bread {s t : BCache} {pid dev blockno : Nat} {b : Ptr} :
      Reachable s → bread s pid dev blockno = Except.ok (b, t) → Reachable t
  | brelse {s t : BCache} {pid i : Nat} :
      Reachable s → i < NBUF → brelse s pid (Ptr.buf i) = Except.ok t → Reachable t
  | bpin {s t : BCache} {i : Nat} :
      Reachable s → i < NBUF → (s.buf i).refcnt + 2 < 4294967296 →
      bpin s (Ptr.buf i) = Except.ok t → Reachable t
  | bunpin {s t : BCache} {i : Nat} :
      Reachable s → i < NBUF →
      (if (s.buf i).lock = none then 0 else 1) < (s.buf i).refcnt →
      bunpin s (Ptr.buf i) = Except.ok t → Reachable t
/-- The list `binit` builds for bucket `h`: the slots `i` with `i % 13 = h`, the
last one pushed first. -/
def initList (h : Nat) : List Ptr :=
  ((List.range NBUF).reverse.filter (fun i => i % NBUCKETS = h)).map Ptr.buf

/-- Boolean check that a chain of links is in place. -/
def segB (s : BCache) : Ptr → List Ptr → Ptr → Bool
  | a, [], z => decide ((s.deref a).next = z) && decide ((s.deref z).prev = a)
  | a, x :: r, z =>
    decide ((s.deref a).next = x) && decide ((s.deref x).prev = a) && segB s x r z

/-- The same cache records over another disk. -/
def BCache.onDisk (s : BCache) (d : Nat → Nat → List Nat) : BCache := { s with disk := d }
/-- A cache freshly initialised by `binit` over a disk whose blocks are all empty. -/
def fresh : BCache := binit (boot (fun _ _ => []))

/-- Whether a call returned normally. -/
def returned {α : Type} : Except Err α → Bool
  | Except.ok _ => true
  | Except.error _ => false
/-- Read each block `(dev, blockno)` of the list with `bread` and release it with
`brelse` before reading the next. -/
def readRel (pid : Nat) : List (Nat × Nat) → BCache → Except Err BCache
  | [], s => Except.ok s
  | x :: r, s =>
    match bread s pid x.1 x.2 with
    | Except.error e => Except.error e
    | Except.ok (b, t) =>
      match brelse t pid b with
      | Except.error e => Except.error e
      | Except.ok u => readRel pid r u
/-- A call returned normally with a result that passes the test. -/
def okAnd {α : Type} (r : Except Err α) (p : α → Bool) : Bool :=
  match r with
  | Except.ok a => p a
  | Except.error _ => false
/-- A call of the buffer-cache interface. -/
inductive Call where
  | bread (pid dev blockno : Nat)
  | brelse (pid i : Nat)
  | bpin (i : Nat)
  | bunpin (i : Nat)

/-- Whether the lookup loop of `bget` finds the block, that is, whether `bget` takes
the slot as it is instead of giving a recycled slot the identity. -/
def cached (s : BCache) (dev blockno : Nat) : Bool :=
  match bucketIdx (hash (toInt blockno)) with
  | Except.ok h =>
    match bget_scan s (Ptr.head h) dev blockno FUEL (s.deref (Ptr.head h)).next with
    | Except.ok (some _) => true
    | _ => false
  | Except.error _ => false

/-- A cache state with the bookkeeping of refcount conservation: for every slot, the
`bread` calls that returned it and have not been matched by a `brelse`, and the
`bpin` calls not matched by a `bunpin`, both counted since the slot last took its
identity. -/
structure Run where
  s : BCache
  reads : Nat → Nat
  pins : Nat → Nat

/-- One call with its bookkeeping; `none` when the call does not return or when a
`brelse` / `bunpin` has no earlier unmatched `bread` / `bpin` on that slot. -/
def step (r : Run) : Call → Option Run
  | Call.bread pid dev blockno =>
    match bread r.s pid dev blockno with
    | Except.ok (Ptr.buf j, t) =>
      if cached r.s dev blockno = true then
        some { s := t, reads := Function.update r.reads j (r.reads j + 1), pins := r.pins }
      else
        some { s := t, reads := Function.update r.reads j 1,
               pins := Function.update r.pins j 0 }
    | _ => none
  | Call.brelse pid i =>
    if i < NBUF ∧ 1 ≤ r.reads i then
      match brelse r.s pid (Ptr.buf i) with
      | Except.ok t =>
        some { s := t, reads := Function.update r.reads i (r.reads i - 1), pins := r.pins }
      | Except.error _ => none
    else none
  | Call.bpin i =>
    if i < NBUF then
      match bpin r.s (Ptr.buf i) with
      | Except.ok t =>
        some { s := t, reads := r.reads, pins := Function.update r.pins i (r.pins i + 1) }
      | Except.error _ => none
    else none
  | Call.bunpin i =>
    if i < NBUF ∧ 1 ≤ r.pins i then
      match bunpin r.s (Ptr.buf i) with
      | Except.ok t =>
        some { s := t, reads := r.reads, pins := Function.update r.pins i (r.pins i - 1) }
      | Except.error _ => none
    else none

/-- A sequence of calls, each applied to the state the previous one left. -/
def run : List Call → Run → Option Run
  | [], r => some r
  | c :: cs, r =>
    match step r c with
    | some r' => run cs r'
    | none => none

/-- States reached from `binit` by calls of the interface that return, whatever their
arguments: `bread` of any block, and `brelse`, `bpin`, `bunpin` of any slot of the
pool. -/
inductive Called : BCache → Prop where
  | init (disk : Nat → Nat → List Nat) : Called (binit (boot disk))
  | bread {s t : BCache} {pid dev blockno : Nat} {b : Ptr} :
      Called s → bread s pid dev blockno = Except.ok (b, t) → Called t
  | brelse {s t : BCache} {pid i : Nat} :
      Called s → i < NBUF → brelse s pid (Ptr.buf i) = Except.ok t → Called t
  | bpin {s t : BCache} {i : Nat} :
      Called s → i < NBUF → bpin s (Ptr.buf i) = Except.ok t → Called t
  | bunpin {s t : BCache} {i : Nat} :
      Called s → i < NBUF → bunpin s (Ptr.buf i) = Except.ok t → Called t

/-- Lines 101-123 of `bget`, the part run while the lock of bucket `hash(blockno)` is
held: the lookup loop and, on a miss, the search for a reclaimable slot of the same
bucket.  The result is the slot when the call is decided there.  It is `none` when the
bucket has neither the block nor a reclaimable slot: then the bucket lock has been
released (line 123) and the cache is as it was. -/
def bget_local (s : BCache) (pid dev blockno : Nat) : Except Err (Option (Ptr × BCache)) :=
  match bucketIdx (hash (toInt blockno)) with
  | Except.error e => Except.error e
  | Except.ok bucket_id =>
    let head := Ptr.head bucket_id
    match bget_scan s head dev blockno FUEL (s.deref head).next with
    | Except.error e => Except.error e
    | Except.ok (some b) =>
      let s1 := s.store b { s.deref b with refcnt := ((s.deref b).refcnt + 1) % 4294967296 }
      match acquiresleep s1 pid b with
      | Except.error e => Except.error e
      | Except.ok s2 => Except.ok (some (b, s2))
    | Except.ok none =>
      match find_lru_block s head with
      | Except.error e => Except.error e
      | Except.ok (some b) =>
        let s1 := init_blocks s b dev blockno
        match acquiresleep s1 pid b with
        | Except.error e => Except.error e
        | Except.ok s2 => Except.ok (some (b, s2))
      | Except.ok none => Except.ok none

/-- Lines 125-142 of `bget`, run after the lock of bucket `hash(blockno)` has been
released: the loop over the other buckets, which takes that lock again (line 132) only
to link and claim the slot it found. -/
def bget_remote (s : BCache) (pid dev blockno : Nat) : Except Err (Ptr × BCache) :=
  match bucketIdx (hash (toInt blockno)) with
  | Except.error e => Except.error e
  | Except.ok bucket_id => bget_steal s pid dev blockno bucket_id (List.range NBUCKETS)

/-- Whether the part of `bget` run under the bucket lock ended without a slot. -/
def missed (r : Except Err (Option (Ptr × BCache))) : Bool :=
  match r with
  | Except.ok none => true
  | _ => false

/-- Whether a call ended asleep on a held sleep lock. -/
def blocked {α : Type} (r : Except Err α) : Bool :=
  match r with
  | Except.error Err.blocks => true
  | _ => false

/-- Bookkeeping invariant of refcount conservation: the state is reached by calls that
return, the counts of every slot add up to its `refcnt`, and they fit the 32-bit
counter. -/
structure Summed (r : Run) : Prop where
  called : Called r.s
  sum : ∀ i, i < NBUF → (r.s.buf i).refcnt = r.reads i + r.pins i
  fits : ∀ i, i < NBUF → r.reads i + r.pins i < 4294967296

/-- Lines 152-156 of `bread`: what `bread` does with the slot `b` that `bget` returned,
namely the disk read when the slot is not valid. -/
def bread_rest (b : Ptr) (s1 : BCache) : Ptr × BCache :=
  if (s1.deref b).valid = 0 then
    let s2 := virtio_disk_rw s1 b false
    (b, s2.store b { s2.deref b with valid := 1 })
  else (b, s1)

end Bio

/-! ## Physical page allocator (`kalloc.c`) -/

namespace Kalloc

open Bio (Err)

/-- Modelled from the spec: the page size `PGSIZE` comes from `riscv.h`, which is
not among the sources; the allocator hands out whole 4096-byte pages. -/
def PGSIZE : Nat := 4096

/-- What `kalloc.c` takes from headers and the linker script that are not among the
sources: the number of processors `NCPU` (param.h), the first address after the
kernel `end` (kernel.ld) and the top of physical memory `PHYSTOP` (memlayout.h). -/
structure Conf where
  NCPU : Nat
  kend : Nat
  PHYSTOP : Nat

/-- The allocator: the head pointer `kmems[i].freelist` of every partition (0 is the
null pointer) and the bytes of physical memory, in which a free frame keeps its
`next` link. -/
structure KMem where
  freelist : Nat → Nat
  mem : Nat → Nat

/-- A call that did not return: why, and the state it had reached. -/
structure Halt where
  err : Err
  state : KMem

/-- The library function `memset(dst, c, n)` on the byte memory. -/
def memset (mem : Nat → Nat) (dst c n : Nat) : Nat → Nat :=
  fun x => if dst ≤ x ∧ x < dst + n then c % 256 else mem x

/-- Reading `r->next`: the 8 bytes at `r`, little-endian. -/
def readNext (mem : Nat → Nat) (r : Nat) : Nat :=
  mem r + 256 * (mem (r + 1) + 256 * (mem (r + 2) + 256 * (mem (r + 3) + 256 * (mem (r + 4) +
    256 * (mem (r + 5) + 256 * (mem (r + 6) + 256 * mem (r + 7)))))))

/-- Writing `r->next = v`: the 8 bytes at `r`, little-endian. -/
def writeNext (mem : Nat → Nat) (r v : Nat) : Nat → Nat :=
  fun x => if r ≤ x ∧ x < r + 8 then (v / 256 ^ (x - r)) % 256 else mem x

/-- Indexing `kmems[cpu_id]`: defined only inside the array. -/
def cpuIdx (c : Conf) (cpu_id : Int) : Option Nat :=
  if 0 ≤ cpu_id ∧ cpu_id < (c.NCPU : Int) then some cpu_id.toNat else none

/-- The source function `kfree_cpu(pa, cpu_id)`. -/
def kfree_cpu (c : Conf) (s : KMem) (pa : Nat) (cpu_id : Int) : Except Halt KMem :=
  if pa % PGSIZE ≠ 0 ∨ pa < c.kend ∨ pa ≥ c.PHYSTOP then
    Except.error { err := Err.panic "kfree", state := s }
  else
    let s1 : KMem := { s with mem := memset s.mem pa 1 PGSIZE }
    match cpuIdx c cpu_id with
    | none => Except.error { err := Err.undef, state := s1 }
    | some i =>
      let s2 : KMem := { s1 with mem := writeNext s1.mem pa (s1.freelist i) }
      Except.ok { s2 with freelist := Function.update s2.freelist i pa }

/-- The loop of `kalloc_cpu` over the other partitions: take the head of the first
one that is not empty. -/
def steal (s : KMem) (cpu : Nat) : List Nat → Nat × KMem
  | [] => (0, s)
  | i :: rest =>
    if i = cpu then steal s cpu rest
    else if s.freelist i ≠ 0 then
      (s.freelist i,
        { s with freelist := Function.update s.freelist i (readNext s.mem (s.freelist i)) })
    else steal s cpu rest

/-- The source function `kalloc_cpu(cpu_id)`: the frame returned (0 when there is
none) and the new state. -/
def kalloc_cpu (c : Conf) (s : KMem) (cpu_id : Int) : Except Halt (Nat × KMem) :=
  match cpuIdx c cpu_id with
  | none => Except.error { err := Err.undef, state := s }
  | some cpu =>
    let r := s.freelist cpu
    let s1 : KMem :=
      if r ≠ 0 then { s with freelist := Function.update s.freelist cpu (readNext s.mem r) }
      else s
    let p : Nat × KMem := if r = 0 then steal s1 cpu (List.range c.NCPU) else (r, s1)
    if p.1 ≠ 0 then Except.ok (p.1, { p.2 with mem := memset p.2.mem p.1 5 PGSIZE })
    else Except.ok (p.1, p.2)

/-- The frames `l` are chained in this order from the head pointer `a` to null. -/
def IsList (mem : Nat → Nat) : Nat → List Nat → Prop
  | a, [] => a = 0
  | a, x :: r => a = x ∧ a ≠ 0 ∧ IsList mem (readNext mem a) r

/-- Allocator states of the data model: every partition's free list is a chain of
page-aligned frames ending in null, and a frame is on at most one list, once. -/
structure WF (c : Conf) (s : KMem) (L : Nat → List Nat) : Prop where
  list : ∀ i, i < c.NCPU → IsList s.mem (s.freelist i) (L i)
  aligned : ∀ i, i < c.NCPU → ∀ a ∈ L i, a % PGSIZE = 0
  nodup : ∀ i, i < c.NCPU → (L i).Nodup
  disj : ∀ i j, i < c.NCPU → j < c.NCPU → i ≠ j → ∀ a ∈ L i, a ∉ L j

/-- The order in which `kalloc_cpu(cpu)` looks at the partitions. -/
def order (c : Conf) (cpu : Nat) : List Nat :=
  cpu :: (List.range c.NCPU).filter (fun i => decide (i ≠ cpu))

/-- Modelled from the spec: the macro `PGROUNDUP` comes from `riscv.h`, which is not
among the sources; it rounds an address up to page alignment, in 64-bit unsigned
arithmetic. -/
def PGROUNDUP (sz : Nat) : Nat :=
  ((sz + PGSIZE - 1) % 18446744073709551616) / PGSIZE * PGSIZE

/-- The source function `kfree(pa)`.  The processor id comes from `cpuid()` (proc.c,
not among the sources); it is the argument `id` here. -/
def kfree (c : Conf) (s : KMem) (pa : Nat) (id : Int) : Except Halt KMem :=
  kfree_cpu c s pa id

/-- The source function `kalloc()`, run on the processor `id`. -/
def kalloc (c : Conf) (s : KMem) (id : Int) : Except Halt (Nat × KMem) :=
  kalloc_cpu c s id

/-- The loop of `freerange`: `for(; p + PGSIZE <= pa_end; p += PGSIZE) kfree(p);`
run on the processor `id`, with 64-bit pointer arithmetic. -/
def freerange_loop (c : Conf) (id : Int) (pa_end : Nat) : Nat → KMem → Nat → Except Halt KMem
  | 0, s, _ => Except.error { err := Err.loops, state := s }
  | n + 1, s, p =>
    if (p + PGSIZE) % 18446744073709551616 ≤ pa_end then
      match kfree c s p id with
      | Except.error e => Except.error e
      | Except.ok t => freerange_loop c id pa_end n t ((p + PGSIZE) % 18446744073709551616)
    else Except.ok s

/-- The source function `freerange(pa_start, pa_end)`, run on the processor `id`.  The
loop is given one round more than there are pages below `pa_end`. -/
def freerange (c : Conf) (s : KMem) (id : Int) (pa_start pa_end : Nat) : Except Halt KMem :=
  freerange_loop c id pa_end (pa_end / PGSIZE + 1) s (PGROUNDUP pa_start)

/-- The source function `kinit`, run on the processor `id`: the locks are set up and
the memory between the kernel end and `PHYSTOP` is handed to `freerange`. -/
def kinit (c : Conf) (s : KMem) (id : Int) : Except Halt KMem :=
  freerange c s id c.kend c.PHYSTOP

/-- Static storage before `kinit`: every head pointer null, memory arbitrary. -/
def kboot (mem : Nat → Nat) : KMem := { freelist := fun _ => 0, mem := mem }

/-- The calls `kfree(p)` for the pages `p` of a list, in the order of the list. -/
def kfreeAll (c : Conf) (id : Int) : List Nat → KMem → Except Halt KMem
  | [], s => Except.ok s
  | p :: ps, s =>
    match kfree c s p id with
    | Except.error e => Except.error e
    | Except.ok t => kfreeAll c id ps t

/-- The pages of the range: `PGROUNDUP(pa_start) + 4096 * k` for `k` below
`(pa_end - PGROUNDUP(pa_start)) / 4096`, ascending (the difference is 0 when
`pa_end` is below the rounded start). -/
def pages (pa_start pa_end : Nat) : List Nat :=
  (List.range ((pa_end - PGROUNDUP pa_start) / PGSIZE)).map
    (fun k => PGROUNDUP pa_start + PGSIZE * k)

/-- The frames `l` are chained in this order from the pointer `a`, and the next link
of the last one is `z` (`a = z` when there is no frame). -/
def Chain (mem : Nat → Nat) : Nat → List Nat → Nat → Prop
  | a, [], z => a = z
  | a, x :: r, z => a = x ∧ Chain mem (readNext mem a) r z

/-- What the allocator assumes of the memory layout: the kernel does not end at
address 0 and the managed range lies within the 64-bit address space, with room
for the pointer arithmetic of `freerange`. -/
structure Conf.Sane (c : Conf) : Prop where
  kend_pos : 0 < c.kend
  top : c.PHYSTOP + 2 * PGSIZE ≤ 18446744073709551616

/-- A frame address that `kfree_cpu` accepts. -/
def validFrame (c : Conf) (pa : Nat) : Prop :=
  pa % PGSIZE = 0 ∧ c.kend ≤ pa ∧ pa < c.PHYSTOP

/-- Free lists of the data model whose frames all lie in the managed range. -/
structure Managed (c : Conf) (s : KMem) (L : Nat → List Nat) : Prop where
  wf : WF c s L
  range : ∀ i, i < c.NCPU → ∀ a ∈ L i, c.kend ≤ a ∧ a < c.PHYSTOP

/-- Number of frames on all the free lists. -/
def freeTotal (c : Conf) (L : Nat → List Nat) : Nat :=
  ((List.range c.NCPU).map (fun i => (L i).length)).sum

/-- A call of the allocator interface. -/
inductive KCall where
  | alloc (cpu : Nat)
  | free (pa cpu : Nat)

/-- An allocator state with its bookkeeping: the frames `kalloc_cpu` has returned
and that have not been passed to `kfree_cpu` since. -/
structure KRun where
  s : KMem
  used : List Nat

/-- One call with its bookkeeping; `none` when the call does not return or when
`kfree_cpu` is given a frame that is not currently allocated. -/
def kstep (c : Conf) (r : KRun) : KCall → Option KRun
  | KCall.alloc cpu =>
    match kalloc_cpu c r.s (cpu : Int) with
    | Except.ok (a, t) => some { s := t, used := if a = 0 then r.used else a :: r.used }
    | Except.error _ => none
  | KCall.free pa cpu =>
    if pa ∈ r.used then
      match kfree_cpu c r.s pa (cpu : Int) with
      | Except.ok t => some { s := t, used := r.used.erase pa }
      | Except.error _ => none
    else none

/-- A sequence of calls, each applied to the state the previous one left. -/
def krun (c : Conf) : List KCall → KRun → Option KRun
  | [], r => some r
  | k :: ks, r =>
    match kstep c r k with
    | some r' => krun c ks r'
    | none => none

/-- The invariant of the allocator along a run: well-formed free lists in the managed
range, the allocated frames valid, listed once and on no free list, and `n` frames
in all. -/
structure KInv (c : Conf) (n : Nat) (r : KRun) (L : Nat → List Nat) : Prop where
  man : Managed c r.s L
  valid : ∀ a ∈ r.used, validFrame c a
  nodup : r.used.Nodup
  apart : ∀ a ∈ r.used, ∀ i, i < c.NCPU → a ∉ L i
  count : freeTotal c L + r.used.length = n

/-- A small memory layout for concrete runs: two processors, frames from 4096 up to
65536. -/
def smallConf : Conf := { NCPU := 2, kend := 4096, PHYSTOP := 65536 }

/-- A state over `smallConf`: partition 0 holds the frame 8192, partition 1 the
frame 12288, and the memory is zero-filled. -/
def twoLists : KMem :=
  { freelist := fun i => if i = 0 then 8192 else if i = 1 then 12288 else 0,
    mem := fun _ => 0 }
end Kalloc

namespace Bio

theorem deref_store (s : BCache) (p q : Ptr) (v : Buf) (hp : p ≠ Ptr.null) :
    (s.store p v).deref q = if q = p then v else s.deref q := by
  cases p <;> cases q <;> simp_all [BCache.store, BCache.deref]

theorem store_disk (s : BCache) (p : Ptr) (v : Buf) : (s.store p v).disk = s.disk := by
  cases p <;> rfl

theorem store_log (s : BCache) (p : Ptr) (v : Buf) : (s.store p v).log = s.log := by
  cases p <;> rfl

theorem pop_deref (s : BCache) (b q : Ptr)
    (hp : (s.deref b).prev ≠ Ptr.null) (hn : (s.deref b).next ≠ Ptr.null)
    (hb : (s.deref b).prev ≠ b) :
    (pop s b).deref q =
      { s.deref q with
        next := if q = (s.deref b).prev then (s.deref b).next else (s.deref q).next
        prev := if q = (s.deref b).next then (s.deref b).prev else (s.deref q).prev } := by
  have hb' : ¬ b = (s.deref b).prev := fun h => hb h.symm
  simp only [pop, deref_store _ _ _ _ hp, if_neg hb', deref_store _ _ _ _ hn]
  by_cases h1 : q = (s.deref b).next <;> by_cases h2 : q = (s.deref b).prev <;>
    simp_all

theorem push_deref (s : BCache) (head node q : Ptr)
    (hh : head ≠ Ptr.null) (hnode : node ≠ Ptr.null) (hne : node ≠ head)
    (hf : (s.deref head).next ≠ Ptr.null) (hfn : (s.deref head).next ≠ node) :
    (push s head node).deref q =
      { s.deref q with
        next := if q = head then node else if q = node then (s.deref head).next
          else (s.deref q).next
        prev := if q = (s.deref head).next then node else if q = node then head
          else (s.deref q).prev } := by
  have hne' : ¬ head = node := fun h => hne h.symm
  simp only [push, deref_store _ _ _ _ hnode, if_neg hne', if_true]
  simp only [deref_store _ _ _ _ hf, deref_store _ _ _ _ hh, if_neg hne', if_neg hfn, deref_store _ _ _ _ hnode]
  by_cases h1 : q = head <;> by_cases h2 : q = node <;> by_cases h3 : q = (s.deref head).next <;>
    simp_all

theorem deref_store_gen (s : BCache) (p q : Ptr) (v : Buf) :
    (s.store p v).deref q = if p ≠ Ptr.null ∧ q = p then v else s.deref q := by
  cases p <;> cases q <;> simp_all [BCache.store, BCache.deref]

theorem store_core (s : BCache) (p q : Ptr) (v : Buf) (h : v.core = (s.deref p).core) :
    ((s.store p v).deref q).core = (s.deref q).core := by
  rw [deref_store_gen]
  split_ifs with hc
  · rw [hc.2, h]
  · rfl

theorem pop_core (s : BCache) (b q : Ptr) : ((pop s b).deref q).core = (s.deref q).core := by
  simp only [pop]
  refine (store_core _ _ _ _ ?_).trans (store_core _ _ _ _ ?_) <;> rfl

theorem push_core (s : BCache) (head node q : Ptr) :
    ((push s head node).deref q).core = (s.deref q).core := by
  simp only [push]
  refine (store_core _ _ _ _ ?_).trans ((store_core _ _ _ _ ?_).trans
    ((store_core _ _ _ _ ?_).trans (store_core _ _ _ _ ?_))) <;> rfl

theorem pop_disk (s : BCache) (b : Ptr) : (pop s b).disk = s.disk ∧ (pop s b).log = s.log := by
  simp [pop, store_disk, store_log]

theorem push_disk (s : BCache) (head node : Ptr) :
    (push s head node).disk = s.disk ∧ (push s head node).log = s.log := by
  simp [push, store_disk, store_log]

theorem seg_frame (s t : BCache) (a z : Ptr) (l : List Ptr)
    (hn : ∀ x ∈ a :: l, (t.deref x).next = (s.deref x).next)
    (hp : ∀ x ∈ l ++ [z], (t.deref x).prev = (s.deref x).prev)
    (h : Seg s a l z) : Seg t a l z := by
  induction l generalizing a with
  | nil =>
    simp only [Seg] at h ⊢
    rw [hn a (by simp), hp z (by simp)]
    exact h
  | cons x r ih =>
    simp only [Seg] at h ⊢
    refine ⟨by rw [hn a (by simp)]; exact h.1, by rw [hp x (by simp)]; exact h.2.1, ?_⟩
    apply ih x
    · intro y hy
      exact hn y (List.mem_cons_of_mem _ hy)
    · intro y hy
      exact hp y (by simp at hy ⊢; tauto)
    · exact h.2.2

theorem seg_snoc (s : BCache) (a x z : Ptr) (l : List Ptr) :
    Seg s a (l ++ [x]) z ↔ Seg s a l x ∧ (s.deref x).next = z ∧ (s.deref z).prev = x := by
  induction l generalizing a with
  | nil => simp [Seg, and_assoc]
  | cons y r ih => simp [Seg, ih, and_assoc]

theorem seg_prev_mem (s : BCache) (a b z : Ptr) (A B : List Ptr)
    (h : Seg s a (A ++ b :: B) z) : (s.deref b).prev ∈ a :: A := by
  induction A generalizing a with
  | nil => simp only [List.nil_append, Seg] at h; simp [h.2.1]
  | cons y r ih =>
    simp only [List.cons_append, Seg] at h
    exact List.mem_cons_of_mem _ (ih y h.2.2)

theorem seg_next_mem (s : BCache) (a b z : Ptr) (A B : List Ptr)
    (h : Seg s a (A ++ b :: B) z) : (s.deref b).next ∈ B ++ [z] := by
  induction A generalizing a with
  | nil =>
    simp only [List.nil_append, Seg] at h
    cases B with
    | nil => simp only [Seg] at h; simp [h.2.2.1]
    | cons y r => simp only [Seg] at h; simp [h.2.2.1]
  | cons y r ih =>
    simp only [List.cons_append, Seg] at h
    exact ih y h.2.2

theorem seg_pop (s t : BCache) (a b z : Ptr) (A B : List Ptr)
    (h : Seg s a (A ++ b :: B) z) (hnd : (a :: (A ++ b :: B)).Nodup)
    (hz : z ∉ A ++ b :: B)
    (hn : ∀ q, (t.deref q).next =
      if q = (s.deref b).prev then (s.deref b).next else (s.deref q).next)
    (hp : ∀ q, (t.deref q).prev =
      if q = (s.deref b).next then (s.deref b).prev else (s.deref q).prev) :
    Seg t a (A ++ B) z := by
  induction A generalizing a with
  | nil =>
    simp only [List.nil_append, Seg] at h
    obtain ⟨h1, h2, h3⟩ := h
    simp only [List.nil_append] at hnd hz ⊢
    have hab : a ≠ b := by
      intro e; subst e; simp at hnd
    cases B with
    | nil =>
      simp only [Seg] at h3 ⊢
      refine ⟨?_, ?_⟩
      · rw [hn, h2]; simp [h3.1]
      · rw [hp, h3.1]; simp [h2]
    | cons y r =>
      simp only [Seg] at h3 ⊢
      obtain ⟨h4, h5, h6⟩ := h3
      have hnd' : a ≠ y ∧ a ∉ r ∧ b ≠ y ∧ b ∉ r ∧ y ∉ r ∧ r.Nodup := by
        simp only [List.nodup_cons, List.mem_cons, not_or] at hnd
        tauto
      have hz' : z ≠ b ∧ z ≠ y ∧ z ∉ r := by
        simp only [List.mem_cons, not_or] at hz; tauto
      refine ⟨?_, ?_, ?_⟩
      · rw [hn, h2]; simp [h4]
      · rw [hp, h4]; simp [h2]
      · refine seg_frame s t y z r ?_ ?_ h6
        · intro x hx
          rw [hn, h2, if_neg]
          rintro rfl
          simp only [List.mem_cons] at hx
          rcases hx with e | e
          · exact hnd'.1 e
          · exact hnd'.2.1 e
        · intro x hx
          rw [hp, h4, if_neg]
          rintro rfl
          simp only [List.mem_append, List.mem_singleton] at hx
          rcases hx with e | e
          · exact hnd'.2.2.2.2.1 e
          · exact hz'.2.1 e.symm
  | cons x r ih =>
    simp only [List.cons_append, Seg] at h ⊢
    obtain ⟨h1, h2, h3⟩ := h
    have hnd1 : (x :: (r ++ b :: B)).Nodup := (List.nodup_cons.mp hnd).2
    have hz1 : z ∉ r ++ b :: B := fun hm => hz (by simp at hm ⊢; tauto)
    have hpm := seg_prev_mem s x b z r B h3
    have hnm := seg_next_mem s x b z r B h3
    have ha : a ∉ x :: (r ++ b :: B) := (List.nodup_cons.mp hnd).1
    refine ⟨?_, ?_, ih x h3 hnd1 hz1⟩
    · rw [hn, if_neg, h1]
      intro e
      rw [← e] at hpm
      apply ha
      simp only [List.mem_cons, List.mem_append] at hpm ⊢
      tauto
    · rw [hp, if_neg, h2]
      intro e
      rw [← e] at hnm
      simp only [List.mem_append, List.mem_singleton] at hnm
      rcases hnm with e1 | e1
      · have := (List.nodup_cons.mp hnd1).1
        apply this
        simp [e1]
      · apply hz
        simp [← e1]

theorem seg_push (s t : BCache) (a b z : Ptr) (l : List Ptr)
    (h : Seg s a l z) (hnd : (a :: l).Nodup) (hz : z ∉ l) (hb : b ∉ a :: l) (hbz : b ≠ z)
    (hn : ∀ q, (t.deref q).next =
      if q = a then b else if q = b then (s.deref a).next else (s.deref q).next)
    (hp : ∀ q, (t.deref q).prev =
      if q = (s.deref a).next then b else if q = b then a else (s.deref q).prev) :
    Seg t a (b :: l) z := by
  have hba : b ≠ a := fun e => hb (by simp [e])
  have hbl : b ∉ l := fun e => hb (by simp [e])
  have hal : a ∉ l := (List.nodup_cons.mp hnd).1
  cases l with
  | nil =>
    simp only [Seg] at h ⊢
    refine ⟨by rw [hn]; simp, ?_, ?_, ?_⟩
    · rw [hp, h.1, if_neg hbz]; simp
    · rw [hn, if_neg hba, h.1]; simp
    · rw [hp, h.1]; simp
  | cons y r =>
    simp only [Seg] at h ⊢
    obtain ⟨h1, h2, h3⟩ := h
    have hy : y ≠ a ∧ y ≠ b ∧ y ∉ r ∧ z ≠ y ∧ z ∉ r ∧ b ∉ r ∧ a ∉ r := by
      simp only [List.nodup_cons, List.mem_cons, not_or] at hnd hz hbl hal
      refine ⟨fun e => hal.1 e.symm, fun e => hbl.1 e.symm, hnd.2.1, hz.1, hz.2, hbl.2, hal.2⟩
    refine ⟨by rw [hn]; simp, ?_, ?_, ?_, ?_⟩
    · rw [hp, h1, if_neg (fun e => hy.2.1 e.symm)]; simp
    · rw [hn, if_neg hba, h1]; simp
    · rw [hp, h1]; simp
    · refine seg_frame s t y z r ?_ ?_ h3
      · intro x hx
        rw [hn, if_neg, if_neg]
        · rintro rfl
          simp only [List.mem_cons] at hx
          rcases hx with e | e
          · exact hy.2.1 e.symm
          · exact hy.2.2.2.2.2.1 e
        · rintro rfl
          simp only [List.mem_cons] at hx
          rcases hx with e | e
          · exact hy.1 e.symm
          · exact hy.2.2.2.2.2.2 e
      · intro x hx
        rw [hp, h1, if_neg, if_neg]
        · rintro rfl
          simp only [List.mem_append, List.mem_singleton] at hx
          rcases hx with e | e
          · exact hy.2.2.2.2.2.1 e
          · exact hbz e
        · rintro rfl
          simp only [List.mem_append, List.mem_singleton] at hx
          rcases hx with e | e
          · exact hy.2.2.1 e
          · exact hy.2.2.2.1 e.symm

theorem scan_seg (s : BCache) (a z : Ptr) (l : List Ptr) (dev blockno fuel : Nat)
    (h : Seg s a l z) (hz : z ∉ l) (hf : l.length < fuel) :
    bget_scan s z dev blockno fuel (s.deref a).next =
      Except.ok (l.find? (fun p => decide ((s.deref p).dev = dev ∧ (s.deref p).blockno = blockno))) := by
  induction l generalizing a fuel with
  | nil =>
    cases fuel with
    | zero => simp at hf
    | succ n => simp only [Seg] at h; simp [bget_scan, h.1]
  | cons x r ih =>
    cases fuel with
    | zero => simp at hf
    | succ n =>
      simp only [Seg] at h
      have hxz : x ≠ z := fun e => hz (by simp [e])
      have hzr : z ∉ r := fun e => hz (by simp [e])
      rw [h.1]
      simp only [bget_scan, if_neg hxz, List.find?_cons]
      by_cases hm : (s.deref x).dev = dev ∧ (s.deref x).blockno = blockno
      · simp [hm]
      · rw [if_neg hm, ih x n h.2.2 hzr (by simpa using hf)]
        simp [hm]

theorem lru_seg (s : BCache) (a z : Ptr) (l : List Ptr) (fuel : Nat)
    (h : Seg s a l z) (ha : a ∉ l) (hf : l.length < fuel) :
    find_lru_loop s a fuel (s.deref z).prev =
      Except.ok (l.reverse.find? (fun p => decide ((s.deref p).refcnt = 0))) := by
  induction l using List.reverseRecOn generalizing z fuel with
  | nil =>
    cases fuel with
    | zero => simp at hf
    | succ n => simp only [Seg] at h; simp [find_lru_loop, h.2]
  | append_singleton r x ih =>
    cases fuel with
    | zero => simp at hf
    | succ n =>
      rw [seg_snoc] at h
      have hxa : x ≠ a := fun e => ha (by simp [e])
      have har : a ∉ r := fun e => ha (by simp [e])
      rw [h.2.2]
      simp only [find_lru_loop, if_neg hxa, List.reverse_append, List.reverse_cons,
        List.reverse_nil, List.nil_append, List.singleton_append, List.find?_cons]
      by_cases hm : (s.deref x).refcnt = 0
      · simp [hm]
      · rw [if_neg hm, ih x n h.1 har (by simpa using hf)]
        simp [hm]

theorem walk_seg (s : BCache) (a z : Ptr) (l : List Ptr) (fuel : Nat)
    (h : Seg s a l z) (hz : z ∉ l) (hf : l.length < fuel) :
    walk s z fuel (s.deref a).next = l := by
  induction l generalizing a fuel with
  | nil =>
    cases fuel with
    | zero => simp at hf
    | succ n => simp only [Seg] at h; simp [walk, h.1]
  | cons x r ih =>
    cases fuel with
    | zero => simp at hf
    | succ n =>
      simp only [Seg] at h
      have hxz : x ≠ z := fun e => hz (by simp [e])
      have hzr : z ∉ r := fun e => hz (by simp [e])
      rw [h.1]
      simp only [walk, if_neg hxz]
      rw [ih x n h.2.2 hzr (by simpa using hf)]

theorem rings_head_not_mem {s : BCache} {L : Nat → List Ptr} (R : Rings s L)
    (h k : Nat) (hh : h < NBUCKETS) : Ptr.head k ∉ L h := by
  intro hm
  obtain ⟨i, _, e⟩ := R.slot h hh _ hm
  cases e

theorem rings_null_not_mem {s : BCache} {L : Nat → List Ptr} (R : Rings s L)
    (h : Nat) (hh : h < NBUCKETS) : Ptr.null ∉ L h := by
  intro hm
  obtain ⟨i, _, e⟩ := R.slot h hh _ hm
  cases e

theorem rings_length {s : BCache} {L : Nat → List Ptr} (R : Rings s L)
    (h : Nat) (hh : h < NBUCKETS) : (L h).length < FUEL := by
  have hsub : L h ⊆ (List.range NBUF).map Ptr.buf := by
    intro p hp
    obtain ⟨i, hi, e⟩ := R.slot h hh p hp
    simp only [List.mem_map, List.mem_range]
    exact ⟨i, hi, e.symm⟩
  have := (List.subperm_of_subset (R.nodup h hh) hsub).length_le
  simp only [List.length_map, List.length_range] at this
  have : NBUF < FUEL := by decide
  omega

theorem rings_blist {s : BCache} {L : Nat → List Ptr} (R : Rings s L)
    (h : Nat) (hh : h < NBUCKETS) : blist s h = L h :=
  walk_seg s _ _ _ _ (R.ring h hh) (rings_head_not_mem R h h hh) (rings_length R h hh)

theorem rings_frame {s t : BCache} {L : Nat → List Ptr} (R : Rings s L)
    (hn : ∀ q, (t.deref q).next = (s.deref q).next)
    (hp : ∀ q, (t.deref q).prev = (s.deref q).prev) : Rings t L :=
  { ring := fun h hh => seg_frame s t _ _ _ (fun x _ => hn x) (fun x _ => hp x) (R.ring h hh)
    slot := R.slot, nodup := R.nodup, disj := R.disj }

/-- Nodes of two different rings (sentinels included) are different. -/
theorem rings_sep {s : BCache} {L : Nat → List Ptr} (R : Rings s L)
    (h k : Nat) (hh : h < NBUCKETS) (hk : k < NBUCKETS) (hne : h ≠ k) (p q : Ptr)
    (hp : p ∈ Ptr.head h :: L h) (hq : q ∈ Ptr.head k :: L k) : p ≠ q := by
  rintro rfl
  simp only [List.mem_cons] at hp hq
  rcases hp with e1 | e1 <;> rcases hq with e2 | e2
  · rw [e1] at e2; injection e2 with e; exact hne e
  · rw [e1] at e2; exact rings_head_not_mem R k h hk e2
  · rw [e2] at e1; exact rings_head_not_mem R h k hh e1
  · exact R.disj h k hh hk hne p e1 e2

theorem rings_pop {s : BCache} {L : Nat → List Ptr} (R : Rings s L)
    (h : Nat) (hh : h < NBUCKETS) (b : Ptr) (hb : b ∈ L h) :
    Rings (pop s b) (Function.update L h ((L h).erase b)) := by
  obtain ⟨A, B, hAB⟩ := List.append_of_mem hb
  have hnd := R.nodup h hh
  have hhead : Ptr.head h ∉ L h := rings_head_not_mem R h h hh
  have hnull : Ptr.null ∉ L h := rings_null_not_mem R h hh
  have hseg := R.ring h hh
  rw [hAB] at hnd hhead hnull hseg
  have hbA : b ∉ A := by
    intro hm
    have := List.nodup_append.mp hnd
    exact this.2.2 hm (by simp)
  have herase : (L h).erase b = A ++ B := by
    rw [hAB, List.erase_append_right _ hbA, List.erase_cons_head]
  have hpm := seg_prev_mem s _ b _ A B hseg
  have hnm := seg_next_mem s _ b _ A B hseg
  have hpn : (s.deref b).prev ≠ Ptr.null := by
    intro e; rw [e] at hpm
    simp only [List.mem_cons, List.mem_append, not_or] at hpm hnull
    rcases hpm with e1 | e1
    · cases e1
    · exact hnull.1 e1
  have hnn : (s.deref b).next ≠ Ptr.null := by
    intro e; rw [e] at hnm
    rcases List.mem_append.mp hnm with e1 | e1
    · exact hnull (by simp [e1])
    · simp at e1
  have hpb : (s.deref b).prev ≠ b := by
    intro e; rw [e] at hpm
    simp only [List.mem_cons] at hpm
    rcases hpm with e1 | e1
    · apply hhead; rw [← e1]; simp
    · exact hbA e1
  have hd := fun q => pop_deref s b q hpn hnn hpb
  have hsubP : (s.deref b).prev ∈ Ptr.head h :: L h := by
    rw [hAB]; simp only [List.mem_cons, List.mem_append] at hpm ⊢; tauto
  have hsubN : (s.deref b).next ∈ Ptr.head h :: L h := by
    rw [hAB]; simp only [List.mem_cons, List.mem_append, List.mem_singleton] at hnm ⊢; tauto
  refine ⟨?_, ?_, ?_, ?_⟩
  · intro k hk
    by_cases hkh : k = h
    · subst hkh
      rw [Function.update_same, herase]
      refine seg_pop s _ _ b _ A B hseg (List.nodup_cons.mpr ⟨hhead, hnd⟩) hhead ?_ ?_
      · intro q; rw [hd q]
      · intro q; rw [hd q]
    · rw [Function.update_noteq hkh]
      refine seg_frame s _ _ _ _ ?_ ?_ (R.ring k hk)
      · intro x hx
        rw [hd x]
        have := rings_sep R k h hk hh hkh x _ hx hsubP
        simp [this]
      · intro x hx
        rw [hd x]
        have hx' : x ∈ Ptr.head k :: L k := by
          simp only [List.mem_append, List.mem_singleton, List.mem_cons] at hx ⊢; tauto
        have := rings_sep R k h hk hh hkh x _ hx' hsubN
        simp [this]
  · intro k hk p hp
    by_cases hkh : k = h
    · subst hkh
      rw [Function.update_same] at hp
      exact R.slot k hk p (List.mem_of_mem_erase hp)
    · rw [Function.update_noteq hkh] at hp
      exact R.slot k hk p hp
  · intro k hk
    by_cases hkh : k = h
    · subst hkh
      rw [Function.update_same]
      exact (R.nodup k hk).erase b
    · rw [Function.update_noteq hkh]
      exact R.nodup k hk
  · intro k k' hk hk' hne p hp hp'
    have e1 : ∀ j, p ∈ Function.update L h ((L h).erase b) j → p ∈ L j := by
      intro j hj
      by_cases hjh : j = h
      · subst hjh
        rw [Function.update_same] at hj
        exact List.mem_of_mem_erase hj
      · rw [Function.update_noteq hjh] at hj
        exact hj
    exact R.disj k k' hk hk' hne p (e1 k hp) (e1 k' hp')

theorem seg_first_mem (s : BCache) (a z : Ptr) (l : List Ptr) (h : Seg s a l z) :
    (s.deref a).next ∈ l ++ [z] := by
  cases l with
  | nil => simp only [Seg] at h; simp [h.1]
  | cons x r => simp only [Seg] at h; simp [h.1]

theorem rings_push {s : BCache} {L : Nat → List Ptr} (R : Rings s L)
    (h : Nat) (hh : h < NBUCKETS) (i : Nat) (hi : i < NBUF)
    (hfree : ∀ k, k < NBUCKETS → Ptr.buf i ∉ L k) :
    Rings (push s (Ptr.head h) (Ptr.buf i)) (Function.update L h (Ptr.buf i :: L h)) := by
  have hseg := R.ring h hh
  have hhead : Ptr.head h ∉ L h := rings_head_not_mem R h h hh
  have hfm := seg_first_mem s _ _ _ hseg
  have hfm' : (s.deref (Ptr.head h)).next ∈ Ptr.head h :: L h := by
    simp only [List.mem_append, List.mem_singleton, List.mem_cons] at hfm ⊢; tauto
  have hfn : (s.deref (Ptr.head h)).next ≠ Ptr.null := by
    intro e; rw [e] at hfm
    rcases List.mem_append.mp hfm with e1 | e1
    · exact rings_null_not_mem R h hh e1
    · simp at e1
  have hfb : (s.deref (Ptr.head h)).next ≠ Ptr.buf i := by
    intro e; rw [e] at hfm
    rcases List.mem_append.mp hfm with e1 | e1
    · exact hfree h hh e1
    · simp at e1
  have hd := fun q => push_deref s (Ptr.head h) (Ptr.buf i) q (by simp) (by simp) (by simp) hfn hfb
  refine ⟨?_, ?_, ?_, ?_⟩
  · intro k hk
    by_cases hkh : k = h
    · subst hkh
      rw [Function.update_same]
      refine seg_push s _ _ (Ptr.buf i) _ _ hseg (List.nodup_cons.mpr ⟨hhead, R.nodup k hk⟩)
        hhead ?_ (by simp) ?_ ?_
      · simp only [List.mem_cons, not_or]
        exact ⟨by simp, hfree k hk⟩
      · intro q; rw [hd q]
      · intro q; rw [hd q]
    · rw [Function.update_noteq hkh]
      have hxb : ∀ x ∈ Ptr.head k :: L k, x ≠ Ptr.buf i := by
        intro x hx e
        rw [e] at hx
        simp only [List.mem_cons] at hx
        rcases hx with e1 | e1
        · cases e1
        · exact hfree k hk e1
      refine seg_frame s _ _ _ _ ?_ ?_ (R.ring k hk)
      · intro x hx
        rw [hd x]
        have h1 := rings_sep R k h hk hh hkh x (Ptr.head h) hx (by simp)
        simp [h1, hxb x hx]
      · intro x hx
        rw [hd x]
        have hx' : x ∈ Ptr.head k :: L k := by
          simp only [List.mem_append, List.mem_singleton, List.mem_cons] at hx ⊢; tauto
        have h1 := rings_sep R k h hk hh hkh x _ hx' hfm'
        simp [h1, hxb x hx']
  · intro k hk p hp
    by_cases hkh : k = h
    · subst hkh
      rw [Function.update_same] at hp
      rcases List.mem_cons.mp hp with e | e
      · exact ⟨i, hi, e⟩
      · exact R.slot k hk p e
    · rw [Function.update_noteq hkh] at hp
      exact R.slot k hk p hp
  · intro k hk
    by_cases hkh : k = h
    · subst hkh
      rw [Function.update_same]
      exact List.nodup_cons.mpr ⟨hfree k hk, R.nodup k hk⟩
    · rw [Function.update_noteq hkh]
      exact R.nodup k hk
  · intro k k' hk hk' hne p hp hp'
    by_cases hkh : k = h
    · subst hkh
      have hk'h : k' ≠ k := fun e => hne e.symm
      rw [Function.update_same] at hp
      rw [Function.update_noteq hk'h] at hp'
      rcases List.mem_cons.mp hp with e | e
      · rw [e] at hp'; exact hfree k' hk' hp'
      · exact R.disj k k' hk hk' hne p e hp'
    · rw [Function.update_noteq hkh] at hp
      by_cases hk'h : k' = h
      · subst hk'h
        rw [Function.update_same] at hp'
        rcases List.mem_cons.mp hp' with e | e
        · rw [e] at hp; exact hfree k hk hp
        · exact R.disj k k' hk hk' hne p hp e
      · rw [Function.update_noteq hk'h] at hp'
        exact R.disj k k' hk hk' hne p hp hp'

theorem scan_rings {s : BCache} {L : Nat → List Ptr} (R : Rings s L) (h : Nat)
    (hh : h < NBUCKETS) (dev blockno : Nat) :
    bget_scan s (Ptr.head h) dev blockno FUEL (s.deref (Ptr.head h)).next =
      Except.ok ((L h).find? (isId s dev blockno)) :=
  scan_seg s _ _ _ dev blockno FUEL (R.ring h hh) (rings_head_not_mem R h h hh)
    (rings_length R h hh)

theorem lru_rings {s : BCache} {L : Nat → List Ptr} (R : Rings s L) (h : Nat)
    (hh : h < NBUCKETS) :
    find_lru_block s (Ptr.head h) = Except.ok (victim s (L h)) :=
  lru_seg s _ _ _ FUEL (R.ring h hh) (rings_head_not_mem R h h hh) (rings_length R h hh)

theorem steal_rings {s : BCache} {L : Nat → List Ptr} (R : Rings s L)
    (pid dev blockno h : Nat) (idxs : List Nat) (hidx : ∀ i ∈ idxs, i < NBUCKETS) :
    bget_steal s pid dev blockno h idxs =
      match stealPick s L h idxs with
      | some (_, b) => locked (init_blocks (push (pop s b) (Ptr.head h) b) b dev blockno) pid b
      | none => Except.error (Err.panic "bget: no buffers") := by
  induction idxs with
  | nil => rfl
  | cons i r ih =>
    have hr : ∀ j ∈ r, j < NBUCKETS := fun j hj => hidx j (List.mem_cons_of_mem _ hj)
    have hi : i < NBUCKETS := hidx i (by simp)
    simp only [bget_steal, stealPick]
    by_cases hih : i = h
    · simp only [if_pos hih]; exact ih hr
    · simp only [if_neg hih, lru_rings R i hi]
      cases hv : victim s (L i) with
      | none => simp only []; exact ih hr
      | some b => simp only [locked]

theorem bucketIdx_lt {i : Int} {h : Nat} (e : bucketIdx i = Except.ok h) : h < NBUCKETS := by
  unfold bucketIdx at e
  split_ifs at e with hc
  injection e with e
  subst e
  have := hc.2
  omega

theorem bget_eq {s : BCache} {L : Nat → List Ptr} (R : Rings s L)
    (pid dev blockno h : Nat) (hidx : bucketIdx (hash (toInt blockno)) = Except.ok h) :
    bget s pid dev blockno =
      match pick s L dev blockno h with
      | Pick.hit b =>
        locked (s.store b { s.deref b with refcnt := ((s.deref b).refcnt + 1) % 4294967296 }) pid b
      | Pick.reuse b => locked (init_blocks s b dev blockno) pid b
      | Pick.steal _ b =>
        locked (init_blocks (push (pop s b) (Ptr.head h) b) b dev blockno) pid b
      | Pick.none => Except.error (Err.panic "bget: no buffers") := by
  have hh := bucketIdx_lt hidx
  simp only [bget, hidx, scan_rings R h hh, lru_rings R h hh, pick]
  cases hf : (L h).find? (isId s dev blockno) with
  | some b => simp only [locked]
  | none =>
    simp only []
    cases hv : victim s (L h) with
    | some b => simp only [locked]
    | none =>
      simp only []
      rw [steal_rings R pid dev blockno h _ (fun i hi => List.mem_range.mp hi)]
      cases hs : stealPick s L h (List.range NBUCKETS) with
      | none => rfl
      | some ib => rfl

theorem victim_some {s : BCache} {l : List Ptr} {b : Ptr} (h : victim s l = some b) :
    isFree s b = true ∧ ∃ A B, l = A ++ b :: B ∧ ∀ x ∈ B, isFree s x = false := by
  unfold victim at h
  obtain ⟨h1, as, bs, h2, h3⟩ := List.find?_eq_some.mp h
  refine ⟨h1, bs.reverse, as.reverse, ?_, ?_⟩
  · have := congrArg List.reverse h2
    simpa using this
  · intro x hx
    have := h3 x (List.mem_reverse.mp hx)
    simpa using this

theorem victim_mem {s : BCache} {l : List Ptr} {b : Ptr} (h : victim s l = some b) : b ∈ l := by
  obtain ⟨_, A, B, e, _⟩ := victim_some h
  rw [e]; simp

theorem victim_none {s : BCache} {l : List Ptr} (h : victim s l = none) :
    ∀ x ∈ l, isFree s x = false := by
  unfold victim at h
  intro x hx
  have := List.find?_eq_none.mp h x (List.mem_reverse.mpr hx)
  simpa using this

theorem stealPick_some {s : BCache} {L : Nat → List Ptr} {h i : Nat} {b : Ptr}
    (idxs : List Nat) (e : stealPick s L h idxs = some (i, b)) :
    i ≠ h ∧ victim s (L i) = some b ∧
      ∃ pre post, idxs = pre ++ i :: post ∧ ∀ j ∈ pre, j ≠ h → victim s (L j) = none := by
  induction idxs with
  | nil => simp [stealPick] at e
  | cons k r ih =>
    simp only [stealPick] at e
    by_cases hk : k = h
    · rw [if_pos hk] at e
      obtain ⟨h1, h2, pre, post, h3, h4⟩ := ih e
      refine ⟨h1, h2, k :: pre, post, by simp [h3], ?_⟩
      intro j hj hjh
      rcases List.mem_cons.mp hj with e1 | e1
      · exact absurd (e1.trans hk) hjh
      · exact h4 j e1 hjh
    · rw [if_neg hk] at e
      cases hv : victim s (L k) with
      | some c =>
        rw [hv] at e
        simp only [Option.some.injEq, Prod.mk.injEq] at e
        obtain ⟨e1, e2⟩ := e
        subst e1; subst e2
        exact ⟨hk, hv, [], r, rfl, by simp⟩
      | none =>
        rw [hv] at e
        obtain ⟨h1, h2, pre, post, h3, h4⟩ := ih e
        refine ⟨h1, h2, k :: pre, post, by simp [h3], ?_⟩
        intro j hj hjh
        rcases List.mem_cons.mp hj with e1 | e1
        · rw [e1]; exact hv
        · exact h4 j e1 hjh

theorem stealPick_none {s : BCache} {L : Nat → List Ptr} {h : Nat}
    (idxs : List Nat) (e : stealPick s L h idxs = none) :
    ∀ j ∈ idxs, j ≠ h → victim s (L j) = none := by
  induction idxs with
  | nil => simp
  | cons k r ih =>
    simp only [stealPick] at e
    intro j hj hjh
    by_cases hk : k = h
    · rw [if_pos hk] at e
      rcases List.mem_cons.mp hj with e1 | e1
      · exact absurd (e1.trans hk) hjh
      · exact ih e j e1 hjh
    · rw [if_neg hk] at e
      cases hv : victim s (L k) with
      | some c => rw [hv] at e; simp at e
      | none =>
        rw [hv] at e
        rcases List.mem_cons.mp hj with e1 | e1
        · rw [e1]; exact hv
        · exact ih e j e1 hjh

/-- What each decision of `bget` says about the bucket lists. -/
theorem pick_hit {s : BCache} {L : Nat → List Ptr} {dev blockno h : Nat} {b : Ptr}
    (e : pick s L dev blockno h = Pick.hit b) :
    isId s dev blockno b = true ∧
      ∃ A B, L h = A ++ b :: B ∧ ∀ x ∈ A, isId s dev blockno x = false := by
  unfold pick at e
  cases hf : (L h).find? (isId s dev blockno) with
  | some c =>
    rw [hf] at e
    injection e with e
    subst e
    obtain ⟨h1, as, bs, h2, h3⟩ := List.find?_eq_some.mp hf
    exact ⟨h1, as, bs, h2, fun x hx => by simpa using h3 x hx⟩
  | none =>
    rw [hf] at e
    simp only [] at e
    split at e
    · cases e
    · split at e <;> cases e

theorem pick_miss {s : BCache} {L : Nat → List Ptr} {dev blockno h : Nat}
    (e : ∀ b, pick s L dev blockno h ≠ Pick.hit b) :
    (L h).find? (isId s dev blockno) = none := by
  cases hf : (L h).find? (isId s dev blockno) with
  | some c => exact absurd (by simp [pick, hf]) (e c)
  | none => rfl

theorem pick_reuse {s : BCache} {L : Nat → List Ptr} {dev blockno h : Nat} {b : Ptr}
    (e : pick s L dev blockno h = Pick.reuse b) :
    (∀ x ∈ L h, isId s dev blockno x = false) ∧ victim s (L h) = some b := by
  have hf := @pick_miss s L dev blockno h
    (fun c hc => by rw [hc] at e; cases e)
  refine ⟨fun x hx => by simpa using List.find?_eq_none.mp hf x hx, ?_⟩
  simp only [pick, hf] at e
  cases hv : victim s (L h) with
  | some c => rw [hv] at e; injection e with e; rw [e]
  | none =>
    rw [hv] at e
    simp only [] at e
    split at e <;> cases e

theorem pick_steal {s : BCache} {L : Nat → List Ptr} {dev blockno h i : Nat} {b : Ptr}
    (e : pick s L dev blockno h = Pick.steal i b) :
    (∀ x ∈ L h, isId s dev blockno x = false) ∧ victim s (L h) = none ∧
      stealPick s L h (List.range NBUCKETS) = some (i, b) := by
  have hf := @pick_miss s L dev blockno h
    (fun c hc => by rw [hc] at e; cases e)
  refine ⟨fun x hx => by simpa using List.find?_eq_none.mp hf x hx, ?_⟩
  simp only [pick, hf] at e
  cases hv : victim s (L h) with
  | some c => rw [hv] at e; cases e
  | none =>
    rw [hv] at e
    simp only [] at e
    refine ⟨rfl, ?_⟩
    cases hs : stealPick s L h (List.range NBUCKETS) with
    | none => rw [hs] at e; cases e
    | some ib =>
      rw [hs] at e
      obtain ⟨i', b'⟩ := ib
      simp only [Pick.steal.injEq] at e
      rw [e.1, e.2]

theorem pick_none {s : BCache} {L : Nat → List Ptr} {dev blockno h : Nat}
    (e : pick s L dev blockno h = Pick.none) :
    (∀ x ∈ L h, isId s dev blockno x = false) ∧
      ∀ j, j < NBUCKETS → victim s (L j) = none := by
  have hf := @pick_miss s L dev blockno h
    (fun c hc => by rw [hc] at e; cases e)
  refine ⟨fun x hx => by simpa using List.find?_eq_none.mp hf x hx, ?_⟩
  simp only [pick, hf] at e
  cases hv : victim s (L h) with
  | some c => rw [hv] at e; cases e
  | none =>
    rw [hv] at e
    simp only [] at e
    cases hs : stealPick s L h (List.range NBUCKETS) with
    | some ib => rw [hs] at e; cases e
    | none =>
      intro j hj
      by_cases hjh : j = h
      · rw [hjh]; exact hv
      · exact stealPick_none _ hs j (List.mem_range.mpr hj) hjh

theorem core_eq_iff (a b : Buf) : a.core = b.core ↔
    a.valid = b.valid ∧ a.dev = b.dev ∧ a.blockno = b.blockno ∧ a.lock = b.lock ∧
      a.refcnt = b.refcnt ∧ a.data = b.data := by
  simp [Buf.core]

theorem good_of_core {a b : Buf} (e : a.core = b.core) (g : Good b) : Good a := by
  obtain ⟨e1, _, e3, e4, e5, _⟩ := (core_eq_iff a b).mp e
  exact ⟨by rw [e4, e5, e1]; exact g.held, by rw [e4, e5]; exact g.bound,
    by rw [e1]; exact g.vbit, by rw [e3]; exact g.idx⟩

theorem later_of_core {s t : BCache} {x y : Ptr}
    (ex : (t.deref x).core = (s.deref x).core) (ey : (t.deref y).core = (s.deref y).core)
    (h : Later s x y) : Later t x y := by
  obtain ⟨_, a2, a3, _⟩ := (core_eq_iff _ _).mp ex
  obtain ⟨b1, b2, b3, _⟩ := (core_eq_iff _ _).mp ey
  unfold Later at h ⊢
  rw [a2, a3, b1, b2, b3]
  exact h

theorem shape_blist {s : BCache} {L : Nat → List Ptr} (S : Shape s L)
    (h : Nat) (hh : h < NBUCKETS) : blist s h = L h := rings_blist S.rings h hh

theorem invL_congr {s : BCache} {L M : Nat → List Ptr}
    (e : ∀ h, h < NBUCKETS → M h = L h) (I : InvL s L) : InvL s M := by
  refine ⟨⟨⟨?_, ?_, ?_, ?_⟩, ?_⟩, I.good, ?_, ?_⟩
  · intro h hh; rw [e h hh]; exact I.shape.rings.ring h hh
  · intro h hh; rw [e h hh]; exact I.shape.rings.slot h hh
  · intro h hh; rw [e h hh]; exact I.shape.rings.nodup h hh
  · intro h k hh hk; rw [e h hh, e k hk]; exact I.shape.rings.disj h k hh hk
  · intro i hi
    obtain ⟨h, hh, hm⟩ := I.shape.total i hi
    exact ⟨h, hh, by rw [e h hh]; exact hm⟩
  · intro h hh; rw [e h hh]; exact I.home h hh
  · intro h hh; rw [e h hh]; exact I.uniq h hh

theorem inv_of_invL {s : BCache} {L : Nat → List Ptr} (I : InvL s L) : Inv s :=
  invL_congr (fun h hh => shape_blist I.shape h hh) I

/-- In a well-formed cache a slot is on exactly one list. -/
theorem shape_unique {s : BCache} {L : Nat → List Ptr} (S : Shape s L) {p : Ptr}
    {h k : Nat} (hh : h < NBUCKETS) (hk : k < NBUCKETS) (hp : p ∈ L h) (hq : p ∈ L k) :
    h = k := by
  by_contra hne
  exact S.rings.disj h k hh hk hne p hp hq

theorem locked_ok {s : BCache} {pid : Nat} {b c : Ptr} {t : BCache}
    (e : locked s pid b = Except.ok (c, t)) :
    c = b ∧ (s.deref b).lock = none ∧
      t = s.store b { s.deref b with lock := some pid } := by
  unfold locked acquiresleep at e
  cases hl : (s.deref b).lock with
  | none =>
    rw [hl] at e
    simp only [Except.ok.injEq, Prod.mk.injEq] at e
    exact ⟨e.1.symm, rfl, e.2.symm⟩
  | some x => rw [hl] at e; cases e

theorem locked_free {s : BCache} {pid : Nat} {b : Ptr} (hl : (s.deref b).lock = none) :
    locked s pid b = Except.ok (b, s.store b { s.deref b with lock := some pid }) := by
  unfold locked acquiresleep
  rw [hl]

theorem locked_held {s : BCache} {pid : Nat} {b : Ptr} (hl : (s.deref b).lock ≠ none) :
    locked s pid b = Except.error Err.blocks := by
  unfold locked acquiresleep
  cases h : (s.deref b).lock with
  | none => exact absurd h hl
  | some x => rfl

theorem rings_overwrite {u t : BCache} {L : Nat → List Ptr} (R : Rings u L) (b : Ptr)
    (e : ∀ q, q ≠ b → t.deref q = u.deref q)
    (hn : (t.deref b).next = (u.deref b).next) (hp : (t.deref b).prev = (u.deref b).prev) :
    Rings t L := by
  refine rings_frame R ?_ ?_
  · intro q
    by_cases hq : q = b
    · rw [hq, hn]
    · rw [e q hq]
  · intro q
    by_cases hq : q = b
    · rw [hq, hp]
    · rw [e q hq]

theorem mem_update_iff {L : Nat → List Ptr} {h k : Nat} {l : List Ptr} {q : Ptr} :
    q ∈ Function.update L h l k ↔ (k = h ∧ q ∈ l) ∨ (k ≠ h ∧ q ∈ L k) := by
  by_cases hk : k = h
  · subst hk; simp
  · simp [Function.update_noteq hk, hk]

/-- The bucket lists after a slot has been moved from bucket `i` to the head of bucket `h`
(`i = h` moves it to the front of its own list). -/
theorem shape_move {s u : BCache} {L : Nat → List Ptr} (S : Shape s L)
    {i h j : Nat} (hi : i < NBUCKETS) (hh : h < NBUCKETS) (hj : j < NBUF)
    (hb : Ptr.buf j ∈ L i) (hu : u = push (pop s (Ptr.buf j)) (Ptr.head h) (Ptr.buf j)) :
    Shape u (Function.update (Function.update L i ((L i).erase (Ptr.buf j))) h
      (Ptr.buf j :: Function.update L i ((L i).erase (Ptr.buf j)) h)) := by
  have R1 := rings_pop S.rings i hi _ hb
  have hfree : ∀ k, k < NBUCKETS →
      Ptr.buf j ∉ Function.update L i ((L i).erase (Ptr.buf j)) k := by
    intro k hk hm
    rcases mem_update_iff.mp hm with ⟨_, h2⟩ | ⟨h1, h2⟩
    · exact (List.Nodup.not_mem_erase (S.rings.nodup i hi)) h2
    · exact S.rings.disj i k hi hk (fun e => h1 e.symm) _ hb h2
  have R2 := rings_push R1 h hh j hj hfree
  rw [← hu] at R2
  refine ⟨R2, ?_⟩
  intro m hm
  by_cases hmj : m = j
  · subst hmj
    exact ⟨h, hh, by simp⟩
  · obtain ⟨k, hk, hmem⟩ := S.total m hm
    refine ⟨k, hk, ?_⟩
    have hne : Ptr.buf m ≠ Ptr.buf j := fun e => hmj (by injection e)
    rw [mem_update_iff]
    by_cases hkh : k = h
    · left
      refine ⟨hkh, List.mem_cons_of_mem _ ?_⟩
      rw [mem_update_iff]
      by_cases hki : h = i
      · left; refine ⟨hki, ?_⟩
        rw [List.mem_erase_of_ne hne, ← hki, ← hkh]; exact hmem
      · right; rw [← hkh] at hki ⊢; exact ⟨hki, hmem⟩
    · right
      refine ⟨hkh, ?_⟩
      rw [mem_update_iff]
      by_cases hki : k = i
      · left; refine ⟨hki, ?_⟩
        rw [List.mem_erase_of_ne hne, ← hki]; exact hmem
      · right; exact ⟨hki, hmem⟩

theorem init_blocks_deref (u : BCache) (b q : Ptr) (dev blockno : Nat) (hb : b ≠ Ptr.null) :
    (init_blocks u b dev blockno).deref q =
      if q = b then { u.deref b with dev := dev, blockno := blockno, valid := 0, refcnt := 1 }
      else u.deref q := by
  unfold init_blocks
  rw [deref_store _ _ _ _ hb]

theorem init_blocks_disk (u : BCache) (b : Ptr) (dev blockno : Nat) :
    (init_blocks u b dev blockno).disk = u.disk ∧ (init_blocks u b dev blockno).log = u.log := by
  simp [init_blocks, store_disk, store_log]

theorem pick_slot {s : BCache} {L : Nat → List Ptr} {dev blockno h : Nat}
    (hh : h < NBUCKETS) {b : Ptr}
    (e : pick s L dev blockno h = Pick.hit b ∨ pick s L dev blockno h = Pick.reuse b ∨
      ∃ i, pick s L dev blockno h = Pick.steal i b) :
    ∃ k, k < NBUCKETS ∧ b ∈ L k := by
  rcases e with e | e | ⟨i, e⟩
  · obtain ⟨_, A, B, hAB, _⟩ := pick_hit e
    exact ⟨h, hh, by rw [hAB]; simp⟩
  · exact ⟨h, hh, victim_mem (pick_reuse e).2⟩
  · obtain ⟨_, _, e3⟩ := pick_steal e
    obtain ⟨_, hv, pre, post, hr, _⟩ := stealPick_some _ e3
    have hi : i ∈ List.range NBUCKETS := by rw [hr]; simp
    exact ⟨i, List.mem_range.mp hi, victim_mem hv⟩

/-- Effect of a returning `bget`, case by case. -/
theorem bget_spec {s t : BCache} {L : Nat → List Ptr} (S : Shape s L)
    {pid dev blockno h : Nat} {b : Ptr}
    (hidx : bucketIdx (hash (toInt blockno)) = Except.ok h)
    (e : bget s pid dev blockno = Except.ok (b, t)) :
    (∃ i, i < NBUF ∧ b = Ptr.buf i) ∧ (s.deref b).lock = none ∧
    t.disk = s.disk ∧ t.log = s.log ∧
    (∀ q, q ≠ b → (t.deref q).core = (s.deref q).core) ∧
    (t.deref b).lock = some pid ∧ (t.deref b).data = (s.deref b).data ∧
    ((pick s L dev blockno h = Pick.hit b ∧ Shape t L ∧
        (t.deref b).dev = (s.deref b).dev ∧ (t.deref b).blockno = (s.deref b).blockno ∧
        (t.deref b).valid = (s.deref b).valid ∧
        (t.deref b).refcnt = ((s.deref b).refcnt + 1) % 4294967296) ∨
     (pick s L dev blockno h = Pick.reuse b ∧ Shape t L ∧
        (t.deref b).dev = dev ∧ (t.deref b).blockno = blockno ∧
        (t.deref b).valid = 0 ∧ (t.deref b).refcnt = 1) ∨
     (∃ i, pick s L dev blockno h = Pick.steal i b ∧
        Shape t (Function.update (Function.update L i ((L i).erase b)) h
          (b :: Function.update L i ((L i).erase b) h)) ∧
        (t.deref b).dev = dev ∧ (t.deref b).blockno = blockno ∧
        (t.deref b).valid = 0 ∧ (t.deref b).refcnt = 1)) := by
  have hh := bucketIdx_lt hidx
  rw [bget_eq S.rings pid dev blockno h hidx] at e
  cases hp : pick s L dev blockno h with
  | none => rw [hp] at e; cases e
  | hit c =>
    rw [hp] at e
    simp only [] at e
    obtain ⟨e1, e2, e3⟩ := locked_ok e
    subst e1
    obtain ⟨k, hk, hm⟩ := pick_slot hh (Or.inl hp)
    obtain ⟨i, hi, hbi⟩ := S.rings.slot k hk _ hm
    have hnn : b ≠ Ptr.null := by rw [hbi]; simp
    have hd : ∀ q, t.deref q = if q = b then
        { s.deref b with refcnt := ((s.deref b).refcnt + 1) % 4294967296, lock := some pid }
        else s.deref q := by
      intro q
      simp only [e3, deref_store _ _ _ _ hnn]
      by_cases hq : q = b <;> simp [hq]
    rw [deref_store _ _ _ _ hnn] at e2
    simp only [if_true] at e2
    refine ⟨⟨i, hi, hbi⟩, e2, by rw [e3]; simp [store_disk], by rw [e3]; simp [store_log],
      fun q hq => by rw [hd q, if_neg hq], by rw [hd b]; simp, by rw [hd b]; simp, Or.inl ?_⟩
    refine ⟨rfl, ⟨rings_overwrite S.rings b (fun q hq => by rw [hd q, if_neg hq])
      (by rw [hd b]; simp) (by rw [hd b]; simp), S.total⟩, ?_, ?_, ?_, ?_⟩ <;>
      rw [hd b] <;> simp
  | reuse c =>
    rw [hp] at e
    simp only [] at e
    obtain ⟨e1, e2, e3⟩ := locked_ok e
    subst e1
    obtain ⟨k, hk, hm⟩ := pick_slot hh (Or.inr (Or.inl hp))
    obtain ⟨i, hi, hbi⟩ := S.rings.slot k hk _ hm
    have hnn : b ≠ Ptr.null := by rw [hbi]; simp
    have hd : ∀ q, t.deref q = if q = b then
        { s.deref b with dev := dev, blockno := blockno, valid := 0, refcnt := 1,
                         lock := some pid }
        else s.deref q := by
      intro q
      simp only [e3, deref_store _ _ _ _ hnn, init_blocks_deref _ _ _ _ _ hnn]
      by_cases hq : q = b <;> simp [hq]
    rw [init_blocks_deref _ _ _ _ _ hnn] at e2
    simp only [if_true] at e2
    refine ⟨⟨i, hi, hbi⟩, e2, by rw [e3]; simp [store_disk, init_blocks_disk],
      by rw [e3]; simp [store_log, init_blocks_disk],
      fun q hq => by rw [hd q, if_neg hq], by rw [hd b]; simp, by rw [hd b]; simp,
      Or.inr (Or.inl ?_)⟩
    refine ⟨rfl, ⟨rings_overwrite S.rings b (fun q hq => by rw [hd q, if_neg hq])
      (by rw [hd b]; simp) (by rw [hd b]; simp), S.total⟩, ?_, ?_, ?_, ?_⟩ <;>
      rw [hd b] <;> simp
  | steal j c =>
    rw [hp] at e
    simp only [] at e
    obtain ⟨e1, e2, e3⟩ := locked_ok e
    subst e1
    obtain ⟨_, _, hs⟩ := pick_steal hp
    obtain ⟨_, hv, pre, post, hr, _⟩ := stealPick_some _ hs
    have hj : j < NBUCKETS := List.mem_range.mp (by rw [hr]; simp)
    have hm := victim_mem hv
    obtain ⟨i, hi, hbi⟩ := S.rings.slot j hj _ hm
    have hnn : b ≠ Ptr.null := by rw [hbi]; simp
    have hd : ∀ q, t.deref q = if q = b then
        { (push (pop s b) (Ptr.head h) b).deref b with
          dev := dev, blockno := blockno, valid := 0, refcnt := 1, lock := some pid }
        else (push (pop s b) (Ptr.head h) b).deref q := by
      intro q
      simp only [e3, deref_store _ _ _ _ hnn, init_blocks_deref _ _ _ _ _ hnn]
      by_cases hq : q = b <;> simp [hq]
    rw [init_blocks_deref _ _ _ _ _ hnn] at e2
    simp only [if_true] at e2
    have hcb := (core_eq_iff _ _).mp ((push_core (pop s b) (Ptr.head h) b b).trans (pop_core s b b))
    have hlock : (s.deref b).lock = none := by rw [← hcb.2.2.2.1]; exact e2
    have hS : Shape (push (pop s b) (Ptr.head h) b)
        (Function.update (Function.update L j ((L j).erase b)) h
          (b :: Function.update L j ((L j).erase b) h)) := by
      rw [hbi] at hm ⊢
      exact shape_move S hj hh hi hm rfl
    refine ⟨⟨i, hi, hbi⟩, hlock,
      by rw [e3]; simp [store_disk, init_blocks_disk, push_disk, pop_disk],
      by rw [e3]; simp [store_log, init_blocks_disk, push_disk, pop_disk],
      fun q hq => by rw [hd q, if_neg hq, push_core, pop_core], by rw [hd b]; simp,
      by rw [hd b]; simp [hcb.2.2.2.2.2], Or.inr (Or.inr ⟨j, rfl, ?_⟩)⟩
    refine ⟨⟨rings_overwrite hS.rings b (fun q hq => by rw [hd q, if_neg hq])
      (by rw [hd b]; simp) (by rw [hd b]; simp), hS.total⟩, ?_, ?_, ?_, ?_⟩ <;>
      rw [hd b] <;> simp

theorem deref_with_log (s : BCache) (l : List DiskOp) (q : Ptr) :
    ({ s with log := l } : BCache).deref q = s.deref q := by
  cases q <;> rfl

/-- The part of `bread` after `bget`. -/
theorem bread_ok {s t : BCache} {pid dev blockno : Nat} {b : Ptr}
    (e : bread s pid dev blockno = Except.ok (b, t)) (hb : b ≠ Ptr.null) :
    ∃ u, bget s pid dev blockno = Except.ok (b, u) ∧ t.disk = u.disk ∧
      (∀ q, q ≠ b → t.deref q = u.deref q) ∧
      (t.deref b).next = (u.deref b).next ∧ (t.deref b).prev = (u.deref b).prev ∧
      (t.deref b).dev = (u.deref b).dev ∧ (t.deref b).blockno = (u.deref b).blockno ∧
      (t.deref b).lock = (u.deref b).lock ∧ (t.deref b).refcnt = (u.deref b).refcnt ∧
      ((u.deref b).valid = 0 →
        (t.deref b).valid = 1 ∧
        t.log = { dev := (u.deref b).dev, blockno := (u.deref b).blockno, write := false } :: u.log ∧
        (t.deref b).data = u.disk (u.deref b).dev (u.deref b).blockno) ∧
      ((u.deref b).valid ≠ 0 → t = u) := by
  unfold bread at e
  cases hg : bget s pid dev blockno with
  | error x => rw [hg] at e; cases e
  | ok r =>
    obtain ⟨c, u⟩ := r
    rw [hg] at e
    simp only [] at e
    by_cases hv : (u.deref c).valid = 0
    · rw [if_pos hv] at e
      simp only [Except.ok.injEq, Prod.mk.injEq] at e
      obtain ⟨e1, e2⟩ := e
      subst e1
      have hd : ∀ q, t.deref q = if q = c then
          { u.deref c with data := u.disk (u.deref c).dev (u.deref c).blockno, valid := 1 }
          else u.deref q := by
        intro q
        rw [← e2]
        simp only [virtio_disk_rw, deref_store _ _ _ _ hb, deref_with_log, Bool.false_eq_true,
          if_false, if_true]
        by_cases hq : q = c <;> simp [hq]
      refine ⟨u, rfl, ?_, fun q hq => by rw [hd q, if_neg hq], ?_, ?_, ?_, ?_, ?_, ?_, ?_, ?_⟩
      · rw [← e2]; simp [virtio_disk_rw, store_disk]
      · rw [hd c]; simp
      · rw [hd c]; simp
      · rw [hd c]; simp
      · rw [hd c]; simp
      · rw [hd c]; simp
      · rw [hd c]; simp
      · intro _
        refine ⟨by rw [hd c]; simp, ?_, by rw [hd c]; simp⟩
        rw [← e2]; simp [virtio_disk_rw, store_log]
      · intro h; exact absurd hv h
    · rw [if_neg hv] at e
      simp only [Except.ok.injEq, Prod.mk.injEq] at e
      obtain ⟨e1, e2⟩ := e
      subst e1; subst e2
      exact ⟨u, rfl, rfl, fun _ _ => rfl, rfl, rfl, rfl, rfl, rfl, rfl,
        fun h => absurd h hv, fun _ => rfl⟩

theorem bread_error {s : BCache} {pid dev blockno : Nat} {x : Err} :
    bread s pid dev blockno = Except.error x ↔ bget s pid dev blockno = Except.error x := by
  unfold bread
  cases hg : bget s pid dev blockno with
  | error y => simp
  | ok r =>
    obtain ⟨c, u⟩ := r
    simp only []
    split_ifs <;> simp

theorem bread_bget {s t : BCache} {pid dev blockno : Nat} {b : Ptr}
    (e : bread s pid dev blockno = Except.ok (b, t)) :
    ∃ u, bget s pid dev blockno = Except.ok (b, u) := by
  unfold bread at e
  cases hg : bget s pid dev blockno with
  | error x => rw [hg] at e; cases e
  | ok r =>
    obtain ⟨c, u⟩ := r
    rw [hg] at e
    simp only [] at e
    split_ifs at e <;>
    · simp only [Except.ok.injEq, Prod.mk.injEq] at e
      exact ⟨u, by rw [e.1]⟩

theorem pw_off {s t : BCache} {l : List Ptr} {b : Ptr} (hb : b ∉ l)
    (hc : ∀ q, q ≠ b → (t.deref q).core = (s.deref q).core)
    (h : l.Pairwise (Later s)) : l.Pairwise (Later t) := by
  refine List.Pairwise.imp_of_mem ?_ h
  intro x y hx hy hxy
  have hxb : x ≠ b := fun e => hb (e ▸ hx)
  have hyb : y ≠ b := fun e => hb (e ▸ hy)
  exact later_of_core (hc x hxb) (hc y hyb) hxy

theorem pw_at {s t : BCache} {A B : List Ptr} {b : Ptr} (hnd : (A ++ b :: B).Nodup)
    (hc : ∀ q, q ≠ b → (t.deref q).core = (s.deref q).core)
    (hA : ∀ x ∈ A, Later t x b) (hB : ∀ y ∈ B, Later t b y)
    (h : (A ++ b :: B).Pairwise (Later s)) : (A ++ b :: B).Pairwise (Later t) := by
  have hbA : b ∉ A := fun hm => (List.nodup_append.mp hnd).2.2 hm (by simp)
  have hbB : b ∉ B := (List.nodup_cons.mp (List.nodup_append.mp hnd).2.1).1
  rw [List.pairwise_append] at h ⊢
  obtain ⟨h1, h2, h3⟩ := h
  rw [List.pairwise_cons] at h2 ⊢
  refine ⟨pw_off hbA hc h1, ⟨hB, pw_off hbB hc h2.2⟩, ?_⟩
  intro x hx y hy
  rcases List.mem_cons.mp hy with e | e
  · rw [e]; exact hA x hx
  · have hxb : x ≠ b := fun e => hbA (e ▸ hx)
    have hyb : y ≠ b := fun e' => hbB (e' ▸ e)
    exact later_of_core (hc x hxb) (hc y hyb) (h3 x hx y hy)

theorem isId_false {s : BCache} {dev blockno : Nat} {x : Ptr}
    (h : isId s dev blockno x = false) :
    ¬ ((s.deref x).dev = dev ∧ (s.deref x).blockno = blockno) := by
  simpa [isId] using h

theorem isId_true {s : BCache} {dev blockno : Nat} {x : Ptr}
    (h : isId s dev blockno x = true) :
    (s.deref x).dev = dev ∧ (s.deref x).blockno = blockno := by
  simpa [isId] using h

theorem isFree_true {s : BCache} {x : Ptr} (h : isFree s x = true) : (s.deref x).refcnt = 0 := by
  simpa [isFree] using h

theorem isFree_false {s : BCache} {x : Ptr} (h : isFree s x = false) :
    (s.deref x).refcnt ≠ 0 := by
  simpa [isFree] using h

/-- Effect of a returning `bread` on a state that satisfies the invariant. -/
theorem bread_spec {s t : BCache} {L : Nat → List Ptr} (I : InvL s L)
    {pid dev blockno h : Nat} {b : Ptr}
    (hidx : bucketIdx (hash (toInt blockno)) = Except.ok h)
    (e : bread s pid dev blockno = Except.ok (b, t)) :
    (∃ i, i < NBUF ∧ b = Ptr.buf i) ∧ (s.deref b).lock = none ∧ t.disk = s.disk ∧
    (∀ q, q ≠ b → (t.deref q).core = (s.deref q).core) ∧
    (t.deref b).lock = some pid ∧ (t.deref b).dev = dev ∧ (t.deref b).blockno = blockno ∧
    (t.deref b).valid = 1 ∧
    ∃ M, InvL t M ∧ b ∈ M h ∧ (∀ k q, q ≠ b → (q ∈ M k ↔ q ∈ L k)) ∧
      ((pick s L dev blockno h = Pick.hit b ∧ M = L ∧
          (t.deref b).refcnt = (s.deref b).refcnt + 1 ∧
          ((s.deref b).valid = 1 → t.log = s.log ∧ (t.deref b).data = (s.deref b).data) ∧
          ((s.deref b).valid = 0 →
            t.log = { dev := dev, blockno := blockno, write := false } :: s.log ∧
            (t.deref b).data = s.disk dev blockno)) ∨
       (((pick s L dev blockno h = Pick.reuse b ∧ M = L) ∨
         (∃ i, pick s L dev blockno h = Pick.steal i b ∧
           M = Function.update (Function.update L i ((L i).erase b)) h
            (b :: Function.update L i ((L i).erase b) h))) ∧
          (t.deref b).refcnt = 1 ∧
          t.log = { dev := dev, blockno := blockno, write := false } :: s.log ∧
          (t.deref b).data = s.disk dev blockno)) := by
  have hh := bucketIdx_lt hidx
  obtain ⟨u, hg⟩ := bread_bget e
  obtain ⟨⟨i, hi, hbi⟩, hfree, hdisk, hlog, hoth, hlock, hdata, hcases⟩ :=
    bget_spec I.shape hidx hg
  have hnn : b ≠ Ptr.null := by rw [hbi]; simp
  obtain ⟨u', hg', tdisk, toth, tnext, tprev, tdev, tblk, tlock, tref, tv0, tv1⟩ := bread_ok e hnn
  rw [hg] at hg'
  simp only [Except.ok.injEq, Prod.mk.injEq, true_and] at hg'
  subst hg'
  have hGb : Good (s.deref b) := by rw [hbi]; exact I.good i hi
  have hc : ∀ q, q ≠ b → (t.deref q).core = (s.deref q).core := by
    intro q hq; rw [toth q hq]; exact hoth q hq
  have hrb : (s.deref b).refcnt + 1 < 4294967296 := by
    have := hGb.bound; rw [if_pos hfree] at this; exact this
  -- the facts shared by the three cases
  have key : (u.deref b).dev = dev ∧ (u.deref b).blockno = blockno ∧
      ((u.deref b).valid = 0 ∨ (u.deref b).valid = 1) ∧ 1 ≤ (u.deref b).refcnt ∧
      (u.deref b).refcnt < 4294967296 := by
    rcases hcases with ⟨hp, _, h1, h2, h3, h4⟩ | ⟨_, _, h1, h2, h3, h4⟩ | ⟨_, _, _, h1, h2, h3, h4⟩
    · obtain ⟨hid, _⟩ := pick_hit hp
      have := isId_true hid
      refine ⟨by rw [h1]; exact this.1, by rw [h2]; exact this.2, by rw [h3]; exact hGb.vbit, ?_, ?_⟩
      · rw [h4, Nat.mod_eq_of_lt hrb]; omega
      · rw [h4, Nat.mod_eq_of_lt hrb]; exact hrb
    · exact ⟨h1, h2, Or.inl h3, by rw [h4], by rw [h4]; decide⟩
    · exact ⟨h1, h2, Or.inl h3, by rw [h4], by rw [h4]; decide⟩
  obtain ⟨kdev, kblk, kval, kref1, kref2⟩ := key
  have tval : (t.deref b).valid = 1 := by
    rcases kval with hv | hv
    · exact (tv0 hv).1
    · rw [tv1 (by rw [hv]; decide)]; exact hv
  have tGood : ∀ j, j < NBUF → Good (t.deref (Ptr.buf j)) := by
    intro j hj
    by_cases hjb : Ptr.buf j = b
    · rw [hjb]
      refine ⟨fun _ => ⟨by rw [tref]; exact kref1, tval⟩, ?_, Or.inr tval, ?_⟩
      · rw [tlock, hlock, tref]; simpa using kref2
      · rw [tblk, kblk]; exact ⟨h, hidx⟩
    · exact good_of_core (hc _ hjb) (I.good j hj)
  have shape_t : ∀ M, Shape u M → Shape t M := fun M S =>
    ⟨rings_overwrite S.rings b toth tnext tprev, S.total⟩
  have home_t : ∀ M, Shape t M → b ∈ M h → (∀ k q, q ≠ b → (q ∈ M k ↔ q ∈ L k)) →
      ∀ k, k < NBUCKETS → ∀ p ∈ M k, (t.deref p).valid = 1 →
        bucketIdx (hash (toInt (t.deref p).blockno)) = Except.ok k := by
    intro M SM hbM hmem k hk p hp hv
    by_cases hpb : p = b
    · rw [hpb] at hp ⊢
      rw [tblk, kblk, shape_unique SM hk hh hp hbM]
      exact hidx
    · have hcp := (core_eq_iff _ _).mp (hc p hpb)
      rw [hcp.2.2.1]
      exact I.home k hk p ((hmem k p hpb).mp hp) (by rw [← hcp.1]; exact hv)
  -- a slot with a different identity is never later than `b`, nor `b` later than it
  have vac : ∀ x, x ≠ b → isId s dev blockno x = false → Later t x b ∧ Later t b x := by
    intro x hx hid
    have hcx := (core_eq_iff _ _).mp (hc x hx)
    have hne := isId_false hid
    constructor
    · intro h1 h2
      exact absurd ⟨by rw [← hcx.2.1, h1, tdev, kdev], by rw [← hcx.2.2.1, h2, tblk, kblk]⟩ hne
    · intro h1 h2
      exact absurd ⟨by rw [← hcx.2.1, ← h1, tdev, kdev], by rw [← hcx.2.2.1, ← h2, tblk, kblk]⟩ hne
  have split_ne : ∀ {A B : List Ptr}, (A ++ b :: B).Nodup → (∀ x ∈ A, x ≠ b) ∧ ∀ y ∈ B, y ≠ b := by
    intro A B hnd
    have hbA : b ∉ A := fun hm => (List.nodup_append.mp hnd).2.2 hm (by simp)
    have hbB : b ∉ B := (List.nodup_cons.mp (List.nodup_append.mp hnd).2.1).1
    exact ⟨fun x hx e => hbA (e ▸ hx), fun y hy e => hbB (e ▸ hy)⟩
  have off : ∀ k, k < NBUCKETS → b ∉ L k → (L k).Pairwise (Later t) :=
    fun k hk hb => pw_off hb hc (I.uniq k hk)
  refine ⟨⟨i, hi, hbi⟩, hfree, by rw [tdisk, hdisk], hc, by rw [tlock, hlock],
    by rw [tdev, kdev], by rw [tblk, kblk], tval, ?_⟩
  rcases hcases with ⟨hp, hS, _, _, h3, h4⟩ | ⟨hp, hS, _, _, h3, h4⟩ | ⟨j, hp, hS, _, _, h3, h4⟩
  · -- hit
    obtain ⟨hid, A, B, hAB, hA⟩ := pick_hit hp
    have hbL : b ∈ L h := by rw [hAB]; simp
    have hmem : ∀ k q, q ≠ b → (q ∈ L k ↔ q ∈ L k) := fun _ _ _ => Iff.rfl
    have St := shape_t L hS
    refine ⟨L, ⟨St, tGood, home_t L St hbL hmem, ?_⟩, hbL, hmem, Or.inl ⟨hp, rfl, ?_, ?_, ?_⟩⟩
    · intro k hk
      by_cases hkh : k = h
      · rw [hkh, hAB]
        have hnd := I.shape.rings.nodup h hh
        have hpw := I.uniq h hh
        rw [hAB] at hnd hpw
        obtain ⟨neA, neB⟩ := split_ne hnd
        refine pw_at hnd hc (fun x hx => (vac x (neA x hx) (hA x hx)).1) ?_ hpw
        intro y hy
        have hcy := (core_eq_iff _ _).mp (hc y (neB y hy))
        have hsb : Later s b y := by
          have := (List.pairwise_append.mp hpw).2.1
          exact (List.pairwise_cons.mp this).1 y hy
        have hids := isId_true hid
        intro h1 h2
        rw [hcy.1]
        apply hsb
        · rw [hids.1, ← hcy.2.1, ← h1, tdev, kdev]
        · rw [hids.2, ← hcy.2.2.1, ← h2, tblk, kblk]
      · exact off k hk (fun hm => hkh (shape_unique I.shape hk hh hm hbL))
    · rw [tref, h4, Nat.mod_eq_of_lt hrb]
    · intro hv
      have : (u.deref b).valid ≠ 0 := by rw [h3, hv]; decide
      rw [tv1 this]
      exact ⟨hlog, hdata⟩
    · intro hv
      have : (u.deref b).valid = 0 := by rw [h3, hv]
      obtain ⟨_, t2, t3⟩ := tv0 this
      rw [t2, t3, kdev, kblk, hlog, hdisk]
      exact ⟨rfl, rfl⟩
  · -- reuse
    obtain ⟨hnone, hv⟩ := pick_reuse hp
    obtain ⟨_, A, B, hAB, _⟩ := victim_some hv
    have hbL : b ∈ L h := by rw [hAB]; simp
    have hmem : ∀ k q, q ≠ b → (q ∈ L k ↔ q ∈ L k) := fun _ _ _ => Iff.rfl
    have St := shape_t L hS
    obtain ⟨_, t2, t3⟩ := tv0 h3
    refine ⟨L, ⟨St, tGood, home_t L St hbL hmem, ?_⟩, hbL, hmem,
      Or.inr ⟨Or.inl ⟨hp, rfl⟩, by rw [tref, h4], ?_, ?_⟩⟩
    · intro k hk
      by_cases hkh : k = h
      · rw [hkh, hAB]
        have hnd := I.shape.rings.nodup h hh
        have hpw := I.uniq h hh
        rw [hAB] at hnd hpw hnone
        obtain ⟨neA, neB⟩ := split_ne hnd
        exact pw_at hnd hc (fun x hx => (vac x (neA x hx) (hnone x (by simp [hx]))).1)
          (fun y hy => (vac y (neB y hy) (hnone y (by simp [hy]))).2) hpw
      · exact off k hk (fun hm => hkh (shape_unique I.shape hk hh hm hbL))
    · rw [t2, kdev, kblk, hlog]
    · rw [t3, kdev, kblk, hdisk]
  · -- steal
    obtain ⟨hnone, _, hs⟩ := pick_steal hp
    obtain ⟨hjh, hv, pre, post, hr, _⟩ := stealPick_some _ hs
    have hj : j < NBUCKETS := List.mem_range.mp (by rw [hr]; simp)
    have hbj : b ∈ L j := victim_mem hv
    have hbh : b ∉ L h := fun hm => hjh (shape_unique I.shape hj hh hbj hm)
    have hLh : Function.update L j ((L j).erase b) h = L h := Function.update_noteq (Ne.symm hjh) _ _
    rw [hLh] at hS
    have hbM : b ∈ Function.update (Function.update L j ((L j).erase b)) h (b :: L h) h := by
      rw [Function.update_same]; simp
    have hmem : ∀ k q, q ≠ b →
        (q ∈ Function.update (Function.update L j ((L j).erase b)) h (b :: L h) k ↔ q ∈ L k) := by
      intro k q hq
      rw [mem_update_iff, mem_update_iff]
      by_cases hkh : k = h
      · subst hkh; simp [hq]
      · by_cases hkj : k = j
        · subst hkj; simp [hkh, List.mem_erase_of_ne hq]
        · simp [hkh, hkj]
    have St := shape_t _ hS
    obtain ⟨_, t2, t3⟩ := tv0 h3
    refine ⟨_, ⟨St, tGood, home_t _ St hbM hmem, ?_⟩, hbM, hmem,
      Or.inr ⟨Or.inr ⟨j, hp, by rw [hLh]⟩, by rw [tref, h4], ?_, ?_⟩⟩
    · intro k hk
      by_cases hkh : k = h
      · rw [hkh, Function.update_same, List.pairwise_cons]
        refine ⟨fun y hy => (vac y (fun e => hbh (e ▸ hy)) (hnone y hy)).2, off h hh hbh⟩
      · rw [Function.update_noteq hkh]
        by_cases hkj : k = j
        · rw [hkj, Function.update_same]
          exact pw_off (List.Nodup.not_mem_erase (I.shape.rings.nodup j hj)) hc
            ((I.uniq j hj).sublist (List.erase_sublist b (L j)))
        · rw [Function.update_noteq hkj]
          exact off k hk (fun hm => hkj (shape_unique I.shape hk hj hm hbj))
    · rw [t2, kdev, kblk, hlog]
    · rw [t3, kdev, kblk, hdisk]

theorem later_of_idv {s t : BCache} {x y : Ptr}
    (ex : (t.deref x).dev = (s.deref x).dev ∧ (t.deref x).blockno = (s.deref x).blockno)
    (ey : (t.deref y).dev = (s.deref y).dev ∧ (t.deref y).blockno = (s.deref y).blockno ∧
      (t.deref y).valid = (s.deref y).valid)
    (h : Later s x y) : Later t x y := by
  unfold Later at h ⊢
  rw [ex.1, ex.2, ey.1, ey.2.1, ey.2.2]
  exact h

theorem dec_mod {r : Nat} (h1 : 1 ≤ r) (h2 : r < 4294967296) :
    (r + 4294967295) % 4294967296 = r - 1 := by
  omega

/-- The body of `brelse` once its checks have passed. -/
theorem brelse_eq {s : BCache} {pid h : Nat} {b : Ptr} (hb : b ≠ Ptr.null)
    (hold : (s.deref b).lock = some pid)
    (hidx : bucketIdx (hash (toInt (s.deref b).blockno)) = Except.ok h) :
    ∃ w : BCache,
      (∀ q, w.deref q = if q = b then
        { s.deref b with lock := none, refcnt := ((s.deref b).refcnt + 4294967295) % 4294967296 }
        else s.deref q) ∧ w.disk = s.disk ∧ w.log = s.log ∧
      brelse s pid b =
        Except.ok (if (w.deref b).refcnt = 0 then push (pop w b) (Ptr.head h) b else w) := by
  refine ⟨(releasesleep s b).store b { (releasesleep s b).deref b with
    refcnt := (((releasesleep s b).deref b).refcnt + 4294967295) % 4294967296 }, ?_, ?_, ?_, ?_⟩
  · intro q
    simp only [releasesleep, deref_store _ _ _ _ hb]
    by_cases hq : q = b <;> simp [hq]
  · simp [releasesleep, store_disk]
  · simp [releasesleep, store_log]
  · have h1 : holdingsleep s pid b = true := by simp [holdingsleep, hold]
    have h2 : ((releasesleep s b).deref b).blockno = (s.deref b).blockno := by
      simp [releasesleep, deref_store _ _ _ _ hb]
    unfold brelse
    simp only [h1, h2, hidx]
    split_ifs <;> first | rfl | simp_all

/-- Effect of a returning `brelse` on a state that satisfies the invariant. -/
theorem brelse_spec {s t : BCache} {L : Nat → List Ptr} (I : InvL s L)
    {pid i : Nat} (hi : i < NBUF) (e : brelse s pid (Ptr.buf i) = Except.ok t) :
    (s.buf i).lock = some pid ∧ 1 ≤ (s.buf i).refcnt ∧ (s.buf i).valid = 1 ∧
    t.disk = s.disk ∧ t.log = s.log ∧
    (∀ q, q ≠ Ptr.buf i → (t.deref q).core = (s.deref q).core) ∧
    (t.buf i).dev = (s.buf i).dev ∧ (t.buf i).blockno = (s.buf i).blockno ∧
    (t.buf i).valid = (s.buf i).valid ∧ (t.buf i).data = (s.buf i).data ∧
    (t.buf i).lock = none ∧ (t.buf i).refcnt = (s.buf i).refcnt - 1 ∧
    ∃ h, bucketIdx (hash (toInt (s.buf i).blockno)) = Except.ok h ∧ Ptr.buf i ∈ L h ∧
      ∃ M, InvL t M ∧
        ((s.buf i).refcnt = 1 → M = Function.update L h (Ptr.buf i :: (L h).erase (Ptr.buf i))) ∧
        ((s.buf i).refcnt ≠ 1 → M = L) := by
  have hnn : Ptr.buf i ≠ Ptr.null := by simp
  have hG := I.good i hi
  have hlock : (s.buf i).lock = some pid := by
    unfold brelse at e
    by_cases hold : holdingsleep s pid (Ptr.buf i) = false
    · rw [if_pos hold] at e; cases e
    · simpa [holdingsleep, BCache.deref] using hold
  have hl' : (s.deref (Ptr.buf i)).lock ≠ none := by
    show (s.buf i).lock ≠ none
    rw [hlock]; simp
  obtain ⟨href, hval⟩ := hG.held hl'
  change 1 ≤ (s.buf i).refcnt at href
  change (s.buf i).valid = 1 at hval
  have hbound : (s.buf i).refcnt < 4294967296 := by
    have := hG.bound
    rw [if_neg hl'] at this
    simpa using this
  obtain ⟨k, hk, hmem⟩ := I.shape.total i hi
  have hidx := I.home k hk _ hmem hval
  obtain ⟨w, hwd0, hwdisk1, hwdisk2, hbr⟩ := brelse_eq hnn hlock hidx
  rw [hbr] at e
  have hwd : ∀ q, w.deref q = if q = Ptr.buf i then
      { s.deref (Ptr.buf i) with lock := none, refcnt := (s.buf i).refcnt - 1 }
      else s.deref q := by
    intro q
    have hm : ((s.deref (Ptr.buf i)).refcnt + 4294967295) % 4294967296 = (s.buf i).refcnt - 1 :=
      dec_mod href hbound
    rw [hwd0 q, hm]
  have hwdisk : w.disk = s.disk ∧ w.log = s.log := ⟨hwdisk1, hwdisk2⟩
  have Rw : Rings w L := rings_overwrite I.shape.rings (Ptr.buf i)
    (fun q hq => by rw [hwd q, if_neg hq]) (by rw [hwd]; simp) (by rw [hwd]; simp)
  have Sw : Shape w L := ⟨Rw, I.shape.total⟩
  have hwb : w.deref (Ptr.buf i) =
      { s.deref (Ptr.buf i) with lock := none, refcnt := (s.buf i).refcnt - 1 } := by
    rw [hwd]; simp
  -- facts about the final state, from its core
  have fin : (∀ q, (t.deref q).core = (w.deref q).core) → t.disk = w.disk → t.log = w.log →
      ∀ M, Shape t M → (∀ k q, q ∈ M k ↔ q ∈ L k) → (∀ k, k < NBUCKETS → (M k).Pairwise (Later t)) →
      ((s.buf i).refcnt = 1 → M = Function.update L k (Ptr.buf i :: (L k).erase (Ptr.buf i))) →
      ((s.buf i).refcnt ≠ 1 → M = L) →
      (s.buf i).lock = some pid ∧ 1 ≤ (s.buf i).refcnt ∧ (s.buf i).valid = 1 ∧
      t.disk = s.disk ∧ t.log = s.log ∧
      (∀ q, q ≠ Ptr.buf i → (t.deref q).core = (s.deref q).core) ∧
      (t.buf i).dev = (s.buf i).dev ∧ (t.buf i).blockno = (s.buf i).blockno ∧
      (t.buf i).valid = (s.buf i).valid ∧ (t.buf i).data = (s.buf i).data ∧
      (t.buf i).lock = none ∧ (t.buf i).refcnt = (s.buf i).refcnt - 1 ∧
      ∃ h, bucketIdx (hash (toInt (s.buf i).blockno)) = Except.ok h ∧ Ptr.buf i ∈ L h ∧
        ∃ M, InvL t M ∧
          ((s.buf i).refcnt = 1 →
            M = Function.update L h (Ptr.buf i :: (L h).erase (Ptr.buf i))) ∧
          ((s.buf i).refcnt ≠ 1 → M = L) := by
    intro hc hd hl M SM hmemM hpw hM1 hM2
    have hcb := (core_eq_iff _ _).mp ((hc (Ptr.buf i)).trans (by rw [hwb]))
    simp only [] at hcb
    have hco : ∀ q, q ≠ Ptr.buf i → (t.deref q).core = (s.deref q).core := by
      intro q hq; rw [hc q, hwd q, if_neg hq]
    refine ⟨hlock, href, hval, by rw [hd, hwdisk.1], by rw [hl, hwdisk.2], hco,
      hcb.2.1, hcb.2.2.1, hcb.1, hcb.2.2.2.2.2, hcb.2.2.2.1, hcb.2.2.2.2.1,
      k, hidx, hmem, M, ⟨SM, ?_, ?_, hpw⟩, hM1, hM2⟩
    · intro j hj
      by_cases hji : Ptr.buf j = Ptr.buf i
      · rw [hji]
        have hcb' := hcb
        change (t.deref (Ptr.buf i)).valid = _ ∧ _ at hcb'
        refine ⟨fun hne => absurd hcb'.2.2.2.1 hne, ?_, ?_, ?_⟩
        · rw [hcb'.2.2.2.1, hcb'.2.2.2.2.1, if_pos rfl]
          show (s.buf i).refcnt - 1 + 1 < 4294967296
          omega
        · rw [hcb'.1]; exact hG.vbit
        · rw [hcb'.2.2.1]; exact hG.idx
      · exact good_of_core (hco _ hji) (I.good j hj)
    · intro k' hk' p hp hv
      by_cases hpb : p = Ptr.buf i
      · rw [hpb] at hp hv ⊢
        have hcb' := hcb
        change (t.deref (Ptr.buf i)).valid = _ ∧ _ at hcb'
        rw [hcb'.2.2.1]
        exact I.home k' hk' _ ((hmemM k' _).mp hp) (by rw [← hcb'.1]; exact hv)
      · have hcp := (core_eq_iff _ _).mp (hco p hpb)
        rw [hcp.2.2.1]
        exact I.home k' hk' p ((hmemM k' p).mp hp) (by rw [← hcp.1]; exact hv)
  -- identity and valid flag are the same in `w` and `s`
  have idv : ∀ q, (w.deref q).dev = (s.deref q).dev ∧ (w.deref q).blockno = (s.deref q).blockno ∧
      (w.deref q).valid = (s.deref q).valid := by
    intro q
    rw [hwd q]
    by_cases hq : q = Ptr.buf i <;> simp [hq]
  have hwr : (w.deref (Ptr.buf i)).refcnt = (s.buf i).refcnt - 1 := by rw [hwb]
  by_cases hz : (s.buf i).refcnt - 1 = 0
  · have h1 : (s.buf i).refcnt = 1 := by omega
    rw [hwr, if_pos hz] at e
    have et : t = push (pop w (Ptr.buf i)) (Ptr.head k) (Ptr.buf i) := by
      injection e with e; exact e.symm
    have SM := shape_move Sw hk hk hi hmem et
    rw [Function.update_same, Function.update_idem] at SM
    have hct : ∀ q, (t.deref q).core = (w.deref q).core := by
      intro q; rw [et, push_core, pop_core]
    refine fin hct (by rw [et]; simp [push_disk, pop_disk]) (by rw [et]; simp [push_disk, pop_disk])
      _ SM ?_ ?_ (fun _ => rfl) (fun hne => absurd h1 hne)
    · intro k' q
      rw [mem_update_iff]
      by_cases hkk : k' = k
      · subst hkk
        by_cases hq : q = Ptr.buf i
        · subst hq; simp [hmem]
        · simp [hq, List.mem_erase_of_ne hq]
      · simp [hkk]
    · have tidv : ∀ q, (t.deref q).dev = (s.deref q).dev ∧
          (t.deref q).blockno = (s.deref q).blockno ∧ (t.deref q).valid = (s.deref q).valid := by
        intro q
        have := (core_eq_iff _ _).mp (hct q)
        exact ⟨this.2.1.trans (idv q).1, this.2.2.1.trans (idv q).2.1, this.1.trans (idv q).2.2⟩
      have conv : ∀ x y, Later s x y → Later t x y := fun x y hxy =>
        later_of_idv ⟨(tidv x).1, (tidv x).2.1⟩ (tidv y) hxy
      intro k' hk'
      by_cases hkk : k' = k
      · rw [hkk, Function.update_same]
        obtain ⟨A, B, hAB⟩ := List.append_of_mem hmem
        have hnd := I.shape.rings.nodup k hk
        have hpw := I.uniq k hk
        rw [hAB] at hnd hpw
        have hbA : Ptr.buf i ∉ A := fun hm => (List.nodup_append.mp hnd).2.2 hm (by simp)
        have her : (L k).erase (Ptr.buf i) = A ++ B := by
          rw [hAB, List.erase_append_right _ hbA, List.erase_cons_head]
        rw [her, List.pairwise_cons]
        rw [List.pairwise_append, List.pairwise_cons] at hpw
        obtain ⟨pA, ⟨pbB, pB⟩, pAB⟩ := hpw
        refine ⟨?_, ?_⟩
        · intro y hy
          rcases List.mem_append.mp hy with hy | hy
          · have := pAB y hy (Ptr.buf i) (by simp)
            apply conv
            intro e1 e2
            have hv0 := this e1.symm e2.symm
            change (s.buf i).valid = 0 at hv0
            rw [hval] at hv0
            cases hv0
          · exact conv _ _ (pbB y hy)
        · rw [List.pairwise_append]
          exact ⟨pA.imp (fun {x y} hxy => conv x y hxy), pB.imp (fun {x y} hxy => conv x y hxy),
            fun x hx y hy => conv x y (pAB x hx y (List.mem_cons_of_mem _ hy))⟩
      · rw [Function.update_noteq hkk]
        exact (I.uniq k' hk').imp (fun {x y} hxy => conv x y hxy)
  · have h1 : (s.buf i).refcnt ≠ 1 := by omega
    rw [hwr, if_neg hz] at e
    have et : t = w := by injection e with e; exact e.symm
    subst et
    refine fin (fun _ => rfl) rfl rfl L Sw (fun _ _ => Iff.rfl) ?_ (fun h => absurd h h1)
      (fun _ => rfl)
    intro k' hk'
    exact (I.uniq k' hk').imp (fun {x y} hxy =>
      later_of_idv ⟨(idv x).1, (idv x).2.1⟩ (idv y) hxy)

/-- Changing only the reference count of one slot keeps the invariant, as long as
the new count respects the per-slot bounds. -/
theorem invL_refcnt {s t : BCache} {L : Nat → List Ptr} (I : InvL s L) {i r : Nat}
    (hd : ∀ q, t.deref q = if q = Ptr.buf i then { s.buf i with refcnt := r } else s.deref q)
    (h1 : (s.buf i).lock ≠ none → 1 ≤ r)
    (h2 : r + (if (s.buf i).lock = none then 1 else 0) < 4294967296) : InvL t L := by
  have idv : ∀ q, (t.deref q).dev = (s.deref q).dev ∧ (t.deref q).blockno = (s.deref q).blockno ∧
      (t.deref q).valid = (s.deref q).valid := by
    intro q
    rw [hd q]
    by_cases hq : q = Ptr.buf i
    · subst hq; simp [BCache.deref]
    · simp [hq]
  refine ⟨⟨rings_overwrite I.shape.rings (Ptr.buf i) (fun q hq => by rw [hd q, if_neg hq])
    (by rw [hd]; simp [BCache.deref]) (by rw [hd]; simp [BCache.deref]), I.shape.total⟩, ?_, ?_, ?_⟩
  · intro j hj
    by_cases hji : j = i
    · subst hji
      have hG := I.good j hj
      rw [hd]
      simp only [if_true]
      exact ⟨fun hl => ⟨h1 hl, (hG.held hl).2⟩, h2, hG.vbit, hG.idx⟩
    · have : Ptr.buf j ≠ Ptr.buf i := fun e => hji (by injection e)
      rw [hd, if_neg this]
      exact I.good j hj
  · intro h hh p hp hv
    rw [(idv p).2.1]
    exact I.home h hh p hp (by rw [← (idv p).2.2]; exact hv)
  · intro h hh
    exact (I.uniq h hh).imp (fun {x y} hxy =>
      later_of_idv ⟨(idv x).1, (idv x).2.1⟩ (idv y) hxy)

theorem bpin_eq {s : BCache} {i k : Nat}
    (hidx : bucketIdx (hash (toInt (s.buf i).blockno)) = Except.ok k) :
    bpin s (Ptr.buf i) = Except.ok (s.store (Ptr.buf i)
      { s.buf i with refcnt := ((s.buf i).refcnt + 1) % 4294967296 }) := by
  unfold bpin
  simp only [BCache.deref, hidx]

theorem bunpin_eq {s : BCache} {i k : Nat}
    (hidx : bucketIdx (hash (toInt (s.buf i).blockno)) = Except.ok k) :
    bunpin s (Ptr.buf i) = Except.ok (s.store (Ptr.buf i)
      { s.buf i with refcnt := ((s.buf i).refcnt + 4294967295) % 4294967296 }) := by
  unfold bunpin
  simp only [BCache.deref, hidx]

theorem store_buf_deref (s : BCache) (i : Nat) (v : Buf) (q : Ptr) :
    (s.store (Ptr.buf i) v).deref q = if q = Ptr.buf i then v else s.deref q :=
  deref_store s (Ptr.buf i) q v (by simp)

theorem bpin_inv {s t : BCache} {L : Nat → List Ptr} (I : InvL s L) {i : Nat} (hi : i < NBUF)
    (hr : (s.buf i).refcnt + 2 < 4294967296) (e : bpin s (Ptr.buf i) = Except.ok t) :
    InvL t L := by
  obtain ⟨k, hidx⟩ := (I.good i hi).idx
  rw [bpin_eq hidx] at e
  injection e with e
  subst e
  refine invL_refcnt I (store_buf_deref s i _) ?_ ?_
  · intro _; rw [Nat.mod_eq_of_lt (by omega)]; omega
  · rw [Nat.mod_eq_of_lt (by omega)]; split_ifs <;> omega

theorem bunpin_inv {s t : BCache} {L : Nat → List Ptr} (I : InvL s L) {i : Nat} (hi : i < NBUF)
    (hr : (if (s.buf i).lock = none then 0 else 1) < (s.buf i).refcnt)
    (e : bunpin s (Ptr.buf i) = Except.ok t) : InvL t L := by
  have hG := I.good i hi
  obtain ⟨k, hidx⟩ := hG.idx
  rw [bunpin_eq hidx] at e
  injection e with e
  subst e
  have hb := hG.bound
  change (s.buf i).refcnt + (if (s.buf i).lock = none then 1 else 0) < 4294967296 at hb
  have h0 : 1 ≤ (s.buf i).refcnt := by split_ifs at hr <;> omega
  have hlt : (s.buf i).refcnt < 4294967296 := by split_ifs at hb <;> omega
  refine invL_refcnt I (store_buf_deref s i _) ?_ ?_
  · intro hl
    rw [if_neg hl] at hr
    rw [dec_mod h0 hlt]; omega
  · rw [dec_mod h0 hlt]; split_ifs <;> omega

theorem segB_seg {s : BCache} {a z : Ptr} {l : List Ptr} (h : segB s a l z = true) :
    Seg s a l z := by
  induction l generalizing a with
  | nil => simpa [segB, Seg] using h
  | cons x r ih =>
    simp only [segB, Bool.and_eq_true, decide_eq_true_eq] at h
    exact ⟨h.1.1, h.1.2, ih h.2⟩

theorem onDisk_store (s : BCache) (d : Nat → Nat → List Nat) (p : Ptr) (v : Buf) :
    (s.onDisk d).store p v = (s.store p v).onDisk d := by
  cases p <;> rfl

theorem onDisk_deref (s : BCache) (d : Nat → Nat → List Nat) (q : Ptr) :
    (s.onDisk d).deref q = s.deref q := by
  cases q <;> rfl

theorem onDisk_push (s : BCache) (d : Nat → Nat → List Nat) (a b : Ptr) :
    push (s.onDisk d) a b = (push s a b).onDisk d := by
  simp only [push, onDisk_store, onDisk_deref]

theorem foldl_onDisk {α : Type} (f : BCache → α → BCache) (d : Nat → Nat → List Nat)
    (hf : ∀ s i, f (s.onDisk d) i = (f s i).onDisk d) (l : List α) (s : BCache) :
    l.foldl f (s.onDisk d) = (l.foldl f s).onDisk d := by
  induction l generalizing s with
  | nil => rfl
  | cons x r ih => rw [List.foldl_cons, List.foldl_cons, hf, ih]

theorem foldl_inv {α : Type} (P : BCache → Prop) (f : BCache → α → BCache)
    (hf : ∀ s i, P s → P (f s i)) (l : List α) (s : BCache) (h : P s) : P (l.foldl f s) := by
  induction l generalizing s with
  | nil => exact h
  | cons x r ih => exact ih _ (hf s x h)

theorem binit_onDisk (s : BCache) (d : Nat → Nat → List Nat) :
    binit (s.onDisk d) = (binit s).onDisk d := by
  unfold binit
  simp only []
  rw [foldl_onDisk _ d _ _ s, foldl_onDisk]
  · intro s i
    simp only [initsleeplock, onDisk_store, onDisk_deref, onDisk_push]
  · intro s i
    simp only [onDisk_store, onDisk_deref]

theorem onDisk_disk (s : BCache) (d : Nat → Nat → List Nat) : (s.onDisk d).disk = d := rfl

theorem onDisk_log (s : BCache) (d : Nat → Nat → List Nat) : (s.onDisk d).log = s.log := rfl

theorem boot_onDisk (disk : Nat → Nat → List Nat) :
    boot disk = (boot (fun _ _ => [])).onDisk disk := rfl

theorem binit_deref (disk : Nat → Nat → List Nat) (q : Ptr) :
    (binit (boot disk)).deref q = (binit (boot (fun _ _ => []))).deref q := by
  rw [boot_onDisk, binit_onDisk, onDisk_deref]

theorem fresh_log : (binit (boot (fun _ _ => []))).log = [] := by
  decide

theorem binit_disk (disk : Nat → Nat → List Nat) :
    (binit (boot disk)).disk = disk ∧ (binit (boot disk)).log = [] := by
  rw [boot_onDisk, binit_onDisk, onDisk_disk, onDisk_log]
  exact ⟨rfl, fresh_log⟩

theorem init_ring : (List.range NBUCKETS).all (fun h =>
    segB (binit (boot (fun _ _ => []))) (Ptr.head h) (initList h) (Ptr.head h)) = true := by
  decide

theorem init_slot {h : Nat} {p : Ptr} (hp : p ∈ initList h) :
    ∃ i, i < NBUF ∧ i % NBUCKETS = h ∧ p = Ptr.buf i := by
  simp only [initList, List.mem_map, List.mem_filter, List.mem_reverse, List.mem_range,
    decide_eq_true_eq] at hp
  obtain ⟨i, ⟨h1, h2⟩, h3⟩ := hp
  exact ⟨i, h1, h2, h3.symm⟩

theorem init_nodup (h : Nat) : (initList h).Nodup := by
  unfold initList
  refine List.Nodup.map ?_ (List.Nodup.filter _ (List.nodup_reverse.mpr (List.nodup_range _)))
  intro a b e
  injection e

theorem init_total {i : Nat} (hi : i < NBUF) : Ptr.buf i ∈ initList (i % NBUCKETS) := by
  simp only [initList, List.mem_map, List.mem_filter, List.mem_reverse, List.mem_range,
    decide_eq_true_eq]
  exact ⟨i, ⟨hi, rfl⟩, rfl⟩

theorem init_rings (disk : Nat → Nat → List Nat) : Shape (binit (boot disk)) initList := by
  refine ⟨⟨?_, ?_, ?_, ?_⟩, ?_⟩
  · intro h hh
    have := List.all_eq_true.mp init_ring h (List.mem_range.mpr hh)
    exact seg_frame _ _ _ _ _ (fun x _ => by rw [binit_deref]) (fun x _ => by rw [binit_deref])
      (segB_seg this)
  · intro h _ p hp
    obtain ⟨i, h1, _, h3⟩ := init_slot hp
    exact ⟨i, h1, h3⟩
  · intro h _
    exact init_nodup h
  · intro h k _ _ hne p hp hq
    obtain ⟨i, _, h2, h3⟩ := init_slot hp
    obtain ⟨j, _, h5, h6⟩ := init_slot hq
    rw [h3] at h6
    injection h6 with h6
    rw [h6] at h2
    exact hne (h2.symm.trans h5)
  · intro i hi
    exact ⟨i % NBUCKETS, Nat.mod_lt _ (by decide), init_total hi⟩

/-- After `binit` every record is as static storage had it, apart from the links. -/
theorem init_core (disk : Nat → Nat → List Nat) (q : Ptr) :
    ((binit (boot disk)).deref q).core = Buf.zero.core := by
  have zc : ∀ {s : BCache} {p : Ptr} {v : Buf}, (∀ q, (s.deref q).core = Buf.zero.core) →
      v.core = Buf.zero.core → ∀ q, ((s.store p v).deref q).core = Buf.zero.core := by
    intro s p v hs hv q
    rw [deref_store_gen]
    split_ifs
    · exact hv
    · exact hs q
  have h0 : ∀ q, ((boot disk).deref q).core = Buf.zero.core := by
    intro q; cases q <;> rfl
  unfold binit
  simp only []
  refine foldl_inv (fun s => ∀ q, (s.deref q).core = Buf.zero.core) _ ?_ _ _
    (foldl_inv (fun s => ∀ q, (s.deref q).core = Buf.zero.core) _ ?_ _ _ h0) q
  · intro s i hs q
    rw [push_core]
    unfold initsleeplock
    refine zc hs ?_ q
    have := (core_eq_iff _ _).mp (hs (Ptr.buf i))
    simp only [Buf.core, Buf.zero] at this ⊢
    simp [this.1, this.2.1, this.2.2.1, this.2.2.2.2.1, this.2.2.2.2.2]
  · intro s i hs
    have h1 : ∀ q, ((s.store (Ptr.head i)
        { s.deref (Ptr.head i) with prev := Ptr.head i }).deref q).core = Buf.zero.core :=
      zc hs (hs (Ptr.head i))
    exact zc h1 (h1 (Ptr.head i))

theorem init_inv (disk : Nat → Nat → List Nat) : InvL (binit (boot disk)) initList := by
  have hz : ∀ q, ((binit (boot disk)).deref q).valid = 0 ∧
      ((binit (boot disk)).deref q).lock = none ∧ ((binit (boot disk)).deref q).refcnt = 0 ∧
      ((binit (boot disk)).deref q).blockno = 0 := by
    intro q
    have := (core_eq_iff _ _).mp (init_core disk q)
    exact ⟨this.1, this.2.2.2.1, this.2.2.2.2.1, this.2.2.1⟩
  refine ⟨init_rings disk, ?_, ?_, ?_⟩
  · intro i _
    obtain ⟨h1, h2, h3, h4⟩ := hz (Ptr.buf i)
    refine ⟨fun h => absurd h2 h, by rw [h3, h2]; decide, Or.inl h1, ?_⟩
    rw [h4]
    exact ⟨0, rfl⟩
  · intro h _ p _ hv
    rw [(hz p).1] at hv
    cases hv
  · intro h _
    refine List.Pairwise.imp_of_mem ?_ (List.pairwise_of_forall (R := fun _ _ => True) (fun _ _ => trivial) : (initList h).Pairwise _)
    intro x y _ _ _ _ _
    exact (hz y).1

theorem bget_idx {s : BCache} {pid dev blockno : Nat} {r : Ptr × BCache}
    (e : bget s pid dev blockno = Except.ok r) :
    ∃ h, bucketIdx (hash (toInt blockno)) = Except.ok h := by
  unfold bget at e
  cases hb : bucketIdx (hash (toInt blockno)) with
  | error x => rw [hb] at e; cases e
  | ok h => exact ⟨h, rfl⟩

theorem bread_idx {s t : BCache} {pid dev blockno : Nat} {b : Ptr}
    (e : bread s pid dev blockno = Except.ok (b, t)) :
    ∃ h, bucketIdx (hash (toInt blockno)) = Except.ok h := by
  obtain ⟨u, hu⟩ := bread_bget e
  exact bget_idx hu

/-- Every reachable state satisfies the invariant. -/
theorem reachable_inv {s : BCache} (r : Reachable s) : Inv s := by
  induction r with
  | init disk => exact inv_of_invL (init_inv disk)
  | bread _ e ih =>
    obtain ⟨h, hidx⟩ := bread_idx e
    obtain ⟨_, _, _, _, _, _, _, _, M, hM, _⟩ := bread_spec ih hidx e
    exact inv_of_invL hM
  | brelse _ hi e ih =>
    obtain ⟨_, _, _, _, _, _, _, _, _, _, _, _, h, _, _, M, hM, _⟩ := brelse_spec ih hi e
    exact inv_of_invL hM
  | bpin _ hi hr e ih => exact inv_of_invL (bpin_inv ih hi hr e)
  | bunpin _ hi hr e ih => exact inv_of_invL (bunpin_inv ih hi hr e)

/-- A slot nobody references is not locked. -/
theorem free_unlocked {s : BCache} {L : Nat → List Ptr} (I : InvL s L) {k : Nat}
    (hk : k < NBUCKETS) {b : Ptr} (hb : b ∈ L k) (hf : (s.deref b).refcnt = 0) :
    (s.deref b).lock = none := by
  obtain ⟨i, hi, e⟩ := I.shape.rings.slot k hk b hb
  by_contra hl
  have := ((I.good i hi).held (by rw [← e]; exact hl)).1
  rw [← e, hf] at this
  exact absurd this (by decide)

/-- The outcome of `bget` in a state that satisfies the invariant: it sleeps on a
hit whose slot is locked, panics when nothing is reclaimable, and returns otherwise. -/
theorem bget_cases {s : BCache} {L : Nat → List Ptr} (I : InvL s L)
    (pid dev blockno : Nat) {h : Nat}
    (hidx : bucketIdx (hash (toInt blockno)) = Except.ok h) :
    (∃ b, pick s L dev blockno h = Pick.hit b ∧ (s.deref b).lock ≠ none ∧
        bget s pid dev blockno = Except.error Err.blocks) ∨
    (pick s L dev blockno h = Pick.none ∧
        bget s pid dev blockno = Except.error (Err.panic "bget: no buffers")) ∨
    (∃ b t, bget s pid dev blockno = Except.ok (b, t)) := by
  have hh := bucketIdx_lt hidx
  rw [bget_eq I.shape.rings pid dev blockno h hidx]
  cases hp : pick s L dev blockno h with
  | none => exact Or.inr (Or.inl ⟨rfl, rfl⟩)
  | hit b =>
    simp only []
    obtain ⟨k, hk, hm⟩ := pick_slot hh (Or.inl hp)
    obtain ⟨i, hi, hbi⟩ := I.shape.rings.slot k hk _ hm
    have hnn : b ≠ Ptr.null := by rw [hbi]; simp
    by_cases hl : (s.deref b).lock = none
    · exact Or.inr (Or.inr ⟨b, _, locked_free (by rw [deref_store _ _ _ _ hnn]; simpa using hl)⟩)
    · exact Or.inl ⟨b, rfl, hl, locked_held (by rw [deref_store _ _ _ _ hnn]; simpa using hl)⟩
  | reuse b =>
    simp only []
    have hv := (pick_reuse hp).2
    have hm := victim_mem hv
    obtain ⟨i, hi, hbi⟩ := I.shape.rings.slot h hh _ hm
    have hnn : b ≠ Ptr.null := by rw [hbi]; simp
    have hl := free_unlocked I hh hm (isFree_true (victim_some hv).1)
    exact Or.inr (Or.inr ⟨b, _, locked_free
      (by rw [init_blocks_deref _ _ _ _ _ hnn]; simpa using hl)⟩)
  | steal j b =>
    simp only []
    obtain ⟨_, _, hs⟩ := pick_steal hp
    obtain ⟨_, hv, pre, post, hr, _⟩ := stealPick_some _ hs
    have hj : j < NBUCKETS := List.mem_range.mp (by rw [hr]; simp)
    have hm := victim_mem hv
    obtain ⟨i, hi, hbi⟩ := I.shape.rings.slot j hj _ hm
    have hnn : b ≠ Ptr.null := by rw [hbi]; simp
    have hl := free_unlocked I hj hm (isFree_true (victim_some hv).1)
    have hc := (core_eq_iff _ _).mp ((push_core (pop s b) (Ptr.head h) b b).trans (pop_core s b b))
    exact Or.inr (Or.inr ⟨b, _, locked_free
      (by rw [init_blocks_deref _ _ _ _ _ hnn]; simpa [hc.2.2.2.1] using hl)⟩)

theorem bget_undef {s : BCache} {pid dev blockno : Nat} {x : Err}
    (hidx : bucketIdx (hash (toInt blockno)) = Except.error x) :
    bget s pid dev blockno = Except.error Err.undef := by
  unfold bget
  have : x = Err.undef := by
    unfold bucketIdx at hidx
    split_ifs at hidx
    injection hidx with e
    exact e.symm
  rw [hidx, this]

theorem bread_of_bget {s u : BCache} {pid dev blockno : Nat} {b : Ptr}
    (e : bget s pid dev blockno = Except.ok (b, u)) :
    ∃ t, bread s pid dev blockno = Except.ok (b, t) := by
  unfold bread
  rw [e]
  simp only []
  split_ifs
  · exact ⟨_, rfl⟩
  · exact ⟨_, rfl⟩

/-- Block numbers below 2^31 are non-negative as `int` and hash to a bucket. -/
theorem idx_of_lt {n : Nat} (h : n < 2147483648) :
    bucketIdx (hash (toInt n)) = Except.ok (n % NBUCKETS) := by
  have h1 : n % 4294967296 = n := Nat.mod_eq_of_lt (by omega)
  have h2 : toInt n = (n : Int) := by
    unfold toInt
    rw [h1, if_pos h]
  have h3 : hash (toInt n) = ((n % NBUCKETS : Nat) : Int) := by
    rw [h2]
    unfold hash
    rw [Int.tmod_eq_emod (by omega) (by decide)]
    norm_cast
  rw [h3]
  unfold bucketIdx
  have : (0 : Int) ≤ ((n % NBUCKETS : Nat) : Int) ∧ ((n % NBUCKETS : Nat) : Int) < (NBUCKETS : Int) := by
    refine ⟨by omega, ?_⟩
    have := Nat.mod_lt n (show NBUCKETS > 0 by decide)
    exact_mod_cast this
  rw [if_pos this, Int.toNat_ofNat]

/-- A valid cached slot is the one a lookup of its identity finds. -/
theorem hit_valid {s : BCache} {L : Nat → List Ptr} (I : InvL s L) {h : Nat}
    (hh : h < NBUCKETS) {b : Ptr} (hb : b ∈ L h) {dev blockno : Nat}
    (hid : isId s dev blockno b = true) (hv : (s.deref b).valid = 1) :
    pick s L dev blockno h = Pick.hit b := by
  cases hf : (L h).find? (isId s dev blockno) with
  | none =>
    have := List.find?_eq_none.mp hf b hb
    exact absurd hid this
  | some c =>
    have hp : pick s L dev blockno h = Pick.hit c := by simp [pick, hf]
    obtain ⟨hc, A, B, hAB, hA⟩ := pick_hit hp
    have hpw := I.uniq h hh
    rw [hAB] at hb hpw
    rcases List.mem_append.mp hb with hm | hm
    · rw [hA b hm] at hid; cases hid
    · rcases List.mem_cons.mp hm with e | e
      · rw [hp, e]
      · have hl : Later s c b :=
          (List.pairwise_cons.mp (List.pairwise_append.mp hpw).2.1).1 b e
        have h1 := isId_true hc
        have h2 := isId_true hid
        have := hl (h1.1.trans h2.1.symm) (h1.2.trans h2.2.symm)
        rw [hv] at this
        cases this

/-- The call `brelse` returns when the caller holds the slot. -/
theorem brelse_total {s : BCache} {L : Nat → List Ptr} (I : InvL s L) {pid i : Nat}
    (hi : i < NBUF) (hl : (s.buf i).lock = some pid) :
    ∃ t, brelse s pid (Ptr.buf i) = Except.ok t := by
  obtain ⟨k, hidx⟩ := (I.good i hi).idx
  obtain ⟨w, _, _, _, hbr⟩ := @brelse_eq s pid k (Ptr.buf i) (by simp) hl hidx
  exact ⟨_, hbr⟩

/-- Reading a block and releasing it at once, in a state where no sleep lock is
held and some slot is unreferenced: both calls return, every other slot is left
as it was, and the slot used ends with the reference count it had (a hit) or 0. -/
theorem read_release {s : BCache} {L : Nat → List Ptr} (I : InvL s L)
    (hl : ∀ j, j < NBUF → (s.buf j).lock = none) (pid dev blockno : Nat) {h : Nat}
    (hidx : bucketIdx (hash (toInt blockno)) = Except.ok h)
    (hfree : ∃ j, j < NBUF ∧ (s.buf j).refcnt = 0) :
    ∃ c t u, bread s pid dev blockno = Except.ok (c, t) ∧ brelse t pid c = Except.ok u ∧
      (∃ j, j < NBUF ∧ c = Ptr.buf j) ∧ Inv u ∧
      (∀ j, j < NBUF → (u.buf j).lock = none) ∧
      (∀ q, q ≠ c → (u.deref q).core = (s.deref q).core) ∧
      (u.deref c).dev = dev ∧ (u.deref c).blockno = blockno ∧ (u.deref c).valid = 1 ∧
      u.disk = s.disk ∧
      (u.log = s.log ∨ u.log = { dev := dev, blockno := blockno, write := false } :: s.log) ∧
      ((pick s L dev blockno h = Pick.hit c ∧ (u.deref c).refcnt = (s.deref c).refcnt) ∨
       ((∀ b, pick s L dev blockno h ≠ Pick.hit b) ∧ (s.deref c).refcnt = 0 ∧
          (u.deref c).refcnt = 0)) := by
  have hh := bucketIdx_lt hidx
  rcases bget_cases I pid dev blockno hidx with ⟨b, hp, hlk, _⟩ | ⟨hp, _⟩ | ⟨c, w, hb⟩
  · obtain ⟨k, hk, hm⟩ := pick_slot hh (Or.inl hp)
    obtain ⟨j, hj, e⟩ := I.shape.rings.slot k hk _ hm
    rw [e] at hlk
    exact absurd (hl j hj) hlk
  · obtain ⟨j, hj, hz⟩ := hfree
    obtain ⟨k, hk, hm⟩ := I.shape.total j hj
    have := victim_none ((pick_none hp).2 k hk) _ hm
    exact absurd hz (isFree_false this)
  · obtain ⟨t, e⟩ := bread_of_bget hb
    obtain ⟨⟨j, hj, hcj⟩, _, hdisk, hoth, hlock, hdev, hblk, hval, M, hM, _, _, hcases⟩ :=
      bread_spec I hidx e
    subst hcj
    obtain ⟨u, hu⟩ := brelse_total hM hj hlock
    obtain ⟨_, _, _, rdisk, rlog, roth, rdev, rblk, rval, _, rlock, rref, _, _, _, N, hN, _⟩ :=
      brelse_spec hM hj hu
    refine ⟨Ptr.buf j, t, u, e, hu, ⟨j, hj, rfl⟩, inv_of_invL hN, ?_, ?_,
      rdev.trans hdev, rblk.trans hblk, rval.trans hval, rdisk.trans hdisk, ?_, ?_⟩
    · intro m hm
      by_cases hmj : m = j
      · rw [hmj]; exact rlock
      · have hne : Ptr.buf m ≠ Ptr.buf j := fun e => hmj (by injection e)
        have := (core_eq_iff _ _).mp ((roth _ hne).trans (hoth _ hne))
        exact this.2.2.2.1.trans (hl m hm)
    · intro q hq
      exact (roth q hq).trans (hoth q hq)
    · rw [rlog]
      rcases hcases with ⟨_, _, _, h4, h5⟩ | ⟨_, _, h4, _⟩
      · rcases (I.good j hj).vbit with hv | hv
        · exact Or.inr (h5 hv).1
        · exact Or.inl (h4 hv).1
      · exact Or.inr h4
    · rcases hcases with ⟨hp, _, h3, _⟩ | ⟨hp, h3, _⟩
      · left
        refine ⟨hp, ?_⟩
        show (u.buf j).refcnt = (s.buf j).refcnt
        rw [rref]
        have : (t.buf j).refcnt = (s.buf j).refcnt + 1 := h3
        omega
      · right
        have hz : (s.buf j).refcnt = 0 := by
          rcases hp with ⟨hp, _⟩ | ⟨i, hp, _⟩
          · exact isFree_true (victim_some (pick_reuse hp).2).1
          · obtain ⟨_, _, hs⟩ := pick_steal hp
            exact isFree_true (victim_some (stealPick_some _ hs).2.1).1
        refine ⟨?_, hz, ?_⟩
        · intro b hb
          rcases hp with ⟨hp, _⟩ | ⟨i, hp, _⟩ <;> rw [hb] at hp <;> cases hp
        · show (u.buf j).refcnt = 0
          rw [rref]
          have : (t.buf j).refcnt = 1 := h3
          omega

theorem readRel_cons {pid : Nat} {x : Nat × Nat} {r : List (Nat × Nat)} {s t u : BCache}
    {b : Ptr} (h1 : bread s pid x.1 x.2 = Except.ok (b, t))
    (h2 : brelse t pid b = Except.ok u) :
    readRel pid (x :: r) s = readRel pid r u := by
  simp only [readRel, h1, h2]

/-- While one slot stays referenced and no lock is held, any number of other blocks
can be read and released: every call returns and the referenced slot is untouched. -/
theorem pinned_loop (pid dv bn j0 : Nat) (hj0 : j0 < NBUF) (others : List (Nat × Nat))
    (ho : ∀ x ∈ others, x ≠ (dv, bn) ∧ x.2 < 2147483648) (s : BCache) (I : Inv s)
    (hl : ∀ j, j < NBUF → (s.buf j).lock = none)
    (hz : ∀ j, j < NBUF → j ≠ j0 → (s.buf j).refcnt = 0)
    (hp : (s.buf j0).refcnt ≠ 0) (hid : (s.buf j0).dev = dv ∧ (s.buf j0).blockno = bn) :
    ∃ u, readRel pid others s = Except.ok u ∧ Inv u ∧
      (∀ j, j < NBUF → (u.buf j).lock = none) ∧
      (u.buf j0).core = (s.buf j0).core ∧ u.disk = s.disk ∧
      (u.log.filter (fun o => decide (o.dev = dv ∧ o.blockno = bn))).length =
        (s.log.filter (fun o => decide (o.dev = dv ∧ o.blockno = bn))).length := by
  induction others generalizing s with
  | nil => exact ⟨s, rfl, I, hl, rfl, rfl, rfl⟩
  | cons x r ih =>
    obtain ⟨hx1, hx2⟩ := ho x (by simp)
    have hfree : ∃ j, j < NBUF ∧ (s.buf j).refcnt = 0 := by
      by_cases h0 : j0 = 0
      · exact ⟨1, by decide, hz 1 (by decide) (by omega)⟩
      · exact ⟨0, by decide, hz 0 (by decide) (fun e => h0 e.symm)⟩
    obtain ⟨c, t, u, e1, e2, ⟨j, hj, hcj⟩, Iu, ul, uoth, _, _, _, udisk, ulog, ucase⟩ :=
      read_release I hl pid x.1 x.2 (idx_of_lt hx2) hfree
    subst hcj
    have hne : j ≠ j0 := by
      intro e
      subst e
      rcases ucase with ⟨hp', _⟩ | ⟨_, h0, _⟩
      · have := isId_true (pick_hit hp').1
        apply hx1
        change (s.buf j).dev = x.1 ∧ (s.buf j).blockno = x.2 at this
        rw [hid.1, hid.2] at this
        exact Prod.ext this.1.symm this.2.symm
      · exact hp h0
    have hne' : Ptr.buf j0 ≠ Ptr.buf j := fun e => hne (by injection e with e; exact e.symm)
    have hc0 : (u.buf j0).core = (s.buf j0).core := uoth _ hne'
    have hc0' := (core_eq_iff _ _).mp hc0
    have hz' : ∀ m, m < NBUF → m ≠ j0 → (u.buf m).refcnt = 0 := by
      intro m hm hmj
      by_cases hmc : m = j
      · subst hmc
        rcases ucase with ⟨_, h1⟩ | ⟨_, _, h1⟩
        · exact h1.trans (hz m hm hmj)
        · exact h1
      · have hq : Ptr.buf m ≠ Ptr.buf j := fun e => hmc (by injection e)
        have := (core_eq_iff _ _).mp (uoth _ hq)
        exact this.2.2.2.2.1.trans (hz m hm hmj)
    obtain ⟨v, hv1, hv2, hv3, hv4, hv5, hv6⟩ := ih (fun y hy => ho y (List.mem_cons_of_mem _ hy))
      u Iu ul hz' (by rw [hc0'.2.2.2.2.1]; exact hp) (by rw [hc0'.2.1, hc0'.2.2.1]; exact hid)
    refine ⟨v, by rw [readRel_cons e1 e2]; exact hv1, hv2, hv3, hv4.trans hc0,
      hv5.trans udisk, hv6.trans ?_⟩
    rcases ulog with e | e
    · rw [e]
    · rw [e, List.filter_cons]
      have : decide ((x.1 = dv) ∧ (x.2 = bn)) = false := by
        rw [decide_eq_false_iff_not]
        rintro ⟨a, b⟩
        exact hx1 (Prod.ext a b)
      simp only [this]
      simp

/-- Frame of a returning `bread`: what it leaves alone. -/
theorem bread_frame_gen {s t : BCache} {pid dev blockno : Nat} {b : Ptr}
    (hr : Reachable s) (e : bread s pid dev blockno = Except.ok (b, t)) :
    (∀ i, i < NBUF → Ptr.buf i ≠ b →
      (t.buf i).dev = (s.buf i).dev ∧ (t.buf i).blockno = (s.buf i).blockno ∧
      (t.buf i).valid = (s.buf i).valid ∧ (t.buf i).data = (s.buf i).data ∧
      (t.buf i).refcnt = (s.buf i).refcnt ∧ (t.buf i).lock = (s.buf i).lock ∧
      ∀ k, k < NBUCKETS → (Ptr.buf i ∈ blist t k ↔ Ptr.buf i ∈ blist s k)) ∧
    (∀ i, i < NBUF →
      ((t.buf i).dev ≠ (s.buf i).dev ∨ (t.buf i).blockno ≠ (s.buf i).blockno) →
      Ptr.buf i = b ∧ (s.buf i).refcnt = 0) ∧
    (∀ h, bucketIdx (hash (toInt blockno)) = Except.ok h →
      bget_scan s (Ptr.head h) dev blockno FUEL (s.deref (Ptr.head h)).next = Except.ok none →
      (s.deref b).refcnt = 0) := by
  have I : InvL s (blist s) := reachable_inv hr
  obtain ⟨h, hidx⟩ := bread_idx e
  have hh := bucketIdx_lt hidx
  obtain ⟨⟨j, hj, hbj⟩, _, _, hoth, _, hdev, hblk, _, M, hM, _, hmem, hcases⟩ :=
    bread_spec I hidx e
  have frame : ∀ i, i < NBUF → Ptr.buf i ≠ b →
      (t.buf i).dev = (s.buf i).dev ∧ (t.buf i).blockno = (s.buf i).blockno ∧
      (t.buf i).valid = (s.buf i).valid ∧ (t.buf i).data = (s.buf i).data ∧
      (t.buf i).refcnt = (s.buf i).refcnt ∧ (t.buf i).lock = (s.buf i).lock ∧
      ∀ k, k < NBUCKETS → (Ptr.buf i ∈ blist t k ↔ Ptr.buf i ∈ blist s k) := by
    intro i _ hne
    have := (core_eq_iff _ _).mp (hoth _ hne)
    refine ⟨this.2.1, this.2.2.1, this.1, this.2.2.2.2.2, this.2.2.2.2.1, this.2.2.2.1, ?_⟩
    intro k hk
    rw [shape_blist hM.shape k hk]
    exact hmem k _ hne
  have miss0 : (∀ c, pick s (blist s) dev blockno h ≠ Pick.hit c) → (s.deref b).refcnt = 0 := by
    intro hm
    rcases hcases with ⟨hp, _⟩ | ⟨hp, _⟩
    · exact absurd hp (hm b)
    · rcases hp with ⟨hp, _⟩ | ⟨i, hp, _⟩
      · exact isFree_true (victim_some (pick_reuse hp).2).1
      · obtain ⟨_, _, hs⟩ := pick_steal hp
        exact isFree_true (victim_some (stealPick_some _ hs).2.1).1
  refine ⟨frame, ?_, ?_⟩
  · intro i hi hch
    by_cases hib : Ptr.buf i = b
    · refine ⟨hib, ?_⟩
      have : (s.deref b).refcnt = 0 := by
        apply miss0
        intro c hc
        obtain ⟨hid, A, B, hAB, hA⟩ := pick_hit hc
        have hcb : c = b := by
          rcases hcases with ⟨hp, _⟩ | ⟨hp, _⟩
          · rw [hc] at hp; injection hp
          · rcases hp with ⟨hp, _⟩ | ⟨i, hp, _⟩ <;> rw [hc] at hp <;> cases hp
        rw [hcb, ← hib] at hid
        have := isId_true hid
        change (s.buf i).dev = dev ∧ (s.buf i).blockno = blockno at this
        rw [← hib] at hdev hblk
        change (t.buf i).dev = dev at hdev
        change (t.buf i).blockno = blockno at hblk
        rcases hch with hc1 | hc1
        · exact hc1 (hdev.trans this.1.symm)
        · exact hc1 (hblk.trans this.2.symm)
      rw [← hib] at this
      exact this
    · obtain ⟨h1, h2, _⟩ := frame i hi hib
      rcases hch with hc1 | hc1
      · exact absurd h1 hc1
      · exact absurd h2 hc1
  · intro h' hidx' hscan
    rw [hidx] at hidx'
    injection hidx' with hidx'
    subst hidx'
    rw [scan_rings I.shape.rings h hh] at hscan
    injection hscan with hscan
    apply miss0
    intro c hc
    obtain ⟨hid, A, B, hAB, _⟩ := pick_hit hc
    have := List.find?_eq_none.mp hscan c (by rw [hAB]; simp)
    exact this hid

theorem init_zero (disk : Nat → Nat → List Nat) (j : Nat) :
    ((binit (boot disk)).buf j).lock = none ∧ ((binit (boot disk)).buf j).refcnt = 0 ∧
    ((binit (boot disk)).buf j).valid = 0 := by
  have h := init_core disk (Ptr.buf j)
  simp only [BCache.deref] at h
  have := (core_eq_iff _ _).mp h
  exact ⟨this.2.2.2.1, this.2.2.2.2.1, this.1⟩

/-- Scenario B from any quiet state: nothing referenced, nothing valid, no transfer yet. -/
theorem scenarioB_from (s0 : BCache) (L : Nat → List Ptr) (I0 : InvL s0 L)
    (z0 : ∀ j, (s0.buf j).lock = none ∧ (s0.buf j).refcnt = 0 ∧ (s0.buf j).valid = 0)
    (hl0 : s0.log = []) (disk : Nat → Nat → List Nat) (hd0 : s0.disk = disk)
    (pid : Nat) (others : List (Nat × Nat))
    (ho : ∀ x ∈ others, x ≠ (1, 5) ∧ x.2 < 2147483648) :
    ∃ b s1 s2 s3 s4 s5,
      bread s0 pid 1 5 = Except.ok (b, s1) ∧
      bpin s1 b = Except.ok s2 ∧ brelse s2 pid b = Except.ok s3 ∧
      readRel pid others s3 = Except.ok s4 ∧
      (s4.deref b).dev = 1 ∧ (s4.deref b).blockno = 5 ∧ (s4.deref b).valid = 1 ∧
      (s4.deref b).data = (s1.deref b).data ∧ (s1.deref b).data = disk 1 5 ∧
      (s4.log.filter (fun o => decide (o.dev = 1 ∧ o.blockno = 5))).length = 1 ∧
      bread s4 pid 1 5 = Except.ok (b, s5) ∧ s5.log = s4.log ∧
      (s5.deref b).data = (s1.deref b).data := by
  have hidx : bucketIdx (hash (toInt 5)) = Except.ok 5 := idx_of_lt (by decide)
  -- the first read
  obtain ⟨c, s1, e1⟩ : ∃ c s1, bread s0 pid 1 5 = Except.ok (c, s1) := by
    rcases bget_cases I0 pid 1 5 hidx with ⟨b, hp, hlk, _⟩ | ⟨hp, _⟩ | ⟨c, w, hb⟩
    · obtain ⟨k, hk, hm⟩ := pick_slot (by decide) (Or.inl hp)
      obtain ⟨j, _, e⟩ := I0.shape.rings.slot k hk _ hm
      rw [e] at hlk
      exact absurd (z0 j).1 hlk
    · obtain ⟨k, hk, hm⟩ := I0.shape.total 0 (by decide)
      have := victim_none ((pick_none hp).2 k hk) _ hm
      exact absurd (z0 0).2.1 (isFree_false this)
    · obtain ⟨t, e⟩ := bread_of_bget hb
      exact ⟨c, t, e⟩
  obtain ⟨⟨j0, hj0, hcj⟩, _, d1, o1, l1, dev1, blk1, val1, M1, IM1, _, _, c1⟩ :=
    bread_spec I0 hidx e1
  subst hcj
  have ref1 : (s1.buf j0).refcnt = 1 := by
    rcases c1 with ⟨_, _, h3, _⟩ | ⟨_, h3, _⟩
    · have : (s1.buf j0).refcnt = (s0.buf j0).refcnt + 1 := h3
      rw [this, (z0 j0).2.1]
    · exact h3
  have log1 : s1.log = [{ dev := 1, blockno := 5, write := false }] ∧
      (s1.buf j0).data = disk 1 5 := by
    rcases c1 with ⟨_, _, _, _, h5⟩ | ⟨_, _, h4, h5⟩
    · obtain ⟨a, b⟩ := h5 (z0 j0).2.2
      rw [hl0] at a; rw [hd0] at b
      exact ⟨a, b⟩
    · rw [hl0] at h4; rw [hd0] at h5
      exact ⟨h4, h5⟩
  -- the pin
  obtain ⟨k1, hk1⟩ := (IM1.good j0 hj0).idx
  have e2 := bpin_eq (s := s1) (i := j0) hk1
  have I2 := bpin_inv IM1 hj0 (by rw [ref1]; decide) e2
  obtain ⟨s2, hs2⟩ : ∃ s2, s2 = s1.store (Ptr.buf j0)
      { s1.buf j0 with refcnt := ((s1.buf j0).refcnt + 1) % 4294967296 } := ⟨_, rfl⟩
  rw [← hs2] at e2 I2
  have d2 : ∀ q, s2.deref q = if q = Ptr.buf j0 then
      { s1.buf j0 with refcnt := 2 } else s1.deref q := by
    intro q
    rw [hs2, store_buf_deref, ref1]
  have b2 : s2.buf j0 = { s1.buf j0 with refcnt := 2 } := by
    have := d2 (Ptr.buf j0)
    rw [if_pos rfl] at this
    exact this
  have lock2 : (s2.buf j0).lock = some pid := by rw [b2]; exact l1
  -- the release
  obtain ⟨s3, e3⟩ := brelse_total I2 hj0 lock2
  obtain ⟨_, _, _, d3, lg3, o3, dev3, blk3, val3, dat3, l3, ref3, _, _, _, M3, IM3, _⟩ :=
    brelse_spec I2 hj0 e3
  have I3 : Inv s3 := inv_of_invL IM3
  have other3 : ∀ m, m < NBUF → m ≠ j0 →
      (s3.buf m).core = (s0.buf m).core := by
    intro m _ hm
    have hq : Ptr.buf m ≠ Ptr.buf j0 := fun e => hm (by injection e)
    have h2 : s2.deref (Ptr.buf m) = s1.deref (Ptr.buf m) := by rw [d2, if_neg hq]
    exact (o3 _ hq).trans ((congrArg Buf.core h2).trans (o1 _ hq))
  have lk3 : ∀ m, m < NBUF → (s3.buf m).lock = none := by
    intro m hm
    by_cases hmj : m = j0
    · rw [hmj]; exact l3
    · rw [((core_eq_iff _ _).mp (other3 m hm hmj)).2.2.2.1]
      exact (z0 m).1
  have z3 : ∀ m, m < NBUF → m ≠ j0 → (s3.buf m).refcnt = 0 := by
    intro m hm hmj
    rw [((core_eq_iff _ _).mp (other3 m hm hmj)).2.2.2.2.1]
    exact (z0 m).2.1
  have r3 : (s3.buf j0).refcnt = 1 := by rw [ref3, b2]; rfl
  have id3 : (s3.buf j0).dev = 1 ∧ (s3.buf j0).blockno = 5 := by
    rw [dev3, blk3, b2]
    exact ⟨dev1, blk1⟩
  have v3 : (s3.buf j0).valid = 1 := by rw [val3, b2]; exact val1
  have da3 : (s3.buf j0).data = (s1.buf j0).data := by rw [dat3, b2]
  have lg3' : s3.log = s1.log := by rw [lg3, hs2, store_log]
  -- the other blocks
  obtain ⟨s4, e4, I4, lk4, c4, _, lg4⟩ :=
    pinned_loop pid 1 5 j0 hj0 others ho s3 I3 lk3 z3 (by rw [r3]; decide) id3
  have hc4 := (core_eq_iff _ _).mp c4
  have v4 : (s4.buf j0).valid = 1 := hc4.1.trans v3
  have id4 : (s4.buf j0).dev = 1 ∧ (s4.buf j0).blockno = 5 :=
    ⟨hc4.2.1.trans id3.1, hc4.2.2.1.trans id3.2⟩
  have da4 : (s4.buf j0).data = (s1.buf j0).data := hc4.2.2.2.2.2.trans da3
  -- the second read of block 5
  obtain ⟨k4, hk4, hm4⟩ := I4.shape.total j0 hj0
  have home4 := I4.home k4 hk4 _ hm4 v4
  change bucketIdx (hash (toInt (s4.buf j0).blockno)) = Except.ok k4 at home4
  rw [id4.2] at home4
  have hp4 : pick s4 (blist s4) 1 5 k4 = Pick.hit (Ptr.buf j0) :=
    hit_valid I4 hk4 hm4 (by simp [isId, BCache.deref, id4.1, id4.2]) v4
  obtain ⟨s5, e5⟩ : ∃ s5, bread s4 pid 1 5 = Except.ok (Ptr.buf j0, s5) := by
    rcases bget_cases I4 pid 1 5 home4 with ⟨b, hp, hlk, _⟩ | ⟨hp, _⟩ | ⟨c, w, hb⟩
    · rw [hp4] at hp
      injection hp with hp
      rw [← hp] at hlk
      exact absurd (lk4 j0 hj0) hlk
    · rw [hp4] at hp; cases hp
    · obtain ⟨t, e⟩ := bread_of_bget hb
      obtain ⟨_, _, _, _, _, _, _, _, _, _, _, _, cc⟩ := bread_spec I4 home4 e
      have : c = Ptr.buf j0 := by
        rcases cc with ⟨hp, _⟩ | ⟨hp, _⟩
        · rw [hp4] at hp; injection hp with hp; exact hp.symm
        · rcases hp with ⟨hp, _⟩ | ⟨i, hp, _⟩ <;> rw [hp4] at hp <;> cases hp
      rw [this] at e
      exact ⟨t, e⟩
  obtain ⟨_, _, _, _, _, _, _, _, _, _, _, _, c5⟩ := bread_spec I4 home4 e5
  have fin : s5.log = s4.log ∧ (s5.buf j0).data = (s4.buf j0).data := by
    rcases c5 with ⟨_, _, _, h4, _⟩ | ⟨hp, _⟩
    · exact h4 v4
    · rcases hp with ⟨hp, _⟩ | ⟨i, hp, _⟩ <;> rw [hp4] at hp <;> cases hp
  refine ⟨Ptr.buf j0, s1, s2, s3, s4, s5, e1, e2, e3, e4, id4.1, id4.2, v4, da4, log1.2, ?_,
    e5, fin.1, fin.2.trans da4⟩
  rw [lg4, lg3', log1.1]
  rfl

/-- Scenario B for an arbitrary list of other blocks. -/
theorem scenarioB_gen (disk : Nat → Nat → List Nat) (pid : Nat) (others : List (Nat × Nat))
    (ho : ∀ x ∈ others, x ≠ (1, 5) ∧ x.2 < 2147483648) :
    ∃ b s1 s2 s3 s4 s5,
      bread (binit (boot disk)) pid 1 5 = Except.ok (b, s1) ∧
      bpin s1 b = Except.ok s2 ∧ brelse s2 pid b = Except.ok s3 ∧
      readRel pid others s3 = Except.ok s4 ∧
      (s4.deref b).dev = 1 ∧ (s4.deref b).blockno = 5 ∧ (s4.deref b).valid = 1 ∧
      (s4.deref b).data = (s1.deref b).data ∧ (s1.deref b).data = disk 1 5 ∧
      (s4.log.filter (fun o => decide (o.dev = 1 ∧ o.blockno = 5))).length = 1 ∧
      bread s4 pid 1 5 = Except.ok (b, s5) ∧ s5.log = s4.log ∧
      (s5.deref b).data = (s1.deref b).data :=
  scenarioB_from _ _ (init_inv disk) (init_zero disk) (binit_disk disk).2 disk
    (binit_disk disk).1 pid others ho

theorem fresh_read5 : ∃ t, bread fresh 1 1 5 = Except.ok (Ptr.buf 5, t) := by
  cases h : bread fresh 1 1 5 with
  | error x =>
    have : returned (bread fresh 1 1 5) = true := by decide
    rw [h] at this
    cases this
  | ok r =>
    obtain ⟨b, t⟩ := r
    have : (match bread fresh 1 1 5 with
      | Except.ok r => decide (r.1 = Ptr.buf 5)
      | Except.error _ => false) = true := by decide
    rw [h] at this
    have hb : b = Ptr.buf 5 := by simpa using this
    rw [hb]
    exact ⟨t, rfl⟩

theorem okAnd_elim {α : Type} {r : Except Err α} {p : α → Bool} (h : okAnd r p = true) :
    ∃ a, r = Except.ok a ∧ p a = true := by
  cases r with
  | error e => cases h
  | ok a => exact ⟨a, rfl, h⟩

theorem victim_all_free {s : BCache} {l : List Ptr} (h : ∀ x ∈ l, isFree s x = true) :
    victim s l = l.getLast? := by
  unfold victim
  rw [List.getLast?_eq_head?_reverse]
  cases hr : l.reverse with
  | nil => rfl
  | cons x r =>
    have hx : x ∈ l := List.mem_reverse.mp (by rw [hr]; simp)
    simp [List.find?_cons, h x hx]

/-- A read followed at once by the release, in a state where nothing is
referenced or locked and no bucket is empty: a miss recycles the tail of the
bucket of the block, no slot changes bucket, and the slot used is moved to the
head of its list. -/
theorem quiet_step {s : BCache} {L : Nat → List Ptr} (I : InvL s L)
    (hq : ∀ j, j < NBUF → (s.buf j).lock = none ∧ (s.buf j).refcnt = 0)
    (hne : ∀ k, k < NBUCKETS → L k ≠ []) (pid dev blockno : Nat) {h : Nat}
    (hidx : bucketIdx (hash (toInt blockno)) = Except.ok h) :
    ∃ b t u, bread s pid dev blockno = Except.ok (b, t) ∧ brelse t pid b = Except.ok u ∧
      b ∈ L h ∧
      ((∀ x ∈ L h, isId s dev blockno x = false) → (L h).getLast? = some b) ∧
      InvL u (Function.update L h (b :: (L h).erase b)) ∧
      (∀ j, j < NBUF → (u.buf j).lock = none ∧ (u.buf j).refcnt = 0) := by
  have hh := bucketIdx_lt hidx
  have allfree : ∀ k, k < NBUCKETS → ∀ x ∈ L k, isFree s x = true := by
    intro k hk x hx
    obtain ⟨j, hj, e⟩ := I.shape.rings.slot k hk x hx
    rw [e]
    simp [isFree, BCache.deref, (hq j hj).2]
  obtain ⟨c, t, u, e1, e2, ⟨j, hj, hcj⟩, _, ul, uoth, _, _, _, _, _, ucase⟩ :=
    read_release I (fun j hj => (hq j hj).1) pid dev blockno hidx ⟨0, by decide, (hq 0 (by decide)).2⟩
  subst hcj
  obtain ⟨_, _, _, _, hlock, _, hblk, _, M, hM, hbM, _, hcases⟩ := bread_spec I hidx e1
  have hvic : ∃ v, victim s (L h) = some v := by
    rw [victim_all_free (allfree h hh)]
    cases hl : (L h).getLast? with
    | none => exact absurd (List.getLast?_eq_none_iff.mp hl) (hne h hh)
    | some v => exact ⟨v, rfl⟩
  have hML : M = L ∧ (pick s L dev blockno h = Pick.hit (Ptr.buf j) ∨
      pick s L dev blockno h = Pick.reuse (Ptr.buf j)) ∧ (t.buf j).refcnt = 1 := by
    rcases hcases with ⟨hp, hm, h3, _⟩ | ⟨hp, h3, _⟩
    · refine ⟨hm, Or.inl hp, ?_⟩
      have : (t.buf j).refcnt = (s.buf j).refcnt + 1 := h3
      rw [this, (hq j hj).2]
    · rcases hp with ⟨hp, hm⟩ | ⟨i, hp, _⟩
      · exact ⟨hm, Or.inr hp, h3⟩
      · obtain ⟨v, hv⟩ := hvic
        rw [(pick_steal hp).2.1] at hv
        cases hv
  obtain ⟨hm, hp, href⟩ := hML
  subst hm
  obtain ⟨_, _, _, _, _, _, _, _, _, _, _, _, h', hidx', hb', N, hN, hN1, _⟩ :=
    brelse_spec hM hj e2
  have hblk' : (t.buf j).blockno = blockno := hblk
  rw [hblk', hidx] at hidx'
  injection hidx' with hidx'
  subst hidx'
  rw [hN1 href] at hN
  refine ⟨Ptr.buf j, t, u, e1, e2, hbM, ?_, hN, ?_⟩
  · intro hnone
    rcases hp with hp | hp
    · have := (pick_hit hp).1
      rw [hnone _ hbM] at this
      cases this
    · rw [← victim_all_free (allfree h hh)]
      exact (pick_reuse hp).2
  · intro m hm
    refine ⟨ul m hm, ?_⟩
    by_cases hmj : m = j
    · subst hmj
      rcases ucase with ⟨_, h1⟩ | ⟨_, _, h1⟩
      · exact h1.trans (hq m hm).2
      · exact h1
    · have hq' : Ptr.buf m ≠ Ptr.buf j := fun e => hmj (by injection e)
      have := (core_eq_iff _ _).mp (uoth _ hq')
      exact this.2.2.2.2.1.trans (hq m hm).2

/-- Any sequence of reads, each released before the next, from a quiet state with
no empty bucket: every call returns and the state stays quiet. -/
theorem quiet_run (pid : Nat) (pre : List (Nat × Nat)) (hp : ∀ x ∈ pre, x.2 < 2147483648)
    (s : BCache) (L : Nat → List Ptr) (I : InvL s L)
    (hq : ∀ j, j < NBUF → (s.buf j).lock = none ∧ (s.buf j).refcnt = 0)
    (hne : ∀ k, k < NBUCKETS → L k ≠ []) :
    ∃ u M, readRel pid pre s = Except.ok u ∧ InvL u M ∧
      (∀ j, j < NBUF → (u.buf j).lock = none ∧ (u.buf j).refcnt = 0) ∧
      ∀ k, k < NBUCKETS → M k ≠ [] := by
  induction pre generalizing s L with
  | nil => exact ⟨s, L, rfl, I, hq, hne⟩
  | cons x r ih =>
    obtain ⟨b, t, u, e1, e2, _, _, Iu, uq⟩ :=
      quiet_step I hq hne pid x.1 x.2 (idx_of_lt (hp x (by simp)))
    obtain ⟨v, M, hv, IM, vq, vne⟩ := ih (fun y hy => hp y (List.mem_cons_of_mem _ hy)) u _ Iu uq
      (by
        intro k hk
        by_cases hkh : k = x.2 % NBUCKETS
        · rw [hkh, Function.update_same]; simp
        · rw [Function.update_noteq hkh]; exact hne k hk)
    exact ⟨v, M, by rw [readRel_cons e1 e2]; exact hv, IM, vq, vne⟩

theorem cached_iff {s : BCache} {L : Nat → List Ptr} (R : Rings s L) {dev blockno h : Nat}
    (hidx : bucketIdx (hash (toInt blockno)) = Except.ok h) :
    cached s dev blockno = true ↔ ∃ b, pick s L dev blockno h = Pick.hit b := by
  have hh := bucketIdx_lt hidx
  unfold cached
  rw [hidx]
  simp only [scan_rings R h hh]
  cases hf : (L h).find? (isId s dev blockno) with
  | none =>
    simp only [Bool.false_eq_true, false_iff]
    rintro ⟨b, hb⟩
    obtain ⟨hid, A, B, hAB, _⟩ := pick_hit hb
    exact List.find?_eq_none.mp hf b (by rw [hAB]; simp) hid
  | some c =>
    simp only [true_iff]
    exact ⟨c, by simp [pick, hf]⟩

theorem buf_eta (x : Buf) : ({ x with refcnt := x.refcnt } : Buf) = x := by
  cases x
  rfl

/-- Contract of `bread` for calls that run one at a time: in every state reachable from
`binit` without wrapping a reference count, `bread(dev, blockno)` either panics
with "bget: no buffers", sleeps on the sleep lock of the cached slot, indexes the
bucket array out of bounds (negative `hash`), or returns; when it returns, the slot
is one of the pool, carries `dev` and `blockno`, has `valid = 1` and `refcnt ≥ 1`,
and a disk read of `(dev, blockno)` has been issued exactly when the slot's valid
flag was 0 after `bget`: otherwise the slot was a hit, it was valid before the call,
the log of disk transfers is unchanged and so is the slot's data. -/
theorem bread_contract (s : BCache) (pid dev blockno : Nat) (hr : Reachable s) :
    bread s pid dev blockno = Except.error (Err.panic "bget: no buffers") ∨
    (bread s pid dev blockno = Except.error Err.blocks ∧
      ∃ b, isId s dev blockno b = true ∧ (s.deref b).lock ≠ none) ∨
    (bread s pid dev blockno = Except.error Err.undef ∧
      bucketIdx (hash (toInt blockno)) = Except.error Err.undef) ∨
    ∃ b u t, bget s pid dev blockno = Except.ok (b, u) ∧
      bread s pid dev blockno = Except.ok (b, t) ∧
      (∃ i, i < NBUF ∧ b = Ptr.buf i) ∧
      (t.deref b).dev = dev ∧ (t.deref b).blockno = blockno ∧ (t.deref b).valid = 1 ∧
      1 ≤ (t.deref b).refcnt ∧
      ((u.deref b).valid = 0 →
        t.log = { dev := dev, blockno := blockno, write := false } :: s.log ∧
        (t.deref b).data = s.disk dev blockno) ∧
      ((u.deref b).valid ≠ 0 →
        t.log = s.log ∧ (t.deref b).data = (s.deref b).data ∧ isId s dev blockno b = true ∧
        (s.deref b).valid = (u.deref b).valid) := by
  have I : InvL s (blist s) := reachable_inv hr
  cases hidx : bucketIdx (hash (toInt blockno)) with
  | error x =>
    have hu := @bget_undef s pid dev blockno x hidx
    have hx : x = Err.undef := by
      unfold bucketIdx at hidx
      split_ifs at hidx
      injection hidx with e
      exact e.symm
    rw [hx]
    exact Or.inr (Or.inr (Or.inl ⟨bread_error.mpr hu, rfl⟩))
  | ok h =>
    rcases bget_cases I pid dev blockno hidx with ⟨b, hp, hl, hb⟩ | ⟨_, hb⟩ | ⟨b, u, hb⟩
    · exact Or.inr (Or.inl ⟨bread_error.mpr hb, b, (pick_hit hp).1, hl⟩)
    · exact Or.inl (bread_error.mpr hb)
    · obtain ⟨t, e⟩ := bread_of_bget hb
      obtain ⟨hslot, _, hdisk, _, hlock, hdev, hblk, hval, M, hM, _, _, _⟩ :=
        bread_spec I hidx e
      obtain ⟨i, hi, hbi⟩ := hslot
      have hnn : b ≠ Ptr.null := by rw [hbi]; simp
      obtain ⟨_, _, gdisk, glog, _, _, gdata, gcases⟩ := bget_spec I.shape hidx hb
      obtain ⟨u', hu', _, _, _, _, tdev, tblk, _, _, tv0, tv1⟩ := bread_ok e hnn
      rw [hb] at hu'
      simp only [Except.ok.injEq, Prod.mk.injEq, true_and] at hu'
      subst hu'
      have href : 1 ≤ (t.deref b).refcnt := by
        have := (hM.good i hi).held (by rw [← hbi, hlock]; simp)
        rw [← hbi] at this
        exact this.1
      refine Or.inr (Or.inr (Or.inr ⟨b, u, t, hb, e, ⟨i, hi, hbi⟩, hdev, hblk, hval, href, ?_, ?_⟩))
      · intro hv
        obtain ⟨_, t2, t3⟩ := tv0 hv
        rw [t2, t3, ← tdev, ← tblk, hdev, hblk, glog, gdisk]
        exact ⟨rfl, rfl⟩
      · intro hv
        have ht := tv1 hv
        subst ht
        rcases gcases with ⟨hp, _, _, _, h4, _⟩ | ⟨_, _, _, _, h3, _⟩ | ⟨_, _, _, _, _, h3, _⟩
        · exact ⟨glog, gdata, (pick_hit hp).1, h4.symm⟩
        · exact absurd h3 hv
        · exact absurd h3 hv

/-- The contract of `bread` at a concrete input: on a fresh cache `bread(1, 5)` returns slot 5 with
identity `(1, 5)`, `valid = 1`, `refcnt = 1`, after one disk read. -/
theorem bread_contract_witness :
    ∃ u t, bget fresh 1 1 5 = Except.ok (Ptr.buf 5, u) ∧
      bread fresh 1 1 5 = Except.ok (Ptr.buf 5, t) ∧
      (t.deref (Ptr.buf 5)).dev = 1 ∧ (t.deref (Ptr.buf 5)).blockno = 5 ∧
      (t.deref (Ptr.buf 5)).valid = 1 ∧ 1 ≤ (t.deref (Ptr.buf 5)).refcnt ∧
      t.log = { dev := 1, blockno := 5, write := false } :: fresh.log := by
  have ok : returned (bread fresh 1 1 5) = true := by decide
  rcases bread_contract fresh 1 1 5 (Reachable.init _) with h | ⟨h, _⟩ | ⟨h, _⟩ |
      ⟨b, u, t, h1, h2, _, h4, h5, h6, h7, h8, _⟩
  · rw [h] at ok; cases ok
  · rw [h] at ok; cases ok
  · rw [h] at ok; cases ok
  · have hb : b = Ptr.buf 5 := by
      have : (match bread fresh 1 1 5 with
        | Except.ok r => decide (r.1 = Ptr.buf 5)
        | Except.error _ => false) = true := by decide
      rw [h2] at this
      simpa using this
    subst hb
    have hv : (u.deref (Ptr.buf 5)).valid = 0 := by
      have : (match bget fresh 1 1 5 with
        | Except.ok r => decide ((r.2.deref (Ptr.buf 5)).valid = 0)
        | Except.error _ => false) = true := by decide
      rw [h1] at this
      simpa using this
    exact ⟨u, t, h1, h2, h4, h5, h6, h7, (h8 hv).1⟩

/-- C2 (eviction safety): for every reachable state and every returning
`bread(dev, blockno)`, every pool slot other than the one returned keeps its dev,
blockno, valid flag, data, refcnt, sleep lock and bucket; a slot whose identity
differs afterwards is the returned one and had `refcnt = 0` before; whenever the
lookup loop of `bget` finds nothing (so that a slot is recycled) the slot returned
had `refcnt = 0` before.  Scenario B: on a cache fresh from `binit`, after
`bread` + `bpin` + `brelse` of block 5 of device 1 and reading and releasing any
list of other blocks (block numbers below 2^31), all calls return, the slot of
block 5 still has identity (1, 5), `valid = 1` and the bytes read at first, the
log holds exactly one transfer for (1, 5), and a further `bread` of block 5
returns the same slot without any disk transfer. -/
theorem eviction_safety :
    (∀ (s : BCache) (pid dev blockno : Nat) (b : Ptr) (t : BCache),
      Reachable s → bread s pid dev blockno = Except.ok (b, t) →
      (∀ i, i < NBUF → Ptr.buf i ≠ b →
        (t.buf i).dev = (s.buf i).dev ∧ (t.buf i).blockno = (s.buf i).blockno ∧
        (t.buf i).valid = (s.buf i).valid ∧ (t.buf i).data = (s.buf i).data ∧
        (t.buf i).refcnt = (s.buf i).refcnt ∧ (t.buf i).lock = (s.buf i).lock ∧
        ∀ k, k < NBUCKETS → (Ptr.buf i ∈ blist t k ↔ Ptr.buf i ∈ blist s k)) ∧
      (∀ i, i < NBUF →
        ((t.buf i).dev ≠ (s.buf i).dev ∨ (t.buf i).blockno ≠ (s.buf i).blockno) →
        Ptr.buf i = b ∧ (s.buf i).refcnt = 0) ∧
      (∀ h, bucketIdx (hash (toInt blockno)) = Except.ok h →
        bget_scan s (Ptr.head h) dev blockno FUEL (s.deref (Ptr.head h)).next = Except.ok none →
        (s.deref b).refcnt = 0)) ∧
    (∀ (disk : Nat → Nat → List Nat) (pid : Nat) (others : List (Nat × Nat)),
      (∀ x ∈ others, x ≠ (1, 5) ∧ x.2 < 2147483648) →
      ∃ b s1 s2 s3 s4 s5,
        bread (binit (boot disk)) pid 1 5 = Except.ok (b, s1) ∧
        bpin s1 b = Except.ok s2 ∧ brelse s2 pid b = Except.ok s3 ∧
        readRel pid others s3 = Except.ok s4 ∧
        (s4.deref b).dev = 1 ∧ (s4.deref b).blockno = 5 ∧ (s4.deref b).valid = 1 ∧
        (s4.deref b).data = (s1.deref b).data ∧ (s1.deref b).data = disk 1 5 ∧
        (s4.log.filter (fun o => decide (o.dev = 1 ∧ o.blockno = 5))).length = 1 ∧
        bread s4 pid 1 5 = Except.ok (b, s5) ∧ s5.log = s4.log ∧
        (s5.deref b).data = (s1.deref b).data) :=
  ⟨fun _ _ _ _ _ _ hr e => bread_frame_gen hr e, scenarioB_gen⟩

/-- C2 at concrete inputs: the first `bread(1, 5)` on a fresh cache leaves the
other 29 slots alone, and scenario B holds for the 40 blocks 6..45 of device 1. -/
theorem eviction_safety_witness :
    (∃ t, bread fresh 1 1 5 = Except.ok (Ptr.buf 5, t) ∧
      ∀ i, i < NBUF → Ptr.buf i ≠ Ptr.buf 5 →
        (t.buf i).dev = (fresh.buf i).dev ∧ (t.buf i).blockno = (fresh.buf i).blockno ∧
        (t.buf i).valid = (fresh.buf i).valid ∧ (t.buf i).data = (fresh.buf i).data ∧
        (t.buf i).refcnt = (fresh.buf i).refcnt ∧ (t.buf i).lock = (fresh.buf i).lock ∧
        ∀ k, k < NBUCKETS → (Ptr.buf i ∈ blist t k ↔ Ptr.buf i ∈ blist fresh k)) ∧
    (∃ b s1 s2 s3 s4 s5,
      bread fresh 1 1 5 = Except.ok (b, s1) ∧
      bpin s1 b = Except.ok s2 ∧ brelse s2 1 b = Except.ok s3 ∧
      readRel 1 ((List.range 40).map (fun k => (1, k + 6))) s3 = Except.ok s4 ∧
      (s4.deref b).dev = 1 ∧ (s4.deref b).blockno = 5 ∧ (s4.deref b).valid = 1 ∧
      (s4.deref b).data = (s1.deref b).data ∧ (s1.deref b).data = [] ∧
      (s4.log.filter (fun o => decide (o.dev = 1 ∧ o.blockno = 5))).length = 1 ∧
      bread s4 1 1 5 = Except.ok (b, s5) ∧ s5.log = s4.log ∧
      (s5.deref b).data = (s1.deref b).data) := by
  obtain ⟨t, e⟩ := fresh_read5
  exact ⟨⟨t, e, (eviction_safety.1 fresh 1 1 5 _ t (Reachable.init _) e).1⟩,
    eviction_safety.2 (fun _ _ => []) 1 _ (by decide)⟩

/-- At most one cached copy, for calls that run one at a time: in every state reached
from `binit` by returning `bread` / `brelse` / `bpin` / `bunpin` calls none of which
starts before the previous one has returned, two distinct pool slots with the same
`(dev, blockno)` are never both valid. -/
theorem one_cached_copy (s : BCache) (i j : Nat) (hr : Reachable s)
    (hi : i < NBUF) (hj : j < NBUF) (hne : i ≠ j)
    (hd : (s.buf i).dev = (s.buf j).dev) (hb : (s.buf i).blockno = (s.buf j).blockno) :
    ¬ ((s.buf i).valid = 1 ∧ (s.buf j).valid = 1) := by
  rintro ⟨vi, vj⟩
  have I : InvL s (blist s) := reachable_inv hr
  obtain ⟨k, hk, mi⟩ := I.shape.total i hi
  obtain ⟨k', hk', mj⟩ := I.shape.total j hj
  have h1 := I.home k hk _ mi vi
  have h2 := I.home k' hk' _ mj vj
  change bucketIdx (hash (toInt (s.buf i).blockno)) = Except.ok k at h1
  change bucketIdx (hash (toInt (s.buf j).blockno)) = Except.ok k' at h2
  rw [hb, h2] at h1
  injection h1 with h1
  subst h1
  have hpw := I.uniq k' hk'
  obtain ⟨A, B, hAB⟩ := List.append_of_mem mi
  rw [hAB] at hpw mj
  rw [List.pairwise_append, List.pairwise_cons] at hpw
  obtain ⟨_, ⟨pB, _⟩, pAB⟩ := hpw
  have pneq : Ptr.buf j ≠ Ptr.buf i := fun e => hne (by injection e with e; exact e.symm)
  rcases List.mem_append.mp mj with m | m
  · have := pAB _ m (Ptr.buf i) (by simp) hd.symm hb.symm
    change (s.buf i).valid = 0 at this
    rw [vi] at this
    cases this
  · rcases List.mem_cons.mp m with e | m
    · exact pneq e
    · have := pB _ m hd hb
      change (s.buf j).valid = 0 at this
      rw [vj] at this
      cases this

/-- One cached copy at a concrete input: after `bread(0, 0)` on a fresh cache slot 26 is the valid
copy of block (0, 0); slot 13 has the same identity and is not valid. -/
theorem one_cached_copy_witness :
    ∃ t, bread fresh 1 0 0 = Except.ok (Ptr.buf 26, t) ∧
      (t.buf 26).dev = (t.buf 13).dev ∧ (t.buf 26).blockno = (t.buf 13).blockno ∧
      (t.buf 26).valid = 1 ∧ ¬ ((t.buf 26).valid = 1 ∧ (t.buf 13).valid = 1) := by
  obtain ⟨⟨b, t⟩, e, hp⟩ := okAnd_elim (by decide : okAnd (bread fresh 1 0 0) (fun r =>
    decide (r.1 = Ptr.buf 26 ∧ (r.2.buf 26).dev = (r.2.buf 13).dev ∧
      (r.2.buf 26).blockno = (r.2.buf 13).blockno ∧ (r.2.buf 26).valid = 1)) = true)
  simp only [decide_eq_true_eq] at hp
  obtain ⟨hb, h1, h2, h3⟩ := hp
  subst hb
  exact ⟨t, e, h1, h2, h3, one_cached_copy t 26 13
    (Reachable.bread (Reachable.init _) e) (by decide) (by decide) (by decide) h1 h2⟩

/-- Exhaustion is fatal exactly when nothing is reclaimable, for calls that run one at
a time and block numbers whose hash is a bucket index: in every reachable state, for a block whose hash is a bucket index `h`, `bget(dev, blockno)` panics
with "bget: no buffers" if and only if no slot of bucket `h` has identity
`(dev, blockno)` and every slot of the pool has `refcnt > 0`.  In every other case
it returns a slot of the pool, unless the block is cached in a slot whose sleep
lock is held: then the caller sleeps in `acquiresleep` until the holder lets go. -/
theorem bget_exhaustion (s : BCache) (pid dev blockno h : Nat) (hr : Reachable s)
    (hidx : bucketIdx (hash (toInt blockno)) = Except.ok h) :
    (bget s pid dev blockno = Except.error (Err.panic "bget: no buffers") ↔
      (∀ p ∈ blist s h, isId s dev blockno p = false) ∧
        ∀ i, i < NBUF → 0 < (s.buf i).refcnt) ∧
    (bget s pid dev blockno ≠ Except.error (Err.panic "bget: no buffers") →
      (∃ b t, bget s pid dev blockno = Except.ok (b, t) ∧ ∃ i, i < NBUF ∧ b = Ptr.buf i) ∨
      (bget s pid dev blockno = Except.error Err.blocks ∧
        ∃ b ∈ blist s h, isId s dev blockno b = true ∧ (s.deref b).lock ≠ none)) := by
  have I : InvL s (blist s) := reachable_inv hr
  have hh := bucketIdx_lt hidx
  have cases3 := bget_cases I pid dev blockno hidx
  have hitmem : ∀ b, pick s (blist s) dev blockno h = Pick.hit b →
      b ∈ blist s h ∧ isId s dev blockno b = true := by
    intro b hp
    obtain ⟨hid, A, B, hAB, _⟩ := pick_hit hp
    exact ⟨by rw [hAB]; simp, hid⟩
  constructor
  · constructor
    · intro hp
      rcases cases3 with ⟨b, _, _, hb⟩ | ⟨hn, _⟩ | ⟨b, t, hb⟩
      · rw [hb] at hp; cases hp
      · obtain ⟨h1, h2⟩ := pick_none hn
        refine ⟨h1, ?_⟩
        intro i hi
        obtain ⟨k, hk, hm⟩ := I.shape.total i hi
        have := isFree_false (victim_none (h2 k hk) _ hm)
        exact Nat.pos_of_ne_zero this
      · rw [hb] at hp; cases hp
    · rintro ⟨hnone, hpos⟩
      have slotpos : ∀ k, k < NBUCKETS → ∀ b ∈ blist s k, isFree s b = true → False := by
        intro k hk b hb hf
        obtain ⟨i, hi, e⟩ := I.shape.rings.slot k hk b hb
        have := hpos i hi
        have hz := isFree_true hf
        rw [e] at hz
        change (s.buf i).refcnt = 0 at hz
        omega
      rcases cases3 with ⟨b, hp, _, _⟩ | ⟨_, hb⟩ | ⟨b, t, hb⟩
      · obtain ⟨hm, hid⟩ := hitmem b hp
        rw [hnone b hm] at hid; cases hid
      · exact hb
      · obtain ⟨_, _, _, _, _, _, _, hc⟩ := bget_spec I.shape hidx hb
        rcases hc with ⟨hp, _⟩ | ⟨hp, _⟩ | ⟨i, hp, _⟩
        · obtain ⟨hm, hid⟩ := hitmem b hp
          rw [hnone b hm] at hid; cases hid
        · have hv := (pick_reuse hp).2
          exact absurd (victim_some hv).1 (fun hf => slotpos h hh b (victim_mem hv) hf)
        · obtain ⟨_, _, hs⟩ := pick_steal hp
          obtain ⟨_, hv, pre, post, hr', _⟩ := stealPick_some _ hs
          have hi : i < NBUCKETS := List.mem_range.mp (by rw [hr']; simp)
          exact absurd (victim_some hv).1 (fun hf => slotpos i hi b (victim_mem hv) hf)
  · intro hnp
    rcases cases3 with ⟨b, hp, hl, hb⟩ | ⟨_, hb⟩ | ⟨b, t, hb⟩
    · obtain ⟨hm, hid⟩ := hitmem b hp
      exact Or.inr ⟨hb, b, hm, hid, hl⟩
    · exact absurd hb hnp
    · obtain ⟨hslot, _⟩ := bget_spec I.shape hidx hb
      exact Or.inl ⟨b, t, hb, hslot⟩

/-- Exhaustion at a concrete input: on a fresh cache `bget(1, 5)` does not panic, since no
slot is referenced. -/
theorem bget_exhaustion_witness :
    (bget fresh 1 1 5 = Except.error (Err.panic "bget: no buffers") ↔
      (∀ p ∈ blist fresh 5, isId fresh 1 5 p = false) ∧
        ∀ i, i < NBUF → 0 < (fresh.buf i).refcnt) ∧
    (bget fresh 1 1 5 ≠ Except.error (Err.panic "bget: no buffers") →
      (∃ b t, bget fresh 1 1 5 = Except.ok (b, t) ∧ ∃ i, i < NBUF ∧ b = Ptr.buf i) ∨
      (bget fresh 1 1 5 = Except.error Err.blocks ∧
        ∃ b ∈ blist fresh 5, isId fresh 1 5 b = true ∧ (fresh.deref b).lock ≠ none)) :=
  bget_exhaustion fresh 1 1 5 5 (Reachable.init _) (idx_of_lt (by decide))

/-- C7: in a reachable state, for a pool slot `b` whose sleep lock the caller holds
(its `refcnt` is then at least 1), `brelse(b)` returns, gives the lock back and
lowers `refcnt` by exactly one.  If the new `refcnt` is 0, `b` becomes the first
element of the list of bucket `hash(b.blockno)` and the other slots of that list
keep their order; otherwise that list is unchanged.  No other bucket list changes,
no slot's dev, blockno, valid or data changes, no other slot's refcnt or lock
changes, and the disk and the transfer log are untouched. -/
theorem brelse_contract (s : BCache) (pid i : Nat) (hr : Reachable s) (hi : i < NBUF)
    (hl : (s.buf i).lock = some pid) :
    ∃ t h, brelse s pid (Ptr.buf i) = Except.ok t ∧
      bucketIdx (hash (toInt (s.buf i).blockno)) = Except.ok h ∧
      1 ≤ (s.buf i).refcnt ∧
      (t.buf i).lock = none ∧ (t.buf i).refcnt = (s.buf i).refcnt - 1 ∧
      ((t.buf i).refcnt = 0 → blist t h = Ptr.buf i :: (blist s h).erase (Ptr.buf i)) ∧
      ((t.buf i).refcnt ≠ 0 → blist t h = blist s h) ∧
      (∀ k, k < NBUCKETS → k ≠ h → blist t k = blist s k) ∧
      (∀ j, j < NBUF → (t.buf j).dev = (s.buf j).dev ∧ (t.buf j).blockno = (s.buf j).blockno ∧
        (t.buf j).valid = (s.buf j).valid ∧ (t.buf j).data = (s.buf j).data) ∧
      (∀ j, j < NBUF → j ≠ i →
        (t.buf j).refcnt = (s.buf j).refcnt ∧ (t.buf j).lock = (s.buf j).lock) ∧
      t.disk = s.disk ∧ t.log = s.log := by
  have I : InvL s (blist s) := reachable_inv hr
  obtain ⟨t, e⟩ := brelse_total I hi hl
  obtain ⟨_, href, _, hdisk, hlog, hoth, hdev, hblk, hval, hdata, hlock, hdec, h, hidx, _,
    M, hM, hM1, hM2⟩ := brelse_spec I hi e
  have hh := bucketIdx_lt hidx
  have oth : ∀ j, j ≠ i → (t.buf j).core = (s.buf j).core := by
    intro j hj
    exact hoth (Ptr.buf j) (fun e' => hj (by injection e'))
  refine ⟨t, h, e, hidx, href, hlock, hdec, ?_, ?_, ?_, ?_, ?_, hdisk, hlog⟩
  · intro hz
    have h1 : (s.buf i).refcnt = 1 := by omega
    rw [shape_blist hM.shape h hh, hM1 h1, Function.update_same]
  · intro hz
    have h1 : (s.buf i).refcnt ≠ 1 := by omega
    rw [shape_blist hM.shape h hh, hM2 h1]
  · intro k hk hkh
    rw [shape_blist hM.shape k hk]
    by_cases h1 : (s.buf i).refcnt = 1
    · rw [hM1 h1, Function.update_noteq hkh]
    · rw [hM2 h1]
  · intro j _
    by_cases hj : j = i
    · rw [hj]; exact ⟨hdev, hblk, hval, hdata⟩
    · have := (core_eq_iff _ _).mp (oth j hj)
      exact ⟨this.2.1, this.2.2.1, this.1, this.2.2.2.2.2⟩
  · intro j _ hj
    have := (core_eq_iff _ _).mp (oth j hj)
    exact ⟨this.2.2.2.2.1, this.2.2.2.1⟩

/-- C7 at a concrete input: releasing block 5 right after reading it on a fresh
cache moves slot 5 from the tail to the head of bucket 5. -/
theorem brelse_contract_witness :
    ∃ s t, bread fresh 1 1 5 = Except.ok (Ptr.buf 5, s) ∧
      brelse s 1 (Ptr.buf 5) = Except.ok t ∧ (t.buf 5).lock = none ∧ (t.buf 5).refcnt = 0 ∧
      blist s 5 = [Ptr.buf 18, Ptr.buf 5] ∧ blist t 5 = [Ptr.buf 5, Ptr.buf 18] := by
  obtain ⟨⟨b, s⟩, e, hp⟩ := okAnd_elim (by decide : okAnd (bread fresh 1 1 5) (fun r =>
    decide (r.1 = Ptr.buf 5 ∧ (r.2.buf 5).lock = some 1 ∧ (r.2.buf 5).refcnt = 1 ∧
      blist r.2 5 = [Ptr.buf 18, Ptr.buf 5])) = true)
  simp only [decide_eq_true_eq] at hp
  obtain ⟨hb, h1, h2, h3⟩ := hp
  subst hb
  obtain ⟨t, h, e2, hidx, _, h5, h6, h7, _⟩ :=
    brelse_contract s 1 5 (Reachable.bread (Reachable.init _) e) (by decide) h1
  have hblk : (s.buf 5).blockno = 5 := by
    have := okAnd_elim (by decide : okAnd (bread fresh 1 1 5) (fun r =>
      decide ((r.2.buf 5).blockno = 5)) = true)
    obtain ⟨r, er, hr⟩ := this
    rw [e] at er
    injection er with er
    subst er
    simpa using hr
  rw [hblk] at hidx
  have h5' : h = 5 := by
    have : bucketIdx (hash (toInt 5)) = Except.ok 5 := idx_of_lt (by decide)
    rw [this] at hidx
    injection hidx with hidx
    exact hidx.symm
  subst h5'
  rw [h2] at h6
  have := h7 (by rw [h6])
  rw [h3] at this
  exact ⟨s, t, e, e2, h5, h6, h3, by rw [this]; decide⟩

theorem shape_congr {s : BCache} {L M : Nat → List Ptr}
    (e : ∀ h, h < NBUCKETS → M h = L h) (S : Shape s L) : Shape s M := by
  refine ⟨⟨?_, ?_, ?_, ?_⟩, ?_⟩
  · intro h hh; rw [e h hh]; exact S.rings.ring h hh
  · intro h hh; rw [e h hh]; exact S.rings.slot h hh
  · intro h hh; rw [e h hh]; exact S.rings.nodup h hh
  · intro h k hh hk; rw [e h hh, e k hk]; exact S.rings.disj h k hh hk
  · intro i hi
    obtain ⟨h, hh, hm⟩ := S.total i hi
    exact ⟨h, hh, by rw [e h hh]; exact hm⟩

theorem shape_self {s : BCache} {L : Nat → List Ptr} (S : Shape s L) : Shape s (blist s) :=
  shape_congr (fun h hh => shape_blist S h hh) S

/-- A returning `bread` keeps the bucket lists well formed. -/
theorem bread_shape {s t : BCache} {L : Nat → List Ptr} (S : Shape s L)
    {pid dev blockno : Nat} {b : Ptr} (e : bread s pid dev blockno = Except.ok (b, t)) :
    ∃ M, Shape t M := by
  obtain ⟨u, hu⟩ := bread_bget e
  obtain ⟨h, hidx⟩ := bget_idx hu
  obtain ⟨⟨i, _, hb⟩, _, _, _, _, _, _, hcase⟩ := bget_spec S hidx hu
  have hnn : b ≠ Ptr.null := by rw [hb]; simp
  obtain ⟨u', hu', _, hq, hn, hp, _⟩ := bread_ok e hnn
  rw [hu] at hu'
  injection hu' with hu'
  injection hu' with _ hu'
  subst hu'
  have key : ∀ M, Shape u M → Shape t M := fun M SM =>
    ⟨rings_overwrite SM.rings b hq hn hp, SM.total⟩
  rcases hcase with ⟨_, SM, _⟩ | ⟨_, SM, _⟩ | ⟨_, _, SM, _⟩
  · exact ⟨_, key _ SM⟩
  · exact ⟨_, key _ SM⟩
  · exact ⟨_, key _ SM⟩

/-- A returning `brelse` keeps the bucket lists well formed. -/
theorem brelse_shape {s t : BCache} {L : Nat → List Ptr} (S : Shape s L)
    {pid i : Nat} (hi : i < NBUF) (e : brelse s pid (Ptr.buf i) = Except.ok t) :
    ∃ M, Shape t M := by
  have hnn : Ptr.buf i ≠ Ptr.null := by simp
  have hlock : (s.deref (Ptr.buf i)).lock = some pid := by
    unfold brelse at e
    by_cases hold : holdingsleep s pid (Ptr.buf i) = false
    · rw [if_pos hold] at e; cases e
    · simpa [holdingsleep] using hold
  cases hidx : bucketIdx (hash (toInt (s.deref (Ptr.buf i)).blockno)) with
  | error er =>
    exfalso
    have h1 : holdingsleep s pid (Ptr.buf i) = true := by simp [holdingsleep, hlock]
    have h2 : ((releasesleep s (Ptr.buf i)).deref (Ptr.buf i)).blockno =
        (s.deref (Ptr.buf i)).blockno := by
      simp [releasesleep, deref_store _ _ _ _ hnn]
    unfold brelse at e
    simp only [h1, h2, hidx] at e
    cases e
  | ok h =>
    have hh := bucketIdx_lt hidx
    obtain ⟨w, hwd, _, _, hbr⟩ := brelse_eq hnn hlock hidx
    rw [hbr] at e
    have Sw : Shape w L := ⟨rings_overwrite S.rings (Ptr.buf i)
      (fun q hq => by rw [hwd q, if_neg hq]) (by rw [hwd]; simp) (by rw [hwd]; simp), S.total⟩
    obtain ⟨k, hk, hmem⟩ := S.total i hi
    by_cases hz : (w.deref (Ptr.buf i)).refcnt = 0
    · rw [if_pos hz] at e
      have et : t = push (pop w (Ptr.buf i)) (Ptr.head h) (Ptr.buf i) := by
        injection e with e; exact e.symm
      exact ⟨_, shape_move Sw hk hh hi hmem et⟩
    · rw [if_neg hz] at e
      have et : t = w := by injection e with e; exact e.symm
      rw [et]
      exact ⟨L, Sw⟩

theorem bpin_shape {s t : BCache} {L : Nat → List Ptr} (S : Shape s L)
    {i : Nat} (e : bpin s (Ptr.buf i) = Except.ok t) : Shape t L := by
  cases hidx : bucketIdx (hash (toInt (s.buf i).blockno)) with
  | error er =>
    exfalso
    unfold bpin at e
    simp only [BCache.deref, hidx] at e
    cases e
  | ok k =>
    rw [bpin_eq hidx] at e
    injection e with e
    subst e
    exact ⟨rings_overwrite S.rings (Ptr.buf i)
      (fun q hq => by rw [store_buf_deref, if_neg hq])
      (by rw [store_buf_deref]; simp [BCache.deref])
      (by rw [store_buf_deref]; simp [BCache.deref]), S.total⟩

theorem bunpin_shape {s t : BCache} {L : Nat → List Ptr} (S : Shape s L)
    {i : Nat} (e : bunpin s (Ptr.buf i) = Except.ok t) : Shape t L := by
  cases hidx : bucketIdx (hash (toInt (s.buf i).blockno)) with
  | error er =>
    exfalso
    unfold bunpin at e
    simp only [BCache.deref, hidx] at e
    cases e
  | ok k =>
    rw [bunpin_eq hidx] at e
    injection e with e
    subst e
    exact ⟨rings_overwrite S.rings (Ptr.buf i)
      (fun q hq => by rw [store_buf_deref, if_neg hq])
      (by rw [store_buf_deref]; simp [BCache.deref])
      (by rw [store_buf_deref]; simp [BCache.deref]), S.total⟩

/-- Bucket membership holds after `binit` and after every call that returns. -/
theorem called_shape {s : BCache} (c : Called s) : Shape s (blist s) := by
  induction c with
  | init disk => exact shape_self (init_rings disk)
  | bread _ e ih =>
    obtain ⟨M, SM⟩ := bread_shape ih e
    exact shape_self SM
  | brelse _ hi e ih =>
    obtain ⟨M, SM⟩ := brelse_shape ih hi e
    exact shape_self SM
  | bpin _ _ e ih => exact shape_self (bpin_shape ih e)
  | bunpin _ _ e ih => exact shape_self (bunpin_shape ih e)

/-- What precedes an element of `List.range n` in the list are the smaller numbers. -/
theorem range_split {n i : Nat} {pre post : List Nat} (e : List.range n = pre ++ i :: post) :
    i < n ∧ ∀ j, j < i → j ∈ pre := by
  have hi : i ∈ List.range n := by rw [e]; simp
  have hi' := List.mem_range.mp hi
  refine ⟨hi', ?_⟩
  intro j hj
  have hjm : j ∈ List.range n := List.mem_range.mpr (by omega)
  rw [e] at hjm
  rcases List.mem_append.mp hjm with h | h
  · exact h
  · exfalso
    rcases List.mem_cons.mp h with h | h
    · omega
    · have hs := List.pairwise_lt_range n
      rw [e, List.pairwise_append, List.pairwise_cons] at hs
      have := hs.2.1.1 j h
      omega

theorem erase_split {A B : List Ptr} {b : Ptr} (hnd : (A ++ b :: B).Nodup) :
    (A ++ b :: B).erase b = A ++ B := by
  have hbA : b ∉ A := fun hm => (List.nodup_append.mp hnd).2.2 hm (by simp)
  rw [List.erase_append_right _ hbA, List.erase_cons_head]

/-- The slot `bget` takes on a miss is handed out when its sleep lock is free. -/
theorem bget_recycles {s : BCache} {L : Nat → List Ptr} (S : Shape s L)
    {pid dev blockno h : Nat} (hidx : bucketIdx (hash (toInt blockno)) = Except.ok h) {b : Ptr}
    (hp : pick s L dev blockno h = Pick.reuse b ∨ ∃ i, pick s L dev blockno h = Pick.steal i b)
    (hl : (s.deref b).lock = none) :
    ∃ t, bget s pid dev blockno = Except.ok (b, t) := by
  have hh := bucketIdx_lt hidx
  obtain ⟨k, hk, hm⟩ := pick_slot hh (Or.inr hp)
  obtain ⟨j, _, hj⟩ := S.rings.slot k hk b hm
  have hnn : b ≠ Ptr.null := by rw [hj]; simp
  rw [bget_eq S.rings pid dev blockno h hidx]
  rcases hp with hp | ⟨i, hp⟩
  · rw [hp]
    simp only []
    refine ⟨_, locked_free ?_⟩
    rw [init_blocks_deref _ _ _ _ _ hnn, if_pos rfl]
    exact hl
  · rw [hp]
    simp only []
    refine ⟨_, locked_free ?_⟩
    rw [init_blocks_deref _ _ _ _ _ hnn, if_pos rfl]
    have hc := (core_eq_iff _ _).mp
      ((push_core (pop s b) (Ptr.head h) b b).trans (pop_core s b b))
    exact hc.2.2.2.1.trans hl

theorem pick_of_reuse {s : BCache} {L : Nat → List Ptr} {dev blockno h : Nat} {b : Ptr}
    (hmiss : ∀ x ∈ L h, isId s dev blockno x = false) (hv : victim s (L h) = some b) :
    pick s L dev blockno h = Pick.reuse b := by
  unfold pick
  rw [List.find?_eq_none.mpr (fun x hx => by simp [hmiss x hx]), hv]

theorem pick_of_steal {s : BCache} {L : Nat → List Ptr} {dev blockno h i : Nat} {b : Ptr}
    (hmiss : ∀ x ∈ L h, isId s dev blockno x = false) (hv : victim s (L h) = none)
    (hs : stealPick s L h (List.range NBUCKETS) = some (i, b)) :
    pick s L dev blockno h = Pick.steal i b := by
  unfold pick
  rw [List.find?_eq_none.mpr (fun x hx => by simp [hmiss x hx]), hv, hs]

theorem victim_exists {s : BCache} {l : List Ptr} {x : Ptr} (hx : x ∈ l)
    (hf : (s.deref x).refcnt = 0) : ∃ b, victim s l = some b := by
  cases hv : victim s l with
  | some b => exact ⟨b, rfl⟩
  | none => exact absurd hf (isFree_false (victim_none hv x hx))

theorem victim_none_of {s : BCache} {l : List Ptr} (h : ∀ x ∈ l, (s.deref x).refcnt ≠ 0) :
    victim s l = none := by
  cases hv : victim s l with
  | none => rfl
  | some b => exact absurd (isFree_true (victim_some hv).1) (h b (victim_mem hv))

/-- In a state reached by calls that keep to the reference-count discipline the bucket
lists are well formed and a slot without references has its sleep lock free. -/
theorem reachable_unlocked {s : BCache} (r : Reachable s) :
    Shape s (blist s) ∧ ∀ j, j < NBUF → (s.buf j).refcnt = 0 → (s.buf j).lock = none := by
  have I : InvL s (blist s) := reachable_inv r
  refine ⟨I.shape, ?_⟩
  intro j hj hz
  obtain ⟨k, hk, hm⟩ := I.shape.total j hj
  exact free_unlocked I hk hm hz

/-- The source function `bget` is its part under the bucket lock followed, when that
part ends without a slot, by the loop over the other buckets. -/
theorem bget_phases (s : BCache) (pid dev blockno : Nat) :
    bget s pid dev blockno =
      match bget_local s pid dev blockno with
      | Except.error e => Except.error e
      | Except.ok (some r) => Except.ok r
      | Except.ok none => bget_remote s pid dev blockno := by
  unfold bget bget_local bget_remote
  cases h1 : bucketIdx (hash (toInt blockno)) with
  | error e => rfl
  | ok k =>
    simp only []
    cases h2 : bget_scan s (Ptr.head k) dev blockno FUEL (s.deref (Ptr.head k)).next with
    | error e => rfl
    | ok o =>
      cases o with
      | some b =>
        simp only []
        cases acquiresleep (s.store b
          { s.deref b with refcnt := ((s.deref b).refcnt + 1) % 4294967296 }) pid b <;> rfl
      | none =>
        simp only []
        cases h3 : find_lru_block s (Ptr.head k) with
        | error e => rfl
        | ok o' =>
          cases o' with
          | some b =>
            simp only []
            cases acquiresleep (init_blocks s b dev blockno) pid b <;> rfl
          | none => rfl

theorem missed_elim {r : Except Err (Option (Ptr × BCache))} (h : missed r = true) :
    r = Except.ok none := by
  cases r with
  | error e => cases h
  | ok o =>
    cases o with
    | none => rfl
    | some x => cases h

theorem blocked_elim {α : Type} {r : Except Err α} (h : blocked r = true) :
    r = Except.error Err.blocks := by
  cases r with
  | ok a => cases h
  | error e => cases e <;> first | rfl | cases h

/-- C16, the code at the failing input: in the cache `binit` leaves, process 1 reads
blocks 5 and 18 of device 1 and keeps both slots of bucket 5.  Processes 2 and 3 then
call `bget(1, 31)`, which hashes to bucket 5.  Each runs the part under the bucket lock
(lines 101-123): both find neither the block nor a reclaimable slot and release the
lock.  Process 2 then runs the loop over the other buckets and claims slot `a`;
process 3 runs it next and claims another slot `b`: both slots now have the identity
`(1, 31)` and `refcnt` 1, so both calls performed the overwrite-and-claim.  Had
process 3 called `bget(1, 31)` only after process 2 had finished, it would have found
slot `a` and slept on its lock. -/
theorem bget_race :
    ∃ s1 s2 sa sb,
      bread fresh 1 1 5 = Except.ok (Ptr.buf 5, s1) ∧
      bread s1 1 1 18 = Except.ok (Ptr.buf 18, s2) ∧
      bget_local s2 2 1 31 = Except.ok none ∧ bget_local s2 3 1 31 = Except.ok none ∧
      bget_remote s2 2 1 31 = Except.ok (Ptr.buf 0, sa) ∧
      bget_remote sa 3 1 31 = Except.ok (Ptr.buf 13, sb) ∧
      (sb.buf 0).dev = 1 ∧ (sb.buf 0).blockno = 31 ∧ (sb.buf 0).refcnt = 1 ∧
      (sb.buf 13).dev = 1 ∧ (sb.buf 13).blockno = 31 ∧ (sb.buf 13).refcnt = 1 ∧
      bget s2 2 1 31 = Except.ok (Ptr.buf 0, sa) ∧ bget sa 3 1 31 = Except.error Err.blocks := by
  obtain ⟨r1, e1, h1⟩ := okAnd_elim (by decide :
    okAnd (bread fresh 1 1 5) (fun r1 => decide (r1.1 = Ptr.buf 5) &&
      okAnd (bread r1.2 1 1 18) (fun r2 => decide (r2.1 = Ptr.buf 18) &&
        (missed (bget_local r2.2 2 1 31) && (missed (bget_local r2.2 3 1 31) &&
        okAnd (bget_remote r2.2 2 1 31) (fun a => decide (a.1 = Ptr.buf 0) &&
          (blocked (bget a.2 3 1 31) &&
          okAnd (bget_remote a.2 3 1 31) (fun b => decide (b.1 = Ptr.buf 13) &&
            decide ((b.2.buf 0).dev = 1 ∧ (b.2.buf 0).blockno = 31 ∧
              (b.2.buf 0).refcnt = 1 ∧ (b.2.buf 13).dev = 1 ∧
              (b.2.buf 13).blockno = 31 ∧ (b.2.buf 13).refcnt = 1)))))))) = true)
  obtain ⟨b1, s1⟩ := r1
  simp only [Bool.and_eq_true, decide_eq_true_eq] at h1
  obtain ⟨hb1, h1⟩ := h1
  obtain ⟨r2, e2, h2⟩ := okAnd_elim h1
  obtain ⟨b2, s2⟩ := r2
  simp only [Bool.and_eq_true, decide_eq_true_eq] at h2
  obtain ⟨hb2, hm2, hm3, h2⟩ := h2
  obtain ⟨ra, ea, h3⟩ := okAnd_elim h2
  obtain ⟨a, sa⟩ := ra
  simp only [Bool.and_eq_true, decide_eq_true_eq] at h3
  obtain ⟨ha, hbl, h3⟩ := h3
  obtain ⟨rb, eb, h4⟩ := okAnd_elim h3
  obtain ⟨b, sb⟩ := rb
  simp only [Bool.and_eq_true, decide_eq_true_eq] at h4
  obtain ⟨hb, g2, g3, g4, g5, g6, g7⟩ := h4
  subst hb1
  subst hb2
  subst ha
  subst hb
  have hA : bget s2 2 1 31 = Except.ok (Ptr.buf 0, sa) := by
    rw [bget_phases, missed_elim hm2]
    exact ea
  exact ⟨s1, s2, sa, sb, e1, e2, missed_elim hm2, missed_elim hm3, ea, eb, g2, g3, g4,
    g5, g6, g7, hA, blocked_elim hbl⟩

/-- C18: let the bucket lists `L` be well formed and let every slot with `refcnt` 0 have
its sleep lock free (both hold in every state reached from `binit` by calls that keep
to the reference-count discipline), let `h = hash(blockno)` be a bucket index and let no
slot of bucket `h` have the identity `(dev, blockno)`.
(i) If bucket `h` has a slot with `refcnt` 0, `bget` returns the one nearest the tail
of the list of bucket `h` and leaves every bucket list as it is.
(ii) Otherwise, if another bucket has a slot with `refcnt` 0, `bget` returns the slot
with `refcnt` 0 nearest the tail of the lowest-indexed bucket `i ≠ h` that has one; the
slot is taken out of the list of bucket `i`, whose other slots keep their order, and
put at the head of the list of bucket `h`; every other list is as it was.
In both cases the slot returned has `dev`, `blockno`, `valid = 0`, `refcnt = 1`, and
every other slot keeps `valid`, `dev`, `blockno`, its lock, `refcnt` and its data. -/
theorem victim_selection (s : BCache) (L : Nat → List Ptr) (S : Shape s L)
    (hfl : ∀ j, j < NBUF → (s.buf j).refcnt = 0 → (s.buf j).lock = none)
    (pid dev blockno h : Nat) (hidx : bucketIdx (hash (toInt blockno)) = Except.ok h)
    (hmiss : ∀ x ∈ L h, ¬ ((s.deref x).dev = dev ∧ (s.deref x).blockno = blockno)) :
    ((∃ x ∈ L h, (s.deref x).refcnt = 0) →
      ∃ b t A B, bget s pid dev blockno = Except.ok (b, t) ∧
        L h = A ++ b :: B ∧ (s.deref b).refcnt = 0 ∧ (∀ x ∈ B, (s.deref x).refcnt ≠ 0) ∧
        (∀ k, k < NBUCKETS → blist t k = L k) ∧
        (t.deref b).dev = dev ∧ (t.deref b).blockno = blockno ∧ (t.deref b).valid = 0 ∧
        (t.deref b).refcnt = 1 ∧ ∀ q, q ≠ b → (t.deref q).core = (s.deref q).core) ∧
    ((∀ x ∈ L h, (s.deref x).refcnt ≠ 0) →
      (∃ k, k < NBUCKETS ∧ k ≠ h ∧ ∃ x ∈ L k, (s.deref x).refcnt = 0) →
      ∃ i b t A B, bget s pid dev blockno = Except.ok (b, t) ∧ i < NBUCKETS ∧ i ≠ h ∧
        (∀ j, j < i → j ≠ h → ∀ x ∈ L j, (s.deref x).refcnt ≠ 0) ∧
        L i = A ++ b :: B ∧ (s.deref b).refcnt = 0 ∧ (∀ x ∈ B, (s.deref x).refcnt ≠ 0) ∧
        blist t i = A ++ B ∧ blist t h = b :: L h ∧
        (∀ k, k < NBUCKETS → k ≠ i → k ≠ h → blist t k = L k) ∧
        (t.deref b).dev = dev ∧ (t.deref b).blockno = blockno ∧ (t.deref b).valid = 0 ∧
        (t.deref b).refcnt = 1 ∧ ∀ q, q ≠ b → (t.deref q).core = (s.deref q).core) := by
  have hh := bucketIdx_lt hidx
  have hmiss' : ∀ x ∈ L h, isId s dev blockno x = false := by
    intro x hx
    simpa [isId] using hmiss x hx
  have unlocked : ∀ k, k < NBUCKETS → ∀ b ∈ L k, (s.deref b).refcnt = 0 →
      (s.deref b).lock = none := by
    intro k hk b hb hz
    obtain ⟨j, hj, e⟩ := S.rings.slot k hk b hb
    rw [e] at hz ⊢
    exact hfl j hj hz
  constructor
  · rintro ⟨x, hx, hxz⟩
    obtain ⟨b, hv⟩ := victim_exists hx hxz
    obtain ⟨hf, A, B, hAB, hB⟩ := victim_some hv
    have hp := @pick_of_reuse s L dev blockno h b hmiss' hv
    have hbz := isFree_true hf
    obtain ⟨t, e⟩ := @bget_recycles s L S pid dev blockno h hidx b (Or.inl hp)
      (unlocked h hh b (victim_mem hv) hbz)
    obtain ⟨_, _, _, _, hco, _, _, hcase⟩ := bget_spec S hidx e
    refine ⟨b, t, A, B, e, hAB, hbz, fun y hy => isFree_false (hB y hy), ?_⟩
    rcases hcase with ⟨hp', _⟩ | ⟨_, St, g1, g2, g3, g4⟩ | ⟨i, hp', _⟩
    · rw [hp] at hp'; cases hp'
    · exact ⟨fun k hk => shape_blist St k hk, g1, g2, g3, g4, hco⟩
    · rw [hp] at hp'; cases hp'
  · intro hnone ⟨k, hk, hkh, x, hx, hxz⟩
    have hv := victim_none_of hnone
    cases hs : stealPick s L h (List.range NBUCKETS) with
    | none =>
      exfalso
      have := stealPick_none _ hs k (List.mem_range.mpr hk) hkh
      exact isFree_false (victim_none this x hx) hxz
    | some r =>
      obtain ⟨i, b⟩ := r
      obtain ⟨hih, hvi, pre, post, hsplit, hpre⟩ := stealPick_some _ hs
      obtain ⟨hi, hlow⟩ := range_split hsplit
      obtain ⟨hf, A, B, hAB, hB⟩ := victim_some hvi
      have hp := @pick_of_steal s L dev blockno h i b hmiss' hv hs
      have hbz := isFree_true hf
      obtain ⟨t, e⟩ := @bget_recycles s L S pid dev blockno h hidx b (Or.inr ⟨i, hp⟩)
        (unlocked i hi b (victim_mem hvi) hbz)
      obtain ⟨_, _, _, _, hco, _, _, hcase⟩ := bget_spec S hidx e
      refine ⟨i, b, t, A, B, e, hi, hih, ?_, hAB, hbz, fun y hy => isFree_false (hB y hy), ?_⟩
      · intro j hj hjh y hy
        exact isFree_false (victim_none (hpre j (hlow j hj) hjh) y hy)
      · rcases hcase with ⟨hp', _⟩ | ⟨hp', _⟩ | ⟨i', hp', St, g1, g2, g3, g4⟩
        · rw [hp] at hp'; cases hp'
        · rw [hp] at hp'; cases hp'
        · rw [hp] at hp'
          injection hp' with e1 _
          subst e1
          have hnd := S.rings.nodup i hi
          rw [hAB] at hnd
          refine ⟨?_, ?_, ?_, g1, g2, g3, g4, hco⟩
          · rw [shape_blist St i hi, Function.update_noteq hih, Function.update_same, hAB,
              erase_split hnd]
          · rw [shape_blist St h hh, Function.update_same,
              Function.update_noteq (fun e' => hih e'.symm)]
          · intro k hk hki hkh
            rw [shape_blist St k hk, Function.update_noteq hkh, Function.update_noteq hki]

/-- C18 at a concrete input: in the cache `binit` leaves, `bget(1, 5)` misses and
returns a slot of bucket 5 that had `refcnt` 0, with block number 5 and `refcnt` 1; the
list of bucket 5 is as before. -/
theorem victim_selection_witness :
    ∃ b t, bget fresh 1 1 5 = Except.ok (b, t) ∧ b ∈ blist fresh 5 ∧ (fresh.deref b).refcnt = 0 ∧
      (t.deref b).blockno = 5 ∧ (t.deref b).refcnt = 1 ∧ blist t 5 = blist fresh 5 := by
  have hz : ∀ q, (fresh.deref q).dev = 0 ∧ (fresh.deref q).refcnt = 0 := by
    intro q
    have := (core_eq_iff _ _).mp (init_core (fun _ _ => []) q)
    exact ⟨this.2.1, this.2.2.2.2.1⟩
  obtain ⟨hS, hfl⟩ := reachable_unlocked (Reachable.init (fun _ _ => []))
  have hm : Ptr.buf 5 ∈ blist fresh 5 := by
    have := shape_blist (init_rings (fun _ _ => [])) 5 (by decide)
    rw [show blist fresh 5 = initList 5 from this]
    decide
  obtain ⟨h1, _⟩ := victim_selection fresh (blist fresh) hS hfl 1 1 5 5 (idx_of_lt (by decide))
    (fun x _ hx => by rw [(hz x).1] at hx; exact absurd hx.1 (by decide))
  obtain ⟨b, t, A, B, e, hAB, g1, _, g3, _, g5, _, g7, _⟩ := h1 ⟨Ptr.buf 5, hm, (hz _).2⟩
  exact ⟨b, t, e, by rw [hAB]; simp, g1, g5, g7, g3 5 (by decide)⟩

/-- C19, the code at the failing input: for the 32-bit unsigned block number
4294967295 the `int` parameter of `hash` is -1 and `hash` returns -1, which is not
an index of `bcache.lock` / `bcache.hashbucket`; `bget`, `bpin` and `bunpin` then index
the arrays out of bounds.  The same happens for every block number from 2^31 up
whose two's-complement value is not a multiple of 13: `hash` is negative there.  For
block numbers below 2^31 `hash` is the bucket index `blockno % 13`. -/
theorem hash_out_of_range :
    toInt 4294967295 = -1 ∧ hash (toInt 4294967295) = -1 ∧
    bucketIdx (hash (toInt 4294967295)) = Except.error Err.undef ∧
    (∀ s pid dev, bget s pid dev 4294967295 = Except.error Err.undef) ∧
    (∀ s b, (s.deref b).blockno = 4294967295 →
      bpin s b = Except.error Err.undef ∧ bunpin s b = Except.error Err.undef) ∧
    (∀ n, 2147483648 ≤ n → n < 4294967296 → hash (toInt n) ≤ 0 ∧
      (hash (toInt n) = 0 ↔ (4294967296 - n) % 13 = 0)) ∧
    (∀ n, n < 2147483648 → 0 ≤ hash (toInt n) ∧ hash (toInt n) < 13 ∧
      bucketIdx (hash (toInt n)) = Except.ok (n % 13)) := by
  have h3 : bucketIdx (hash (toInt 4294967295)) = Except.error Err.undef := by
    unfold bucketIdx
    rw [if_neg (by decide)]
  refine ⟨by decide, by decide, h3, fun s pid dev => bget_undef h3, ?_, ?_, ?_⟩
  · intro s b hb
    unfold bpin bunpin
    rw [hb, h3]
    exact ⟨rfl, rfl⟩
  · intro n h1 h2
    obtain ⟨k, hk⟩ : ∃ k, 4294967296 - n = k + 1 := ⟨4294967296 - n - 1, by omega⟩
    have e : toInt n = Int.negSucc k := by
      unfold toInt
      rw [Nat.mod_eq_of_lt h2, if_neg (by omega), Int.negSucc_eq]
      omega
    have hm : hash (Int.negSucc k) = -(((k + 1) % 13 : Nat) : Int) := rfl
    rw [e, hm, hk]
    omega
  · intro n hn
    have hidx := idx_of_lt hn
    have hlt := bucketIdx_lt hidx
    unfold bucketIdx at hidx
    by_cases hc : 0 ≤ hash (toInt n) ∧ hash (toInt n) < (NBUCKETS : Int)
    · exact ⟨hc.1, hc.2, idx_of_lt hn⟩
    · rw [if_neg hc] at hidx
      cases hidx

theorem brelse_checks {s t : BCache} {pid i : Nat} (e : brelse s pid (Ptr.buf i) = Except.ok t) :
    (s.buf i).lock = some pid ∧ ∃ h, bucketIdx (hash (toInt (s.buf i).blockno)) = Except.ok h := by
  have hnn : Ptr.buf i ≠ Ptr.null := by simp
  have hlock : (s.deref (Ptr.buf i)).lock = some pid := by
    unfold brelse at e
    by_cases hold : holdingsleep s pid (Ptr.buf i) = false
    · rw [if_pos hold] at e; cases e
    · simpa [holdingsleep] using hold
  refine ⟨hlock, ?_⟩
  cases hidx : bucketIdx (hash (toInt (s.deref (Ptr.buf i)).blockno)) with
  | error er =>
    exfalso
    have h1 : holdingsleep s pid (Ptr.buf i) = true := by simp [holdingsleep, hlock]
    have h2 : ((releasesleep s (Ptr.buf i)).deref (Ptr.buf i)).blockno =
        (s.deref (Ptr.buf i)).blockno := by
      simp [releasesleep, deref_store _ _ _ _ hnn]
    unfold brelse at e
    simp only [h1, h2, hidx] at e
    cases e
  | ok h => exact ⟨h, hidx⟩

/-- The reference counts after a returning `brelse`. -/
theorem brelse_refcnt {s t : BCache} {pid i : Nat} (e : brelse s pid (Ptr.buf i) = Except.ok t) :
    (t.buf i).refcnt = ((s.buf i).refcnt + 4294967295) % 4294967296 ∧
    ∀ j, j ≠ i → (t.buf j).refcnt = (s.buf j).refcnt := by
  have hnn : Ptr.buf i ≠ Ptr.null := by simp
  obtain ⟨hlock, h, hidx⟩ := brelse_checks e
  obtain ⟨w, hwd, _, _, hbr⟩ := @brelse_eq s pid h (Ptr.buf i) hnn hlock hidx
  rw [hbr] at e
  have hcore : ∀ q, (t.deref q).refcnt = (w.deref q).refcnt := by
    intro q
    by_cases hz : (w.deref (Ptr.buf i)).refcnt = 0
    · rw [if_pos hz] at e
      injection e with e
      rw [← e]
      have := (core_eq_iff _ _).mp
        ((push_core (pop w (Ptr.buf i)) (Ptr.head h) (Ptr.buf i) q).trans (pop_core w (Ptr.buf i) q))
      exact this.2.2.2.2.1
    · rw [if_neg hz] at e
      injection e with e
      rw [← e]
  constructor
  · have := hcore (Ptr.buf i)
    rw [hwd, if_pos rfl] at this
    exact this
  · intro j hj
    have := hcore (Ptr.buf j)
    rw [hwd, if_neg (fun e' => hj (by injection e'))] at this
    exact this

theorem pin_checks {s : BCache} {i : Nat} :
    (∀ t, bpin s (Ptr.buf i) = Except.ok t →
      ∃ h, bucketIdx (hash (toInt (s.buf i).blockno)) = Except.ok h) ∧
    (∀ t, bunpin s (Ptr.buf i) = Except.ok t →
      ∃ h, bucketIdx (hash (toInt (s.buf i).blockno)) = Except.ok h) := by
  constructor
  · intro t e
    cases hidx : bucketIdx (hash (toInt (s.buf i).blockno)) with
    | error er =>
      exfalso
      unfold bpin at e
      simp only [BCache.deref, hidx] at e
      cases e
    | ok k => exact ⟨k, rfl⟩
  · intro t e
    cases hidx : bucketIdx (hash (toInt (s.buf i).blockno)) with
    | error er =>
      exfalso
      unfold bunpin at e
      simp only [BCache.deref, hidx] at e
      cases e
    | ok k => exact ⟨k, rfl⟩

theorem store_refcnt (s : BCache) (j : Nat) (v : Buf) (i : Nat) :
    ((s.store (Ptr.buf j) v).buf i).refcnt = if i = j then v.refcnt else (s.buf i).refcnt := by
  have := store_buf_deref s j v (Ptr.buf i)
  simp only [BCache.deref, Ptr.buf.injEq] at this
  rw [this]
  by_cases h : i = j <;> simp [h]

/-- The reference counts after a returning `bread`. -/
theorem bread_refcnt {s t : BCache} {L : Nat → List Ptr} (S : Shape s L)
    {pid dev blockno : Nat} {b : Ptr} (e : bread s pid dev blockno = Except.ok (b, t)) :
    ∃ j, j < NBUF ∧ b = Ptr.buf j ∧ (∀ i, i ≠ j → (t.buf i).refcnt = (s.buf i).refcnt) ∧
      (cached s dev blockno = true →
        (t.buf j).refcnt = ((s.buf j).refcnt + 1) % 4294967296) ∧
      (cached s dev blockno ≠ true → (t.buf j).refcnt = 1 ∧ (s.buf j).refcnt = 0) := by
  obtain ⟨u, hu⟩ := bread_bget e
  obtain ⟨h, hidx⟩ := bget_idx hu
  obtain ⟨⟨j, hj, hb⟩, _, _, _, hco, _, _, hcase⟩ := bget_spec S hidx hu
  have hnn : b ≠ Ptr.null := by rw [hb]; simp
  obtain ⟨u', hu', _, hq, _, _, _, _, _, href, _⟩ := bread_ok e hnn
  rw [hu] at hu'
  injection hu' with hu'
  injection hu' with _ hu'
  subst hu'
  subst hb
  have hci := @cached_iff s L S.rings dev blockno h hidx
  refine ⟨j, hj, rfl, ?_, ?_, ?_⟩
  · intro i hi
    have hne : Ptr.buf i ≠ Ptr.buf j := fun e' => hi (by injection e')
    have h1 := hq _ hne
    have h2 := (core_eq_iff _ _).mp (hco _ hne)
    have : (t.deref (Ptr.buf i)).refcnt = (s.deref (Ptr.buf i)).refcnt := by
      rw [h1]; exact h2.2.2.2.2.1
    exact this
  · intro hc
    obtain ⟨c, hpc⟩ := hci.mp hc
    rcases hcase with ⟨_, _, _, _, _, h3⟩ | ⟨hp, _⟩ | ⟨i, hp, _⟩
    · exact href.trans h3
    · rw [hpc] at hp; cases hp
    · rw [hpc] at hp; cases hp
  · intro hc
    rcases hcase with ⟨hp, _⟩ | ⟨hp, _, _, _, _, h3⟩ | ⟨i, hp, _, _, _, _, h3⟩
    · exact absurd (hci.mpr ⟨_, hp⟩) hc
    · exact ⟨href.trans h3, isFree_true (victim_some (pick_reuse hp).2).1⟩
    · obtain ⟨_, _, hs⟩ := pick_steal hp
      exact ⟨href.trans h3, isFree_true (victim_some (stealPick_some _ hs).2.1).1⟩

/-- One call keeps the counts equal to `refcnt`, provided the counts after the call
fit the 32-bit counter. -/
theorem step_summed {r r' : Run} (c : Call) (K : Summed r) (e : step r c = some r')
    (hfit : ∀ i, i < NBUF → r'.reads i + r'.pins i < 4294967296) : Summed r' := by
  have S := called_shape K.called
  cases c with
  | bread pid dev blockno =>
    simp only [step] at e
    cases hb : bread r.s pid dev blockno with
    | error x => rw [hb] at e; cases e
    | ok bt =>
      obtain ⟨b, t⟩ := bt
      obtain ⟨j, hj, hbj, hoth, hhit, hmiss⟩ := bread_refcnt S hb
      subst hbj
      rw [hb] at e
      simp only [] at e
      by_cases hc : cached r.s dev blockno = true
      · rw [if_pos hc] at e
        injection e with e
        subst e
        refine ⟨Called.bread K.called hb, ?_, hfit⟩
        intro i hi
        by_cases hij : i = j
        · subst hij
          have hf := hfit i hi
          simp only [Function.update_same] at hf ⊢
          rw [hhit hc, K.sum i hi, Nat.mod_eq_of_lt (by omega)]
          omega
        · simp only [Function.update_noteq hij]
          rw [hoth i hij]; exact K.sum i hi
      · rw [if_neg hc] at e
        injection e with e
        subst e
        refine ⟨Called.bread K.called hb, ?_, hfit⟩
        intro i hi
        by_cases hij : i = j
        · subst hij
          simp only [Function.update_same]
          exact (hmiss hc).1
        · simp only [Function.update_noteq hij]
          rw [hoth i hij]; exact K.sum i hi
  | brelse pid j =>
    simp only [step] at e
    by_cases hg : j < NBUF ∧ 1 ≤ r.reads j
    · rw [if_pos hg] at e
      cases hb : brelse r.s pid (Ptr.buf j) with
      | error x => rw [hb] at e; cases e
      | ok t =>
        rw [hb] at e
        injection e with e
        subst e
        obtain ⟨h1, h2⟩ := brelse_refcnt hb
        refine ⟨Called.brelse K.called hg.1 hb, ?_, hfit⟩
        intro i hi
        by_cases hij : i = j
        · subst hij
          have hs := K.sum i hi
          have hf := K.fits i hi
          simp only [Function.update_same]
          rw [h1, dec_mod (by omega) (by omega), hs]
          omega
        · simp only [Function.update_noteq hij]
          rw [h2 i hij]; exact K.sum i hi
    · rw [if_neg hg] at e; cases e
  | bpin j =>
    simp only [step] at e
    by_cases hg : j < NBUF
    · rw [if_pos hg] at e
      cases hb : bpin r.s (Ptr.buf j) with
      | error x => rw [hb] at e; cases e
      | ok t =>
        rw [hb] at e
        injection e with e
        subst e
        obtain ⟨k, hidx⟩ := pin_checks.1 t hb
        have ht := hb
        rw [bpin_eq hidx] at ht
        injection ht with ht
        refine ⟨Called.bpin K.called hg hb, ?_, hfit⟩
        intro i hi
        have hf := hfit i hi
        rw [← ht, store_refcnt]
        by_cases hij : i = j
        · subst hij
          simp only [Function.update_same] at hf ⊢
          simp only [if_true]
          rw [K.sum i hi, Nat.mod_eq_of_lt (by omega)]
          omega
        · simp only [Function.update_noteq hij]
          rw [if_neg hij]; exact K.sum i hi
    · rw [if_neg hg] at e; cases e
  | bunpin j =>
    simp only [step] at e
    by_cases hg : j < NBUF ∧ 1 ≤ r.pins j
    · rw [if_pos hg] at e
      cases hb : bunpin r.s (Ptr.buf j) with
      | error x => rw [hb] at e; cases e
      | ok t =>
        rw [hb] at e
        injection e with e
        subst e
        obtain ⟨k, hidx⟩ := pin_checks.2 t hb
        have ht := hb
        rw [bunpin_eq hidx] at ht
        injection ht with ht
        refine ⟨Called.bunpin K.called hg.1 hb, ?_, hfit⟩
        intro i hi
        rw [← ht, store_refcnt]
        by_cases hij : i = j
        · subst hij
          have hs := K.sum i hi
          have hf := K.fits i hi
          simp only [Function.update_same]
          simp only [if_true]
          rw [dec_mod (by omega) (by omega), hs]
          omega
        · simp only [Function.update_noteq hij]
          rw [if_neg hij]; exact K.sum i hi
    · rw [if_neg hg] at e; cases e

theorem run_append_one (pre : List Call) (c : Call) (r : Run) :
    run (pre ++ [c]) r = match run pre r with
      | some r1 => step r1 c
      | none => none := by
  induction pre generalizing r with
  | nil =>
    simp only [List.nil_append, run]
    cases step r c <;> rfl
  | cons k ks ih =>
    simp only [List.cons_append, run]
    cases step r k with
    | none => rfl
    | some r1 => exact ih r1

/-- A run in which the counts fit the 32-bit counter after every call keeps the counts
equal to `refcnt`. -/
theorem run_summed (calls : List Call) :
    ∀ (r r' : Run), Summed r →
      (∀ pre q, pre <+: calls → run pre r = some q →
        ∀ i, i < NBUF → q.reads i + q.pins i < 4294967296) →
      run calls r = some r' → Summed r' := by
  induction calls with
  | nil =>
    intro r r' K _ e
    simp only [run] at e
    injection e with e
    subst e
    exact K
  | cons c cs ih =>
    intro r r' K hb e
    simp only [run] at e
    cases hs : step r c with
    | none => rw [hs] at e; cases e
    | some r1 =>
      rw [hs] at e
      have h1 : run [c] r = some r1 := by simp only [run, hs]
      have K1 := step_summed c K hs (hb [c] r1 (by simp) h1)
      refine ih r1 r' K1 ?_ e
      intro pre q hpre hq
      refine hb (c :: pre) q ?_ ?_
      · obtain ⟨t, ht⟩ := hpre
        exact ⟨t, by rw [List.cons_append, ht]⟩
      · simp only [run, hs]
        exact hq

/-- One call raises the counts of a slot by at most one. -/
theorem step_counts {r r' : Run} {c : Call} (e : step r c = some r') (i : Nat) :
    r'.reads i + r'.pins i ≤ r.reads i + r.pins i + 1 := by
  cases c with
  | bread pid dev blockno =>
    simp only [step] at e
    split at e
    · rename_i j t _
      split at e
      · injection e with e
        subst e
        by_cases hij : i = j
        · subst hij; simp only [Function.update_same]; omega
        · simp only [Function.update_noteq hij]; omega
      · injection e with e
        subst e
        by_cases hij : i = j
        · subst hij; simp only [Function.update_same]; omega
        · simp only [Function.update_noteq hij]; omega
    · cases e
  | brelse pid j =>
    simp only [step] at e
    split at e
    · split at e
      · injection e with e
        subst e
        by_cases hij : i = j
        · subst hij; simp only [Function.update_same]; omega
        · simp only [Function.update_noteq hij]; omega
      · cases e
    · cases e
  | bpin j =>
    simp only [step] at e
    split at e
    · split at e
      · injection e with e
        subst e
        by_cases hij : i = j
        · subst hij; simp only [Function.update_same]; omega
        · simp only [Function.update_noteq hij]; omega
      · cases e
    · cases e
  | bunpin j =>
    simp only [step] at e
    split at e
    · split at e
      · injection e with e
        subst e
        by_cases hij : i = j
        · subst hij; simp only [Function.update_same]; omega
        · simp only [Function.update_noteq hij]; omega
      · cases e
    · cases e

theorem run_counts (calls : List Call) :
    ∀ (r r' : Run), run calls r = some r' →
      ∀ i, r'.reads i + r'.pins i ≤ r.reads i + r.pins i + calls.length := by
  induction calls with
  | nil =>
    intro r r' e i
    simp only [run] at e
    injection e with e
    subst e
    simp
  | cons c cs ih =>
    intro r r' e i
    simp only [run] at e
    cases hs : step r c with
    | none => rw [hs] at e; cases e
    | some r1 =>
      rw [hs] at e
      have h1 := step_counts hs i
      have h2 := ih r1 r' e i
      simp only [List.length_cons]
      omega

/-- Pinning slot `i` over and over: the counter is incremented modulo 2^32 while the
number of unmatched `bpin` calls keeps growing. -/
theorem pins_run (i : Nat) (hi : i < NBUF) (n : Nat) :
    ∀ (r : Run), (r.s.buf i).blockno = 0 → (r.s.buf i).refcnt < 4294967296 →
      ∃ r', run (List.replicate n (Call.bpin i)) r = some r' ∧
        (r'.s.buf i).refcnt = ((r.s.buf i).refcnt + n) % 4294967296 ∧
        r'.pins i = r.pins i + n ∧ r'.reads i = r.reads i := by
  induction n with
  | zero =>
    intro r _ hlt
    exact ⟨r, rfl, by rw [Nat.add_zero, Nat.mod_eq_of_lt hlt], rfl, rfl⟩
  | succ n ih =>
    intro r hb hlt
    have hidx : bucketIdx (hash (toInt (r.s.buf i).blockno)) = Except.ok (0 % NBUCKETS) := by
      rw [hb]
      exact idx_of_lt (by decide)
    have hs : step r (Call.bpin i) = some
        { s := r.s.store (Ptr.buf i)
            { r.s.buf i with refcnt := ((r.s.buf i).refcnt + 1) % 4294967296 },
          reads := r.reads, pins := Function.update r.pins i (r.pins i + 1) } := by
      simp only [step, if_pos hi, bpin_eq hidx]
    have hsame : ∀ v : Buf, (r.s.store (Ptr.buf i) v).buf i = v := by
      intro v
      simp [BCache.store]
    obtain ⟨r', e, h1, h2, h3⟩ := ih
      { s := r.s.store (Ptr.buf i)
          { r.s.buf i with refcnt := ((r.s.buf i).refcnt + 1) % 4294967296 },
        reads := r.reads, pins := Function.update r.pins i (r.pins i + 1) }
      (by simp only [hsame]; exact hb)
      (by simp only [hsame]; exact Nat.mod_lt _ (by decide))
    simp only [hsame] at h1
    refine ⟨r', ?_, ?_, ?_, h3⟩
    · simp only [List.replicate_succ, run, hs]
      exact e
    · rw [h1]
      omega
    · rw [h2]
      simp only [Function.update_same]
      omega

/-- C5, counterexample to the claim as stated: on the cache `binit` leaves, 2^32 calls
of `bpin` on slot 5 all return, none of them is matched by a `bunpin`, and afterwards
the `refcnt` of slot 5 is 0, not 2^32: the 32-bit counter has wrapped. -/
theorem refcnt_wraps :
    ∃ r, run (List.replicate 4294967296 (Call.bpin 5))
        { s := fresh, reads := fun _ => 0, pins := fun _ => 0 } = some r ∧
      r.reads 5 + r.pins 5 = 4294967296 ∧ (r.s.buf 5).refcnt = 0 ∧
      (r.s.buf 5).refcnt ≠ r.reads 5 + r.pins 5 := by
  have hz : (fresh.buf 5).refcnt = 0 := (init_zero (fun _ _ => []) 5).2.1
  have hb : (fresh.buf 5).blockno = 0 := by
    have := (core_eq_iff _ _).mp (init_core (fun _ _ => []) (Ptr.buf 5))
    exact this.2.2.1
  obtain ⟨r, e, h1, h2, h3⟩ := pins_run 5 (by decide) 4294967296
    { s := fresh, reads := fun _ => 0, pins := fun _ => 0 } hb (by rw [hz]; decide)
  simp only [] at h1 h2 h3
  rw [hz] at h1
  have h1' : (r.s.buf 5).refcnt = 0 := by rw [h1]
  refine ⟨r, e, by rw [h2, h3], h1', ?_⟩
  rw [h1', h2, h3]
  decide

/-- C5, amended (refcount conservation up to the width of the counter): start from
`binit` and make any sequence of `bread` / `bpin` / `brelse` / `bunpin` calls that
return, in which every `brelse` of a slot has an earlier unmatched `bread` that returned
that slot and every `bunpin` an earlier unmatched `bpin`, and in which after every call
every slot has fewer than 2^32 unmatched `bread` and `bpin` calls.  Then the `refcnt`
of every slot equals the number of `bread` and `bpin` calls made on it since it last
took its identity minus the matching `brelse` and `bunpin` calls; the counts are
natural numbers and are lowered only when they are at least 1, so `refcnt` never goes
below 0. -/
theorem refcount_conservation (disk : Nat → Nat → List Nat) (calls : List Call) (r : Run)
    (hfit : ∀ pre q, pre <+: calls →
      run pre { s := binit (boot disk), reads := fun _ => 0, pins := fun _ => 0 } = some q →
      ∀ i, i < NBUF → q.reads i + q.pins i < 4294967296)
    (h : run calls { s := binit (boot disk), reads := fun _ => 0, pins := fun _ => 0 } = some r) :
    ∀ i, i < NBUF → (r.s.buf i).refcnt = r.reads i + r.pins i := by
  have K0 : Summed { s := binit (boot disk), reads := fun _ => 0, pins := fun _ => 0 } :=
    ⟨Called.init disk, fun i _ => (init_zero disk i).2.1, fun i _ => by simp⟩
  exact (run_summed calls _ r K0 hfit h).sum

/-- Every run of fewer than 2^32 calls keeps the counts of every slot below 2^32, so
refcount conservation holds for all such runs. -/
theorem short_run_fits (s : BCache) (calls : List Call) (hlen : calls.length < 4294967296) :
    ∀ pre q, pre <+: calls →
      run pre { s := s, reads := fun _ => 0, pins := fun _ => 0 } = some q →
      ∀ i, i < NBUF → q.reads i + q.pins i < 4294967296 := by
  intro pre q hpre hq i _
  have h1 := run_counts pre _ q hq i
  have h2 := List.IsPrefix.length_le hpre
  simp only [] at h1
  omega

/-- C5 at a concrete input: read block 5, pin it, release it, read it again from
another process: the run is admitted and the counts add up. -/
theorem refcount_conservation_witness :
    ∃ r, run [Call.bread 1 1 5, Call.bpin 5, Call.brelse 1 5, Call.bread 2 1 5]
        { s := fresh, reads := fun _ => 0, pins := fun _ => 0 } = some r ∧
      (r.s.buf 5).refcnt = 2 ∧
      ∀ i, i < NBUF → (r.s.buf i).refcnt = r.reads i + r.pins i := by
  cases h : run [Call.bread 1 1 5, Call.bpin 5, Call.brelse 1 5, Call.bread 2 1 5]
      { s := fresh, reads := fun _ => 0, pins := fun _ => 0 } with
  | none =>
    have : (run [Call.bread 1 1 5, Call.bpin 5, Call.brelse 1 5, Call.bread 2 1 5]
      { s := fresh, reads := fun _ => 0, pins := fun _ => 0 }).isSome = true := by decide
    rw [h] at this
    cases this
  | some r =>
    have h2 : (match run [Call.bread 1 1 5, Call.bpin 5, Call.brelse 1 5, Call.bread 2 1 5]
        { s := fresh, reads := fun _ => 0, pins := fun _ => 0 } with
      | some r => decide ((r.s.buf 5).refcnt = 2)
      | none => false) = true := by decide
    rw [h] at h2
    exact ⟨r, rfl, by simpa using h2,
      refcount_conservation (fun _ _ => []) _ r
        (short_run_fits _ _ (by decide)) h⟩

/-- The source function `bread` is `bget` followed by lines 152-156. -/
theorem bread_phases (s : BCache) (pid dev blockno : Nat) :
    bread s pid dev blockno =
      match bget s pid dev blockno with
      | Except.error e => Except.error e
      | Except.ok (b, s1) => Except.ok (bread_rest b s1) := by
  unfold bread bread_rest
  cases bget s pid dev blockno with
  | error e => rfl
  | ok r =>
    obtain ⟨b, s1⟩ := r
    simp only []
    split_ifs <;> rfl

/-- C3, the code at the failing input: in the cache `binit` leaves, process 1 reads
blocks 5 and 18 of device 1 and keeps both slots of bucket 5.  Processes 2 and 3 then
call `bread(1, 31)` at the same time.  Each runs the part of `bget` under the lock of
bucket 5 (lines 101-123), finds neither the block nor a reclaimable slot and releases
the lock; then each runs the loop over the other buckets (lines 125-142): process 2
is given slot 0, process 3 slot 13.  Each then finishes its `bread` (lines 152-156) with
a disk read.  In the state reached, the distinct slots 0 and 13 both have the identity
`(1, 31)` and both have `valid = 1`. -/
theorem two_cached_copies :
    ∃ s1 s2 sa sb ta tb,
      bread fresh 1 1 5 = Except.ok (Ptr.buf 5, s1) ∧
      bread s1 1 1 18 = Except.ok (Ptr.buf 18, s2) ∧
      bget_local s2 2 1 31 = Except.ok none ∧ bget_local s2 3 1 31 = Except.ok none ∧
      bget_remote s2 2 1 31 = Except.ok (Ptr.buf 0, sa) ∧
      bget_remote sa 3 1 31 = Except.ok (Ptr.buf 13, sb) ∧
      bread_rest (Ptr.buf 0) sb = (Ptr.buf 0, ta) ∧
      bread_rest (Ptr.buf 13) ta = (Ptr.buf 13, tb) ∧
      (tb.buf 0).dev = 1 ∧ (tb.buf 0).blockno = 31 ∧ (tb.buf 0).valid = 1 ∧
      (tb.buf 13).dev = 1 ∧ (tb.buf 13).blockno = 31 ∧ (tb.buf 13).valid = 1 := by
  obtain ⟨r1, e1, h1⟩ := okAnd_elim (by decide :
    okAnd (bread fresh 1 1 5) (fun r1 => decide (r1.1 = Ptr.buf 5) &&
      okAnd (bread r1.2 1 1 18) (fun r2 => decide (r2.1 = Ptr.buf 18) &&
        (missed (bget_local r2.2 2 1 31) && (missed (bget_local r2.2 3 1 31) &&
        okAnd (bget_remote r2.2 2 1 31) (fun a => decide (a.1 = Ptr.buf 0) &&
          okAnd (bget_remote a.2 3 1 31) (fun b => decide (b.1 = Ptr.buf 13) &&
            (decide ((bread_rest (Ptr.buf 0) b.2).1 = Ptr.buf 0) &&
            (decide ((bread_rest (Ptr.buf 13) (bread_rest (Ptr.buf 0) b.2).2).1 = Ptr.buf 13) &&
            decide (
              ((bread_rest (Ptr.buf 13) (bread_rest (Ptr.buf 0) b.2).2).2.buf 0).dev = 1 ∧
              ((bread_rest (Ptr.buf 13) (bread_rest (Ptr.buf 0) b.2).2).2.buf 0).blockno = 31 ∧
              ((bread_rest (Ptr.buf 13) (bread_rest (Ptr.buf 0) b.2).2).2.buf 0).valid = 1 ∧
              ((bread_rest (Ptr.buf 13) (bread_rest (Ptr.buf 0) b.2).2).2.buf 13).dev = 1 ∧
              ((bread_rest (Ptr.buf 13) (bread_rest (Ptr.buf 0) b.2).2).2.buf 13).blockno = 31 ∧
              ((bread_rest (Ptr.buf 13) (bread_rest (Ptr.buf 0) b.2).2).2.buf 13).valid = 1
              ))))))))) = true)
  obtain ⟨b1, s1⟩ := r1
  simp only [Bool.and_eq_true, decide_eq_true_eq] at h1
  obtain ⟨hb1, h1⟩ := h1
  obtain ⟨r2, e2, h2⟩ := okAnd_elim h1
  obtain ⟨b2, s2⟩ := r2
  simp only [Bool.and_eq_true, decide_eq_true_eq] at h2
  obtain ⟨hb2, hm2, hm3, h2⟩ := h2
  obtain ⟨ra, ea, h3⟩ := okAnd_elim h2
  obtain ⟨a, sa⟩ := ra
  simp only [Bool.and_eq_true, decide_eq_true_eq] at h3
  obtain ⟨ha, h3⟩ := h3
  obtain ⟨rb, eb, h4⟩ := okAnd_elim h3
  obtain ⟨b, sb⟩ := rb
  simp only [Bool.and_eq_true, decide_eq_true_eq] at h4
  obtain ⟨hb, g1, g2, g3, g4, g5, g6, g7, g8⟩ := h4
  subst hb1
  subst hb2
  subst ha
  subst hb
  exact ⟨s1, s2, sa, sb, (bread_rest (Ptr.buf 0) sb).2,
    (bread_rest (Ptr.buf 13) (bread_rest (Ptr.buf 0) sb).2).2, e1, e2, missed_elim hm2,
    missed_elim hm3, ea, eb, Prod.ext g1 rfl, Prod.ext g2 rfl, g3, g4, g5, g6, g7, g8⟩

/-- C1, the code at the failing input: on the cache `binit` leaves, `bread(1, 4294967295)`
neither panics nor returns a slot: `hash` of the block number is -1, and `bget` indexes
`bcache.lock` and `bcache.hashbucket` out of bounds.  The same holds in every state and
for every process and device. -/
theorem bread_out_of_range :
    bread fresh 1 1 4294967295 = Except.error Err.undef ∧
    bread fresh 1 1 4294967295 ≠ Except.error (Err.panic "bget: no buffers") ∧
    (∀ b t, bread fresh 1 1 4294967295 ≠ Except.ok (b, t)) ∧
    ∀ s pid dev, bread s pid dev 4294967295 = Except.error Err.undef := by
  have h3 : bucketIdx (hash (toInt 4294967295)) = Except.error Err.undef := by
    unfold bucketIdx
    rw [if_neg (by decide)]
  have hall : ∀ s pid dev, bread s pid dev 4294967295 = Except.error Err.undef :=
    fun s pid dev => bread_error.mpr (bget_undef h3)
  refine ⟨hall _ _ _, ?_, ?_, hall⟩
  · rw [hall]
    intro h
    injection h with h
    cases h
  · intro b t
    rw [hall]
    intro h
    cases h

/-- C6, the code at the failing input: on the cache `binit` leaves, where no slot is
referenced, `bget(1, 4294967295)` neither panics nor returns a slot: `hash` of the block
number is -1, there is no bucket -1, and `bget` indexes `bcache.lock` and
`bcache.hashbucket` out of bounds. -/
theorem bget_out_of_range :
    bget fresh 1 1 4294967295 = Except.error Err.undef ∧
    hash (toInt 4294967295) = -1 ∧
    (∀ i, i < NBUF → (fresh.buf i).refcnt = 0) ∧
    bget fresh 1 1 4294967295 ≠ Except.error (Err.panic "bget: no buffers") ∧
    ∀ b t, bget fresh 1 1 4294967295 ≠ Except.ok (b, t) := by
  have h3 : bucketIdx (hash (toInt 4294967295)) = Except.error Err.undef := by
    unfold bucketIdx
    rw [if_neg (by decide)]
  have hu : bget fresh 1 1 4294967295 = Except.error Err.undef := bget_undef h3
  refine ⟨hu, by decide, fun i _ => (init_zero (fun _ _ => []) i).2.1, ?_, ?_⟩
  · rw [hu]
    intro h
    injection h with h
    cases h
  · intro b t
    rw [hu]
    intro h
    cases h

end Bio

namespace Kalloc

theorem readNext_congr {m m' : Nat → Nat} {a : Nat}
    (h : ∀ k, k < 8 → m' (a + k) = m (a + k)) : readNext m' a = readNext m a := by
  unfold readNext
  have h0 := h 0 (by decide)
  rw [Nat.add_zero] at h0
  rw [h0, h 1 (by decide), h 2 (by decide), h 3 (by decide), h 4 (by decide),
    h 5 (by decide), h 6 (by decide), h 7 (by decide)]

theorem memset_other {m : Nat → Nat} {a v x : Nat} (ha : a % PGSIZE = 0)
    (hx : x % PGSIZE = 0) (hne : x ≠ a) :
    readNext (memset m a v PGSIZE) x = readNext m x := by
  apply readNext_congr
  intro k hk
  unfold memset
  unfold PGSIZE at *
  rw [if_neg]
  omega

theorem isList_frame {m m' : Nat → Nat} {a : Nat} {l : List Nat}
    (h : ∀ x ∈ l, readNext m' x = readNext m x) (hl : IsList m a l) : IsList m' a l := by
  induction l generalizing a with
  | nil => exact hl
  | cons x r ih =>
    obtain ⟨h1, h2, h3⟩ := hl
    refine ⟨h1, h2, ?_⟩
    rw [h a (by rw [h1]; simp)]
    exact ih (fun y hy => h y (List.mem_cons_of_mem _ hy)) h3

theorem isList_head {m : Nat → Nat} {a : Nat} {l : List Nat} (hl : IsList m a l) :
    a = l.headD 0 ∧ (a = 0 ↔ l = []) := by
  cases l with
  | nil => exact ⟨hl, by simp [show a = 0 from hl]⟩
  | cons x r =>
    obtain ⟨h1, h2, _⟩ := hl
    exact ⟨h1, by simp [h2]⟩

theorem cpuIdx_nat (c : Conf) {cpu : Nat} (h : cpu < c.NCPU) :
    cpuIdx c (cpu : Int) = some cpu := by
  unfold cpuIdx
  rw [if_pos ⟨by omega, by exact_mod_cast h⟩]
  simp

/-- The loop over the other partitions, read off the lists. -/
theorem steal_spec (c : Conf) (s : KMem) (L : Nat → List Nat) (cpu : Nat)
    (hl : ∀ i, i < c.NCPU → IsList s.mem (s.freelist i) (L i))
    (idxs : List Nat) (hi : ∀ i ∈ idxs, i < c.NCPU) :
    ((∀ i ∈ idxs, i ≠ cpu → L i = []) → steal s cpu idxs = (0, s)) ∧
    (∀ pre j post a rest, idxs.filter (fun i => decide (i ≠ cpu)) = pre ++ j :: post →
      (∀ i ∈ pre, L i = []) → L j = a :: rest →
      steal s cpu idxs =
        (a, { s with freelist := Function.update s.freelist j (readNext s.mem a) })) := by
  induction idxs with
  | nil =>
    refine ⟨fun _ => rfl, ?_⟩
    intro pre j post a rest h
    simp at h
  | cons i r ih =>
    have hr : ∀ k ∈ r, k < c.NCPU := fun k hk => hi k (List.mem_cons_of_mem _ hk)
    obtain ⟨ih1, ih2⟩ := ih hr
    have hi' := hi i (by simp)
    constructor
    · intro hall
      simp only [steal]
      by_cases hc : i = cpu
      · rw [if_pos hc]
        exact ih1 (fun k hk => hall k (List.mem_cons_of_mem _ hk))
      · rw [if_neg hc]
        have h0 : s.freelist i = 0 :=
          (isList_head (hl i hi')).2.mpr (hall i (by simp) hc)
        rw [if_neg (by simp [h0])]
        exact ih1 (fun k hk => hall k (List.mem_cons_of_mem _ hk))
    · intro pre j post a rest hf hpre hj
      simp only [steal]
      by_cases hc : i = cpu
      · rw [if_pos hc]
        rw [List.filter_cons_of_neg (by simp [hc])] at hf
        exact ih2 pre j post a rest hf hpre hj
      · rw [if_neg hc]
        rw [List.filter_cons_of_pos (by simp [hc])] at hf
        cases pre with
        | nil =>
          simp only [List.nil_append, List.cons.injEq] at hf
          obtain ⟨e, _⟩ := hf
          subst e
          have hh := hl i hi'
          rw [hj] at hh
          obtain ⟨h1, h2, _⟩ := hh
          rw [if_pos h2, h1]
        | cons p pre' =>
          simp only [List.cons_append, List.cons.injEq] at hf
          obtain ⟨e, hf'⟩ := hf
          subst e
          have h0 : s.freelist i = 0 :=
            (isList_head (hl i hi')).2.mpr (hpre i (by simp))
          rw [if_neg (by simp [h0])]
          exact ih2 pre' j post a rest hf' (fun k hk => hpre k (List.mem_cons_of_mem _ hk)) hj

theorem order_lt (c : Conf) {cpu j : Nat} (hc : cpu < c.NCPU) (hj : j ∈ order c cpu) :
    j < c.NCPU := by
  unfold order at hj
  rcases List.mem_cons.mp hj with e | e
  · rw [e]; exact hc
  · exact List.mem_range.mp (List.mem_filter.mp e).1

theorem mem_order (c : Conf) {cpu j : Nat} (hj : j < c.NCPU) : j ∈ order c cpu := by
  unfold order
  by_cases h : j = cpu
  · rw [h]; simp
  · exact List.mem_cons_of_mem _ (List.mem_filter.mpr ⟨List.mem_range.mpr hj, by simp [h]⟩)

/-- Taking the head frame `a` off partition `j` and scrubbing it keeps the state
well formed. -/
theorem wf_pop {c : Conf} {s : KMem} {L : Nat → List Nat} (W : WF c s L) {j a : Nat}
    {rest : List Nat} (hj : j < c.NCPU) (hL : L j = a :: rest) :
    WF c { freelist := Function.update s.freelist j (readNext s.mem a),
           mem := memset s.mem a 5 PGSIZE } (Function.update L j rest) ∧ a ≠ 0 ∧
      s.freelist j = a ∧ readNext s.mem a = rest.headD 0 := by
  have hl := W.list j hj
  rw [hL] at hl
  obtain ⟨h1, h2, h3⟩ := hl
  have ha : a % PGSIZE = 0 := W.aligned j hj a (by rw [hL]; simp)
  have hnd := W.nodup j hj
  rw [hL] at hnd
  have hnr : a ∉ rest := (List.nodup_cons.mp hnd).1
  rw [h1] at h2 h3
  refine ⟨⟨?_, ?_, ?_, ?_⟩, h2, h1, (isList_head h3).1⟩
  · intro i hi
    by_cases hij : i = j
    · subst hij
      simp only [Function.update_same]
      refine isList_frame ?_ h3
      intro x hx
      exact memset_other ha (W.aligned i hi x (by rw [hL]; simp [hx]))
        (fun e => hnr (e ▸ hx))
    · simp only [Function.update_noteq hij]
      refine isList_frame ?_ (W.list i hi)
      intro x hx
      refine memset_other ha (W.aligned i hi x hx) ?_
      intro e
      exact W.disj i j hi hj hij x hx (by rw [hL, e]; simp)
  · intro i hi x hx
    by_cases hij : i = j
    · subst hij
      rw [Function.update_same] at hx
      exact W.aligned i hi x (by rw [hL]; simp [hx])
    · rw [Function.update_noteq hij] at hx
      exact W.aligned i hi x hx
  · intro i hi
    by_cases hij : i = j
    · subst hij
      rw [Function.update_same]
      exact (List.nodup_cons.mp hnd).2
    · rw [Function.update_noteq hij]
      exact W.nodup i hi
  · intro i k hi hk hik x hx hx'
    have e1 : ∀ m, x ∈ Function.update L j rest m → x ∈ L m := by
      intro m hm
      by_cases hmj : m = j
      · subst hmj
        rw [Function.update_same] at hm
        rw [hL]; simp [hm]
      · rw [Function.update_noteq hmj] at hm
        exact hm
    exact W.disj i k hi hk hik x (e1 i hx) (e1 k hx')

/-- The result of `kalloc_cpu`, read off the free lists. -/
theorem kalloc_pop (c : Conf) (s : KMem) (L : Nat → List Nat) (cpu : Nat)
    (hc : cpu < c.NCPU) (W : WF c s L) :
    ((∀ i, i < c.NCPU → L i = []) → kalloc_cpu c s (cpu : Int) = Except.ok (0, s)) ∧
    (∀ pre j post a rest, order c cpu = pre ++ j :: post → (∀ i ∈ pre, L i = []) →
      L j = a :: rest →
      kalloc_cpu c s (cpu : Int) = Except.ok (a,
        { freelist := Function.update s.freelist j (readNext s.mem a),
          mem := memset s.mem a 5 PGSIZE })) := by
  have hst := steal_spec c s L cpu W.list (List.range c.NCPU)
    (fun i hi => List.mem_range.mp hi)
  constructor
  · intro hall
    have h0 : s.freelist cpu = 0 := (isList_head (W.list cpu hc)).2.mpr (hall cpu hc)
    have := hst.1 (fun i hi _ => hall i (List.mem_range.mp hi))
    unfold kalloc_cpu
    simp only [cpuIdx_nat c hc, h0, ne_eq, not_true_eq_false, if_false, if_true, this]
  · intro pre j post a rest ho hpre hj
    unfold order at ho
    cases pre with
    | nil =>
      simp only [List.nil_append, List.cons.injEq] at ho
      obtain ⟨e, _⟩ := ho
      subst e
      obtain ⟨_, h2, h1, _⟩ := wf_pop W hc hj
      unfold kalloc_cpu
      simp only [cpuIdx_nat c hc, h1, ne_eq, h2, not_false_eq_true, if_true, if_false]
    | cons p pre' =>
      simp only [List.cons_append, List.cons.injEq] at ho
      obtain ⟨e, ho'⟩ := ho
      subst e
      have h0 : s.freelist cpu = 0 :=
        (isList_head (W.list cpu hc)).2.mpr (hpre cpu (by simp))
      have := hst.2 pre' j post a rest ho'
        (fun k hk => hpre k (List.mem_cons_of_mem _ hk)) hj
      have hjn : j < c.NCPU := by
        have : j ∈ (List.range c.NCPU).filter (fun i => decide (i ≠ cpu)) := by
          rw [ho']; simp
        exact List.mem_range.mp (List.mem_filter.mp this).1
      obtain ⟨_, h2, _, _⟩ := wf_pop W hjn hj
      unfold kalloc_cpu
      simp only [cpuIdx_nat c hc, h0, ne_eq, not_true_eq_false, if_false, if_true, this, h2,
        not_false_eq_true]

/-- Some partition is not empty: the first such in the order of `kalloc_cpu`. -/
theorem first_nonempty (c : Conf) (L : Nat → List Nat) (cpu : Nat) {i : Nat}
    (hi : i < c.NCPU) (hne : L i ≠ []) :
    ∃ pre j post, order c cpu = pre ++ j :: post ∧ (∀ k ∈ pre, L k = []) ∧ L j ≠ [] := by
  cases hf : (order c cpu).find? (fun k => !(L k).isEmpty) with
  | none =>
    have := List.find?_eq_none.mp hf i (mem_order c hi)
    simp at this
    exact absurd this hne
  | some j =>
    obtain ⟨h1, pre, post, h2, h3⟩ := List.find?_eq_some.mp hf
    refine ⟨pre, j, post, h2, ?_, ?_⟩
    · intro k hk
      have := h3 k hk
      simpa using this
    · simpa using h1

/-- C10: `kfree_cpu(pa, cpu_id)` panics, with "kfree", if and only if `pa` is not a
multiple of `PGSIZE` (4096), or is below the kernel end address, or is at or above
`PHYSTOP`; it has no other panic; and when it panics the state it stopped in is the
state it was called in: neither the frame's bytes nor any free list has changed. -/
theorem kfree_cpu_check (c : Conf) (s : KMem) (pa : Nat) (cpu_id : Int) :
    ((∃ st, kfree_cpu c s pa cpu_id = Except.error { err := Bio.Err.panic "kfree", state := st }) ↔
      (pa % 4096 ≠ 0 ∨ pa < c.kend ∨ pa ≥ c.PHYSTOP)) ∧
    (∀ msg st, kfree_cpu c s pa cpu_id = Except.error { err := Bio.Err.panic msg, state := st } →
      msg = "kfree" ∧ st = s ∧ st.mem = s.mem ∧ st.freelist = s.freelist) := by
  have hP : PGSIZE = 4096 := rfl
  by_cases h : pa % PGSIZE ≠ 0 ∨ pa < c.kend ∨ pa ≥ c.PHYSTOP
  · have e : kfree_cpu c s pa cpu_id = Except.error { err := Bio.Err.panic "kfree", state := s } := by
      unfold kfree_cpu
      rw [if_pos h]
    rw [hP] at h
    refine ⟨⟨fun _ => h, fun _ => ⟨s, e⟩⟩, ?_⟩
    intro msg st hst
    rw [e] at hst
    injection hst with hst
    injection hst with h1 h2
    injection h1 with h1
    subst h2
    exact ⟨h1.symm, rfl, rfl, rfl⟩
  · have e : ∀ msg st, kfree_cpu c s pa cpu_id ≠
        Except.error { err := Bio.Err.panic msg, state := st } := by
      intro msg st hst
      unfold kfree_cpu at hst
      rw [if_neg h] at hst
      simp only [] at hst
      cases hc : cpuIdx c cpu_id with
      | none =>
        rw [hc] at hst
        injection hst with hst
        injection hst with h1 _
        cases h1
      | some i =>
        rw [hc] at hst
        cases hst
    rw [hP] at h
    refine ⟨⟨fun ⟨st, hst⟩ => absurd hst (e _ st), fun hh => absurd hh h⟩, ?_⟩
    intro msg st hst
    exact absurd hst (e msg st)

theorem readNext_writeNext (m : Nat → Nat) (r v : Nat) (hv : v < 18446744073709551616) :
    readNext (writeNext m r v) r = v := by
  unfold readNext writeNext
  have e : ∀ k, k < 8 → (if r ≤ r + k ∧ r + k < r + 8 then v / 256 ^ (r + k - r) % 256
      else m (r + k)) = v / 256 ^ k % 256 := by
    intro k hk
    rw [if_pos ⟨by omega, by omega⟩, Nat.add_sub_cancel_left]
  have e0 := e 0 (by decide)
  rw [Nat.add_zero] at e0
  rw [e0, e 1 (by decide), e 2 (by decide), e 3 (by decide), e 4 (by decide),
    e 5 (by decide), e 6 (by decide), e 7 (by decide)]
  norm_num
  omega

theorem writeNext_other {m : Nat → Nat} {a v x : Nat} (ha : a % PGSIZE = 0)
    (hx : x % PGSIZE = 0) (hne : x ≠ a) :
    readNext (writeNext m a v) x = readNext m x := by
  apply readNext_congr
  intro k hk
  unfold writeNext
  unfold PGSIZE at *
  rw [if_neg]
  omega

theorem kfree_cpu_ok (c : Conf) (s : KMem) {pa cpu : Nat} (hc : cpu < c.NCPU)
    (hv : validFrame c pa) :
    kfree_cpu c s pa (cpu : Int) = Except.ok
      { freelist := Function.update s.freelist cpu pa,
        mem := writeNext (memset s.mem pa 1 PGSIZE) pa (s.freelist cpu) } := by
  obtain ⟨h1, h2, h3⟩ := hv
  unfold kfree_cpu
  rw [if_neg (by omega)]
  simp only [cpuIdx_nat c hc]

theorem isList_unique {m : Nat → Nat} {a : Nat} {l l' : List Nat}
    (h : IsList m a l) (h' : IsList m a l') : l = l' := by
  induction l generalizing a l' with
  | nil =>
    cases l' with
    | nil => rfl
    | cons y r' => exact absurd (show a = 0 from h) h'.2.1
  | cons x r ih =>
    cases l' with
    | nil => exact absurd (show a = 0 from h') h.2.1
    | cons y r' =>
      obtain ⟨h1, _, h3⟩ := h
      obtain ⟨k1, _, k3⟩ := h'
      rw [← h1, ← k1, ih h3 k3]

theorem head_lt {c : Conf} {s : KMem} {L : Nat → List Nat} (M : Managed c s L)
    (S : c.Sane) {i : Nat} (hi : i < c.NCPU) : s.freelist i < 18446744073709551616 := by
  have hl := M.wf.list i hi
  have hs := S.top
  cases h : L i with
  | nil =>
    rw [h] at hl
    rw [show s.freelist i = 0 from hl]
    decide
  | cons x r =>
    rw [h] at hl
    have := (M.range i hi x (by rw [h]; simp)).2
    rw [hl.1]
    omega

/-- Pushing a frame that is on no free list keeps the lists well formed. -/
theorem managed_push {c : Conf} {s : KMem} {L : Nat → List Nat} (M : Managed c s L)
    (S : c.Sane) {pa cpu : Nat} (hc : cpu < c.NCPU) (hv : validFrame c pa)
    (hfree : ∀ i, i < c.NCPU → pa ∉ L i) :
    Managed c { freelist := Function.update s.freelist cpu pa,
                mem := writeNext (memset s.mem pa 1 PGSIZE) pa (s.freelist cpu) }
      (Function.update L cpu (pa :: L cpu)) := by
  have W := M.wf
  have hpa : pa ≠ 0 := by
    have := S.kend_pos
    have := hv.2.1
    omega
  have keep : ∀ i, i < c.NCPU → ∀ x ∈ L i,
      readNext (writeNext (memset s.mem pa 1 PGSIZE) pa (s.freelist cpu)) x = readNext s.mem x := by
    intro i hi x hx
    have hxa := W.aligned i hi x hx
    have hne : x ≠ pa := fun e => hfree i hi (e ▸ hx)
    rw [writeNext_other hv.1 hxa hne, memset_other hv.1 hxa hne]
  refine ⟨⟨?_, ?_, ?_, ?_⟩, ?_⟩
  · intro i hi
    by_cases hic : i = cpu
    · subst hic
      simp only [Function.update_same]
      refine ⟨rfl, hpa, ?_⟩
      rw [readNext_writeNext _ _ _ (head_lt M S hi)]
      exact isList_frame (keep i hi) (W.list i hi)
    · simp only [Function.update_noteq hic]
      exact isList_frame (keep i hi) (W.list i hi)
  · intro i hi x hx
    by_cases hic : i = cpu
    · subst hic
      rw [Function.update_same] at hx
      rcases List.mem_cons.mp hx with e | e
      · rw [e]; exact hv.1
      · exact W.aligned i hi x e
    · rw [Function.update_noteq hic] at hx
      exact W.aligned i hi x hx
  · intro i hi
    by_cases hic : i = cpu
    · subst hic
      rw [Function.update_same]
      exact List.nodup_cons.mpr ⟨hfree i hi, W.nodup i hi⟩
    · rw [Function.update_noteq hic]
      exact W.nodup i hi
  · intro i j hi hj hij x hx hx'
    by_cases hic : i = cpu
    · subst hic
      rw [Function.update_same] at hx
      rw [Function.update_noteq (fun e => hij e.symm)] at hx'
      rcases List.mem_cons.mp hx with e | e
      · exact hfree j hj (e ▸ hx')
      · exact W.disj i j hi hj hij x e hx'
    · rw [Function.update_noteq hic] at hx
      by_cases hjc : j = cpu
      · subst hjc
        rw [Function.update_same] at hx'
        rcases List.mem_cons.mp hx' with e | e
        · exact hfree i hi (e ▸ hx)
        · exact W.disj i j hi hj hij x hx e
      · rw [Function.update_noteq hjc] at hx'
        exact W.disj i j hi hj hij x hx hx'
  · intro i hi x hx
    by_cases hic : i = cpu
    · subst hic
      rw [Function.update_same] at hx
      rcases List.mem_cons.mp hx with e | e
      · rw [e]; exact ⟨hv.2.1, hv.2.2⟩
      · exact M.range i hi x e
    · rw [Function.update_noteq hic] at hx
      exact M.range i hi x hx

/-- Taking the head frame off a partition keeps the lists in the managed range. -/
theorem managed_pop {c : Conf} {s : KMem} {L : Nat → List Nat} (M : Managed c s L) {j a : Nat}
    {rest : List Nat} (hj : j < c.NCPU) (hL : L j = a :: rest) :
    Managed c { freelist := Function.update s.freelist j (readNext s.mem a),
                mem := memset s.mem a 5 PGSIZE } (Function.update L j rest) := by
  refine ⟨(wf_pop M.wf hj hL).1, ?_⟩
  intro i hi x hx
  by_cases hij : i = j
  · subst hij
    rw [Function.update_same] at hx
    exact M.range i hi x (by rw [hL]; simp [hx])
  · rw [Function.update_noteq hij] at hx
    exact M.range i hi x hx

theorem pgroundup_spec {a : Nat} (h : a + PGSIZE ≤ 18446744073709551616) :
    PGROUNDUP a % PGSIZE = 0 ∧ a ≤ PGROUNDUP a ∧ PGROUNDUP a < a + PGSIZE := by
  have hP : PGSIZE = 4096 := rfl
  rw [hP] at h
  have e : (a + 4096 - 1) % 18446744073709551616 = a + 4095 := Nat.mod_eq_of_lt (by omega)
  simp only [PGROUNDUP, hP, e]
  omega

/-- The pages `p, p + 4096, ...`, `n` of them. -/
theorem pages_succ (p n : Nat) :
    (List.range (n + 1)).map (fun k => p + PGSIZE * k) =
      p :: (List.range n).map (fun k => p + PGSIZE + PGSIZE * k) := by
  rw [List.range_succ_eq_map, List.map_cons, List.map_map]
  refine congrArg₂ _ (by simp) (List.map_congr_left ?_)
  intro k _
  simp only [Function.comp]
  unfold PGSIZE
  omega

/-- The loop of `freerange` makes the calls `kfree(p)`, `kfree(p + 4096)`, ... -/
theorem freerange_loop_eq (c : Conf) (id : Int) (pa_end : Nat) (n : Nat) :
    ∀ (fuel p : Nat) (s : KMem), n < fuel → (n = 0 ∨ p + PGSIZE * n ≤ pa_end) →
      pa_end < p + PGSIZE * (n + 1) → p + PGSIZE * (n + 1) < 18446744073709551616 →
      freerange_loop c id pa_end fuel s p =
        kfreeAll c id ((List.range n).map (fun k => p + PGSIZE * k)) s := by
  induction n with
  | zero =>
    intro fuel p s hf _ h2 h3
    obtain ⟨f, rfl⟩ : ∃ f, fuel = f + 1 := ⟨fuel - 1, by omega⟩
    have hP : PGSIZE = 4096 := rfl
    simp only [hP] at h2 h3
    simp only [freerange_loop, List.range_zero, List.map_nil, kfreeAll, hP]
    rw [Nat.mod_eq_of_lt (by omega), if_neg (by omega)]
  | succ n ih =>
    intro fuel p s hf h1 h2 h3
    obtain ⟨f, rfl⟩ : ∃ f, fuel = f + 1 := ⟨fuel - 1, by omega⟩
    have hP : PGSIZE = 4096 := rfl
    have h1' : p + PGSIZE * (n + 1) ≤ pa_end := by
      rcases h1 with h | h
      · omega
      · exact h
    rw [pages_succ]
    simp only [freerange_loop, kfreeAll]
    have g1 : (p + PGSIZE) % 18446744073709551616 = p + PGSIZE := by
      simp only [hP] at h3 ⊢
      exact Nat.mod_eq_of_lt (by omega)
    rw [g1, if_pos (by simp only [hP] at h1' ⊢; omega)]
    cases hk : kfree c s p id with
    | error e => rfl
    | ok t =>
      simp only []
      refine ih f (p + PGSIZE) t (by omega) (Or.inr ?_) ?_ ?_
      · simp only [hP] at h1' ⊢; omega
      · simp only [hP] at h2 ⊢; omega
      · simp only [hP] at h3 ⊢; omega

theorem pages_mem {pa_start pa_end a : Nat} (h : a ∈ pages pa_start pa_end) :
    ∃ k, k < (pa_end - PGROUNDUP pa_start) / PGSIZE ∧ a = PGROUNDUP pa_start + PGSIZE * k := by
  unfold pages at h
  obtain ⟨k, hk, e⟩ := List.mem_map.mp h
  exact ⟨k, List.mem_range.mp hk, e.symm⟩

theorem pages_nodup (pa_start pa_end : Nat) : (pages pa_start pa_end).Nodup := by
  unfold pages
  refine (List.nodup_range _).map ?_
  intro a b h
  simp only [PGSIZE] at h
  omega

theorem pages_sorted (pa_start pa_end : Nat) :
    (pages pa_start pa_end).Pairwise (fun a b => a < b) := by
  unfold pages
  rw [List.pairwise_map]
  refine (List.pairwise_lt_range _).imp ?_
  intro a b h
  simp only [PGSIZE]
  omega

/-- Every page of the range is page-aligned, starts at or after `pa_start` and ends
at or before `pa_end`. -/
theorem pages_bounds {pa_start pa_end a : Nat} (hs : pa_start + PGSIZE ≤ 18446744073709551616)
    (h : a ∈ pages pa_start pa_end) :
    a % PGSIZE = 0 ∧ pa_start ≤ a ∧ a + PGSIZE ≤ pa_end := by
  obtain ⟨k, hk, e⟩ := pages_mem h
  obtain ⟨g1, g2, _⟩ := pgroundup_spec hs
  have hP : PGSIZE = 4096 := rfl
  simp only [hP] at hk g1 g2 e ⊢
  have : 4096 * ((pa_end - PGROUNDUP pa_start) / 4096) ≤ pa_end - PGROUNDUP pa_start :=
    Nat.mul_div_le _ _
  have hk' : 4096 * (k + 1) ≤ 4096 * ((pa_end - PGROUNDUP pa_start) / 4096) :=
    Nat.mul_le_mul_left _ hk
  subst e
  refine ⟨by omega, by omega, by omega⟩

theorem freerange_eq (c : Conf) (S : c.Sane) (s : KMem) (id : Int) {pa_start pa_end : Nat}
    (hs : pa_start ≤ c.PHYSTOP) (he : pa_end ≤ c.PHYSTOP) :
    freerange c s id pa_start pa_end = kfreeAll c id (pages pa_start pa_end) s := by
  have hP : PGSIZE = 4096 := rfl
  have ht := S.top
  rw [hP] at ht
  obtain ⟨_, g2, g3⟩ := pgroundup_spec (a := pa_start) (by rw [hP]; omega)
  rw [hP] at g3
  unfold freerange pages
  have hm : 4096 * ((pa_end - PGROUNDUP pa_start) / 4096) ≤ pa_end - PGROUNDUP pa_start :=
    Nat.mul_div_le _ _
  have hlt : pa_end - PGROUNDUP pa_start < 4096 * ((pa_end - PGROUNDUP pa_start) / 4096 + 1) :=
    Nat.lt_mul_div_succ _ (by decide)
  have hfuel : (pa_end - PGROUNDUP pa_start) / 4096 ≤ pa_end / 4096 :=
    Nat.div_le_div_right (Nat.sub_le _ _)
  refine freerange_loop_eq c id pa_end _ _ _ s ?_ ?_ ?_ ?_
  · rw [hP]; omega
  · rw [hP]
    by_cases h0 : (pa_end - PGROUNDUP pa_start) / 4096 = 0
    · exact Or.inl h0
    · right
      have : 0 < pa_end - PGROUNDUP pa_start := by
        by_contra hh
        have : pa_end - PGROUNDUP pa_start = 0 := by omega
        rw [this] at h0
        exact h0 rfl
      omega
  · rw [hP]; omega
  · rw [hP]; omega

/-- Freeing, one after the other, frames that are on no free list. -/
theorem managed_pushAll {c : Conf} (S : c.Sane) {cpu : Nat} (hc : cpu < c.NCPU) (ps : List Nat) :
    ∀ (s : KMem) (L : Nat → List Nat), Managed c s L → (∀ a ∈ ps, validFrame c a) → ps.Nodup →
      (∀ a ∈ ps, ∀ i, i < c.NCPU → a ∉ L i) →
      ∃ t, kfreeAll c (cpu : Int) ps s = Except.ok t ∧
        Managed c t (Function.update L cpu (ps.reverse ++ L cpu)) ∧
        ∀ i, i ≠ cpu → t.freelist i = s.freelist i := by
  induction ps with
  | nil =>
    intro s L M _ _ _
    refine ⟨s, rfl, ?_, fun _ _ => rfl⟩
    simpa using M
  | cons p ps ih =>
    intro s L M hv hn hf
    have M' := managed_push M S hc (hv p (by simp)) (hf p (by simp))
    obtain ⟨hp, hn'⟩ := List.nodup_cons.mp hn
    obtain ⟨t, e, Mt, hh⟩ := ih _ _ M' (fun a ha => hv a (List.mem_cons_of_mem _ ha)) hn' (by
      intro a ha i hi hm
      by_cases hic : i = cpu
      · subst hic
        rw [Function.update_same] at hm
        rcases List.mem_cons.mp hm with e | e
        · exact hp (e ▸ ha)
        · exact hf a (List.mem_cons_of_mem _ ha) i hi e
      · rw [Function.update_noteq hic] at hm
        exact hf a (List.mem_cons_of_mem _ ha) i hi hm)
    refine ⟨t, ?_, ?_, ?_⟩
    · simp only [kfreeAll, kfree, kfree_cpu_ok c s hc (hv p (by simp))]
      exact e
    · simpa only [Function.update_same, Function.update_idem, List.reverse_cons,
        List.append_assoc, List.singleton_append] using Mt
    · intro i hi
      rw [hh i hi]
      simp only [Function.update_noteq hi]

theorem cpuIdx_none (c : Conf) {cpu : Nat} (h : ¬ cpu < c.NCPU) :
    cpuIdx c (cpu : Int) = none := by
  unfold cpuIdx
  rw [if_neg]
  intro hh
  exact h (by exact_mod_cast hh.2)

theorem sum_update_len (L : Nat → List Nat) (j : Nat) (l : List Nat) (n : Nat) (hj : j < n) :
    ((List.range n).map (fun i => (Function.update L j l i).length)).sum + (L j).length =
      ((List.range n).map (fun i => (L i).length)).sum + l.length := by
  induction n with
  | zero => omega
  | succ n ih =>
    rw [List.range_succ, List.map_append, List.map_append, List.sum_append, List.sum_append]
    simp only [List.map_cons, List.map_nil, List.sum_cons, List.sum_nil, Nat.add_zero]
    by_cases h : j = n
    · subst h
      have e : (List.range j).map (fun i => (Function.update L j l i).length) =
          (List.range j).map (fun i => (L i).length) := by
        refine List.map_congr_left ?_
        intro i hi
        have : i ≠ j := Nat.ne_of_lt (List.mem_range.mp hi)
        simp only [Function.update_noteq this]
      rw [e, Function.update_same]
      omega
    · have := ih (by omega)
      rw [Function.update_noteq (fun e => h e.symm)]
      omega

theorem freeTotal_update (c : Conf) (L : Nat → List Nat) {j : Nat} (hj : j < c.NCPU)
    (l : List Nat) :
    freeTotal c (Function.update L j l) + (L j).length = freeTotal c L + l.length :=
  sum_update_len L j l c.NCPU hj

theorem freeTotal_nil (c : Conf) : freeTotal c (fun _ => []) = 0 := by
  unfold freeTotal
  simp

/-- The state `freerange` leaves on a freshly booted allocator. -/
theorem seed_inv (c : Conf) (S : c.Sane) (m : Nat → Nat) {cpu pa_start pa_end : Nat}
    (hc : cpu < c.NCPU) (h1 : c.kend ≤ pa_start) (h2 : pa_start ≤ c.PHYSTOP)
    (h3 : pa_end ≤ c.PHYSTOP) :
    ∃ s0, freerange c (kboot m) (cpu : Int) pa_start pa_end = Except.ok s0 ∧
      KInv c ((pa_end - PGROUNDUP pa_start) / PGSIZE) { s := s0, used := [] }
        (Function.update (fun _ => []) cpu (pages pa_start pa_end).reverse) := by
  have hP : PGSIZE = 4096 := rfl
  have ht := S.top
  have hs : pa_start + PGSIZE ≤ 18446744073709551616 := by rw [hP] at ht ⊢; omega
  have M0 : Managed c (kboot m) (fun _ => []) :=
    ⟨⟨fun _ _ => rfl, fun _ _ a ha => by simp at ha, fun _ _ => List.nodup_nil,
      fun _ _ _ _ _ a ha => by simp at ha⟩, fun _ _ a ha => by simp at ha⟩
  obtain ⟨t, e, Mt, _⟩ := managed_pushAll S hc (pages pa_start pa_end) (kboot m) (fun _ => []) M0
    (by
      intro a ha
      obtain ⟨g1, g2, g3⟩ := pages_bounds hs ha
      rw [hP] at g3
      exact ⟨g1, by omega, by omega⟩)
    (pages_nodup _ _) (fun a _ i _ => by simp)
  refine ⟨t, (freerange_eq c S _ _ h2 h3).trans e, ?_⟩
  simp only [List.append_nil] at Mt
  refine ⟨Mt, fun a ha => by simp at ha, List.nodup_nil, fun a ha => by simp at ha, ?_⟩
  have := freeTotal_update c (fun _ => []) hc (pages pa_start pa_end).reverse
  rw [freeTotal_nil] at this
  simp only [List.length_nil, List.length_reverse, Nat.add_zero, Nat.zero_add] at this ⊢
  rw [this]
  simp [pages]

/-- One `kalloc_cpu` along a run. -/
theorem alloc_inv {c : Conf} {n : Nat} {r : KRun} {L : Nat → List Nat} (I : KInv c n r L)
    {cpu : Nat} (hc : cpu < c.NCPU) :
    ∃ a t L', kalloc_cpu c r.s (cpu : Int) = Except.ok (a, t) ∧
      KInv c n { s := t, used := if a = 0 then r.used else a :: r.used } L' ∧
      (a = 0 → t = r.s ∧ L' = L ∧ ∀ i, i < c.NCPU → L i = []) ∧
      (a ≠ 0 → a ∉ r.used ∧ (∀ i, i < c.NCPU → a ∉ L' i) ∧
        freeTotal c L' + 1 = freeTotal c L ∧ ∃ j, j < c.NCPU ∧ L j = a :: L' j ∧
          L' = Function.update L j (L' j)) := by
  obtain ⟨hzero, hpop⟩ := kalloc_pop c r.s L cpu hc I.man.wf
  by_cases hall : ∀ i, i < c.NCPU → L i = []
  · refine ⟨0, r.s, L, hzero hall, ?_, fun _ => ⟨rfl, rfl, hall⟩, fun h => absurd rfl h⟩
    simp only [if_true]
    exact I
  · have hex : ∃ i, i < c.NCPU ∧ L i ≠ [] := by
      by_contra h
      apply hall
      intro i hi
      by_contra hne
      exact h ⟨i, hi, hne⟩
    obtain ⟨i, hi, hne⟩ := hex
    obtain ⟨pre, j, post, ho, hpre, hj⟩ := first_nonempty c L cpu hi hne
    obtain ⟨a, rest, hL⟩ := List.exists_cons_of_ne_nil hj
    have hjn : j < c.NCPU := order_lt c hc (by rw [ho]; simp)
    have hk := hpop pre j post a rest ho hpre hL
    obtain ⟨_, ha, _, _⟩ := wf_pop I.man.wf hjn hL
    have M' := managed_pop I.man hjn hL
    have haL : a ∈ L j := by rw [hL]; simp
    have hnd := I.man.wf.nodup j hjn
    rw [hL] at hnd
    have hnot : ∀ k, k < c.NCPU → a ∉ Function.update L j rest k := by
      intro k hk' hm
      by_cases hkj : k = j
      · subst hkj
        rw [Function.update_same] at hm
        exact (List.nodup_cons.mp hnd).1 hm
      · rw [Function.update_noteq hkj] at hm
        exact I.man.wf.disj j k hjn hk' (fun e => hkj e.symm) a haL hm
    have hused : a ∉ r.used := fun hm => I.apart a hm j hjn haL
    have hcount : freeTotal c (Function.update L j rest) + 1 = freeTotal c L := by
      have := freeTotal_update c L hjn rest
      rw [hL, List.length_cons] at this
      omega
    refine ⟨a, _, Function.update L j rest, hk, ?_, fun h => absurd h ha, fun _ =>
      ⟨hused, hnot, hcount, j, hjn, by rw [Function.update_same]; exact hL, by
        rw [Function.update_same]⟩⟩
    rw [if_neg ha]
    refine ⟨M', ?_, List.nodup_cons.mpr ⟨hused, I.nodup⟩, ?_, ?_⟩
    · intro x hx
      rcases List.mem_cons.mp hx with e | e
      · rw [e]
        exact ⟨I.man.wf.aligned j hjn a haL, I.man.range j hjn a haL⟩
      · exact I.valid x e
    · intro x hx k hk' hm
      rcases List.mem_cons.mp hx with e | e
      · rw [e] at hm
        exact hnot k hk' hm
      · by_cases hkj : k = j
        · subst hkj
          rw [Function.update_same] at hm
          exact I.apart x e k hk' (by rw [hL]; exact List.mem_cons_of_mem _ hm)
        · rw [Function.update_noteq hkj] at hm
          exact I.apart x e k hk' hm
    · have := I.count
      simp only [List.length_cons]
      omega

/-- One `kfree_cpu` of a currently allocated frame along a run. -/
theorem free_inv {c : Conf} (S : c.Sane) {n : Nat} {r : KRun} {L : Nat → List Nat}
    (I : KInv c n r L) {pa cpu : Nat} (hc : cpu < c.NCPU) (hpa : pa ∈ r.used) :
    ∃ t, kfree_cpu c r.s pa (cpu : Int) = Except.ok t ∧
      KInv c n { s := t, used := r.used.erase pa } (Function.update L cpu (pa :: L cpu)) ∧
      freeTotal c (Function.update L cpu (pa :: L cpu)) = freeTotal c L + 1 := by
  have hv := I.valid pa hpa
  have hcount : freeTotal c (Function.update L cpu (pa :: L cpu)) = freeTotal c L + 1 := by
    have := freeTotal_update c L hc (pa :: L cpu)
    rw [List.length_cons] at this
    omega
  refine ⟨_, kfree_cpu_ok c r.s hc hv, ?_, hcount⟩
  refine ⟨managed_push I.man S hc hv (I.apart pa hpa), ?_, I.nodup.erase pa, ?_, ?_⟩
  · intro x hx
    exact I.valid x (List.mem_of_mem_erase hx)
  · intro x hx k hk hm
    have hx' := (List.Nodup.mem_erase_iff I.nodup).mp hx
    by_cases hkc : k = cpu
    · subst hkc
      rw [Function.update_same] at hm
      rcases List.mem_cons.mp hm with e | e
      · exact hx'.1 e
      · exact I.apart x hx'.2 k hk e
    · rw [Function.update_noteq hkc] at hm
      exact I.apart x hx'.2 k hk hm
  · have := I.count
    have hl := List.length_erase_of_mem hpa
    have hpos : 0 < r.used.length := List.length_pos_of_mem hpa
    simp only [hcount, hl]
    omega

theorem kstep_inv {c : Conf} (S : c.Sane) {n : Nat} {r r' : KRun} {L : Nat → List Nat}
    (I : KInv c n r L) {k : KCall} (e : kstep c r k = some r') : ∃ L', KInv c n r' L' := by
  cases k with
  | alloc cpu =>
    by_cases hc : cpu < c.NCPU
    · obtain ⟨a, t, L', h1, h2, _⟩ := alloc_inv I hc
      simp only [kstep, h1, Option.some.injEq] at e
      rw [← e]
      exact ⟨L', h2⟩
    · have : kalloc_cpu c r.s (cpu : Int) = Except.error { err := Bio.Err.undef, state := r.s } := by
        unfold kalloc_cpu
        simp only [cpuIdx_none c hc]
      simp only [kstep, this] at e
      cases e
  | free pa cpu =>
    by_cases hpa : pa ∈ r.used
    · by_cases hc : cpu < c.NCPU
      · obtain ⟨t, h1, h2, _⟩ := free_inv S I hc hpa
        simp only [kstep, if_pos hpa, h1, Option.some.injEq] at e
        rw [← e]
        exact ⟨_, h2⟩
      · have hv := I.valid pa hpa
        have : kfree_cpu c r.s pa (cpu : Int) = Except.error
            { err := Bio.Err.undef, state := { r.s with mem := memset r.s.mem pa 1 PGSIZE } } := by
          obtain ⟨g1, g2, g3⟩ := hv
          unfold kfree_cpu
          rw [if_neg (by omega)]
          simp only [cpuIdx_none c hc]
        simp only [kstep, if_pos hpa, this] at e
        cases e
    · simp only [kstep, if_neg hpa] at e
      cases e

theorem krun_inv {c : Conf} (S : c.Sane) {n : Nat} (calls : List KCall) :
    ∀ {r r' : KRun} {L : Nat → List Nat}, KInv c n r L → krun c calls r = some r' →
      ∃ L', KInv c n r' L' := by
  induction calls with
  | nil =>
    intro r r' L I e
    simp only [krun, Option.some.injEq] at e
    rw [← e]
    exact ⟨L, I⟩
  | cons k ks ih =>
    intro r r' L I e
    simp only [krun] at e
    cases hk : kstep c r k with
    | none => rw [hk] at e; cases e
    | some r1 =>
      rw [hk] at e
      obtain ⟨L1, I1⟩ := kstep_inv S I hk
      exact ih I1 e

/-- A frame stays allocated as long as it is not passed to `kfree_cpu`. -/
theorem used_stays {c : Conf} {a : Nat} (calls : List KCall) :
    ∀ {r r' : KRun}, krun c calls r = some r' → a ∈ r.used →
      (∀ cpu, KCall.free a cpu ∉ calls) → a ∈ r'.used := by
  induction calls with
  | nil =>
    intro r r' e ha _
    simp only [krun, Option.some.injEq] at e
    rw [← e]
    exact ha
  | cons k ks ih =>
    intro r r' e ha hno
    simp only [krun] at e
    cases hk : kstep c r k with
    | none => rw [hk] at e; cases e
    | some r1 =>
      rw [hk] at e
      refine ih e ?_ (fun cpu hm => hno cpu (List.mem_cons_of_mem _ hm))
      cases k with
      | alloc cpu =>
        simp only [kstep] at hk
        cases hq : kalloc_cpu c r.s (cpu : Int) with
        | error _ => rw [hq] at hk; cases hk
        | ok p =>
          obtain ⟨b, t⟩ := p
          rw [hq] at hk
          simp only [Option.some.injEq] at hk
          rw [← hk]
          by_cases hb : b = 0
          · simp only [hb, if_true]; exact ha
          · simp only [hb, if_false]; exact List.mem_cons_of_mem _ ha
      | free pa cpu =>
        have hne : a ≠ pa := by
          intro e'
          exact hno cpu (by rw [e']; simp)
        simp only [kstep] at hk
        by_cases hpa : pa ∈ r.used
        · rw [if_pos hpa] at hk
          cases hq : kfree_cpu c r.s pa (cpu : Int) with
          | error _ => rw [hq] at hk; cases hk
          | ok t =>
            rw [hq] at hk
            simp only [Option.some.injEq] at hk
            rw [← hk]
            exact (List.mem_erase_of_ne hne).mpr ha
        · rw [if_neg hpa] at hk
          cases hk

theorem kalloc_ok_idx {c : Conf} {s : KMem} {cpu : Nat} {p : Nat × KMem}
    (e : kalloc_cpu c s (cpu : Int) = Except.ok p) : cpu < c.NCPU := by
  by_contra h
  unfold kalloc_cpu at e
  simp only [cpuIdx_none c h] at e
  cases e

theorem wf_total_unique {c : Conf} {s : KMem} {L M : Nat → List Nat} (W : WF c s L)
    (W' : WF c s M) : (∀ i, i < c.NCPU → M i = L i) ∧ freeTotal c M = freeTotal c L := by
  have h : ∀ i, i < c.NCPU → M i = L i := fun i hi => isList_unique (W'.list i hi) (W.list i hi)
  refine ⟨h, ?_⟩
  unfold freeTotal
  refine congrArg _ (List.map_congr_left ?_)
  intro i hi
  rw [h i (List.mem_range.mp hi)]

/-- A `kalloc_cpu` on a partition whose list is not empty takes its head. -/
theorem kalloc_head (c : Conf) (t : KMem) {cpu : Nat} (hc : cpu < c.NCPU)
    (h : t.freelist cpu ≠ 0) :
    kalloc_cpu c t (cpu : Int) = Except.ok (t.freelist cpu,
      { freelist := Function.update t.freelist cpu (readNext t.mem (t.freelist cpu)),
        mem := memset t.mem (t.freelist cpu) 5 PGSIZE }) := by
  unfold kalloc_cpu
  simp only [cpuIdx_nat c hc, ne_eq, h, not_false_eq_true, if_true, if_false]

theorem kalloc_scrub {c : Conf} {s : KMem} {cpu_id : Int} {a : Nat} {t : KMem}
    (e : kalloc_cpu c s cpu_id = Except.ok (a, t)) (ha : a ≠ 0) :
    ∃ m, t.mem = memset m a 5 PGSIZE := by
  have key : ∀ p : Nat × KMem,
      (if p.1 ≠ 0 then
        (Except.ok (p.1, { p.2 with mem := memset p.2.mem p.1 5 PGSIZE }) : Except Halt (Nat × KMem))
      else Except.ok (p.1, p.2)) = Except.ok (a, t) → ∃ m, t.mem = memset m a 5 PGSIZE := by
    intro p hp
    by_cases h : p.1 ≠ 0
    · rw [if_pos h] at hp
      injection hp with hp
      injection hp with e1 e2
      rw [← e2, ← e1]
      exact ⟨_, rfl⟩
    · rw [if_neg h] at hp
      injection hp with hp
      injection hp with e1 _
      rw [e1] at h
      exact absurd ha h
  unfold kalloc_cpu at e
  cases hc : cpuIdx c cpu_id with
  | none =>
    rw [hc] at e
    cases e
  | some cpu =>
    rw [hc] at e
    exact key _ e

theorem kalloc_total (c : Conf) (s : KMem) {cpu : Nat} (hc : cpu < c.NCPU) :
    ∃ a t, kalloc_cpu c s (cpu : Int) = Except.ok (a, t) := by
  have key : ∀ p : Nat × KMem, ∃ a t,
      (if p.1 ≠ 0 then
        (Except.ok (p.1, { p.2 with mem := memset p.2.mem p.1 5 PGSIZE }) : Except Halt (Nat × KMem))
      else Except.ok (p.1, p.2)) = Except.ok (a, t) := by
    intro p
    by_cases h : p.1 ≠ 0
    · rw [if_pos h]; exact ⟨_, _, rfl⟩
    · rw [if_neg h]; exact ⟨_, _, rfl⟩
  unfold kalloc_cpu
  rw [cpuIdx_nat c hc]
  exact key _

theorem chain_frame {m m' : Nat → Nat} {a z : Nat} {l : List Nat}
    (h : ∀ x ∈ l, readNext m' x = readNext m x) (hl : Chain m a l z) : Chain m' a l z := by
  induction l generalizing a with
  | nil => exact hl
  | cons x r ih =>
    obtain ⟨h1, h2⟩ := hl
    refine ⟨h1, ?_⟩
    rw [h a (by rw [h1]; simp)]
    exact ih (fun y hy => h y (List.mem_cons_of_mem _ hy)) h2

theorem chain_snoc {m : Nat → Nat} {a p z : Nat} {l : List Nat} (hl : Chain m a l p)
    (hp : readNext m p = z) : Chain m a (l ++ [p]) z := by
  induction l generalizing a with
  | nil =>
    have e : a = p := hl
    exact ⟨e, by rw [e, hp]; rfl⟩
  | cons x r ih =>
    obtain ⟨h1, h2⟩ := hl
    exact ⟨h1, ih h2⟩

/-- Freeing pages one after the other chains them in front of the old head, whatever
the state was. -/
theorem kfreeAll_chain {c : Conf} (S : c.Sane) {cpu : Nat} (hc : cpu < c.NCPU) (ps : List Nat) :
    ∀ (s : KMem), (∀ a ∈ ps, validFrame c a) → ps.Nodup →
      s.freelist cpu < 18446744073709551616 →
      ∃ t, kfreeAll c (cpu : Int) ps s = Except.ok t ∧
        Chain t.mem (t.freelist cpu) ps.reverse (s.freelist cpu) ∧
        (∀ i, i ≠ cpu → t.freelist i = s.freelist i) ∧
        ∀ x, x % PGSIZE = 0 → x ∉ ps → readNext t.mem x = readNext s.mem x := by
  induction ps with
  | nil =>
    intro s _ _ _
    exact ⟨s, rfl, rfl, fun _ _ => rfl, fun _ _ _ => rfl⟩
  | cons p ps ih =>
    intro s hv hn hz
    obtain ⟨hp, hn'⟩ := List.nodup_cons.mp hn
    have hvp := hv p (by simp)
    have hplt : p < 18446744073709551616 := by
      have := S.top
      have := hvp.2.2
      omega
    obtain ⟨t, e, hch, hh, hfr⟩ := ih
      { freelist := Function.update s.freelist cpu p,
        mem := writeNext (memset s.mem p 1 PGSIZE) p (s.freelist cpu) }
      (fun a ha => hv a (List.mem_cons_of_mem _ ha)) hn'
      (by simp only [Function.update_same]; exact hplt)
    simp only [Function.update_same] at hch
    refine ⟨t, ?_, ?_, ?_, ?_⟩
    · simp only [kfreeAll, kfree, kfree_cpu_ok c s hc hvp]
      exact e
    · rw [List.reverse_cons]
      refine chain_snoc hch ?_
      rw [hfr p hvp.1 hp]
      exact readNext_writeNext _ _ _ hz
    · intro i hi
      rw [hh i hi]
      simp only [Function.update_noteq hi]
    · intro x hx hxn
      have hxp : x ≠ p := fun e' => hxn (by rw [e']; simp)
      rw [hfr x hx (fun hm => hxn (List.mem_cons_of_mem _ hm))]
      simp only []
      rw [writeNext_other hvp.1 hx hxp, memset_other hvp.1 hx hxp]

/-- C11 (as amended): for every frame address `pa` that `kfree_cpu` accepts and every
processor id `cpu`, `kfree_cpu(pa, cpu)` returns, makes `pa` the head pointer of
partition `cpu` with the next link of `pa` set to the previous head, and leaves the
head pointer of every other partition unchanged; a `kalloc_cpu(cpu)` issued
immediately afterwards returns `pa`.  When moreover `pa` is on no partition's free
list beforehand, the free list of partition `cpu` becomes `pa` followed by its previous
list, the free list of every other partition is unchanged, and the `kalloc_cpu(cpu)`
that follows gives back the lists as they were. -/
theorem kfree_cpu_push (c : Conf) (S : c.Sane) (s : KMem) (pa cpu : Nat)
    (hc : cpu < c.NCPU) (hv : validFrame c pa) (hh : s.freelist cpu < 18446744073709551616) :
    ∃ t u, kfree_cpu c s pa (cpu : Int) = Except.ok t ∧
      t.freelist cpu = pa ∧ readNext t.mem pa = s.freelist cpu ∧
      (∀ i, i ≠ cpu → t.freelist i = s.freelist i) ∧
      kalloc_cpu c t (cpu : Int) = Except.ok (pa, u) ∧
      ∀ L, Managed c s L → (∀ i, i < c.NCPU → pa ∉ L i) →
        Managed c t (Function.update L cpu (pa :: L cpu)) ∧
        IsList t.mem (t.freelist cpu) (pa :: L cpu) ∧
        (∀ i, i < c.NCPU → i ≠ cpu → IsList t.mem (t.freelist i) (L i)) ∧
        Managed c u L := by
  have hpa : pa ≠ 0 := by
    have := S.kend_pos
    have := hv.2.1
    omega
  have e := kfree_cpu_ok c s hc hv
  have hk := kalloc_head c
    { freelist := Function.update s.freelist cpu pa,
      mem := writeNext (memset s.mem pa 1 PGSIZE) pa (s.freelist cpu) } hc
    (by simp only [Function.update_same]; exact hpa)
  simp only [Function.update_same] at hk
  refine ⟨_, _, e, ?_, ?_, ?_, hk, ?_⟩
  · simp only [Function.update_same]
  · exact readNext_writeNext _ _ _ hh
  · intro i hi
    simp only [Function.update_noteq hi]
  · intro L M hfree
    have M' := managed_push M S hc hv hfree
    refine ⟨M', ?_, ?_, ?_⟩
    · have := M'.wf.list cpu hc
      rw [Function.update_same] at this
      exact this
    · intro i hi hne
      have := M'.wf.list i hi
      rw [Function.update_noteq hne] at this
      exact this
    · have hL : Function.update L cpu (pa :: L cpu) cpu = pa :: L cpu := Function.update_same _ _ _
      have M2 := managed_pop M' hc hL
      simpa only [Function.update_same, Function.update_idem, Function.update_eq_self] using M2

/-- C11 at a concrete input: on an empty allocator with two processors, freeing the
frame 8192 on processor 1 makes it the head of partition 1, leaves partition 0 empty,
and the next `kalloc_cpu(1)` returns 8192. -/
theorem kfree_cpu_push_witness :
    ∃ t u, kfree_cpu smallConf (kboot (fun _ => 0)) 8192 1 = Except.ok t ∧
      t.freelist 1 = 8192 ∧ t.freelist 0 = 0 ∧
      kalloc_cpu smallConf t 1 = Except.ok (8192, u) ∧ IsList t.mem (t.freelist 1) [8192] := by
  obtain ⟨t, u, h1, h2, _, h4, h5, h6⟩ :=
    kfree_cpu_push smallConf ⟨by decide, by decide⟩ (kboot (fun _ => 0)) 8192 1 (by decide)
      ⟨by decide, by decide, by decide⟩ (by decide)
  have M : Managed smallConf (kboot (fun _ => 0)) (fun _ => []) :=
    ⟨⟨fun _ _ => rfl, fun _ _ a ha => by simp at ha, fun _ _ => List.nodup_nil,
      fun _ _ _ _ _ a ha => by simp at ha⟩, fun _ _ a ha => by simp at ha⟩
  obtain ⟨_, k2, _, _⟩ := h6 (fun _ => []) M (fun _ _ => by simp)
  exact ⟨t, u, h1, h2, (h4 0 (by decide)).trans rfl, h5, k2⟩

/-- C11, counterexample to the claim as stated: in the state `twoLists` the frame
12288 is a valid frame address and it is the free list of partition 1;
`kfree_cpu(12288, 0)` returns, and afterwards the free list of partition 1, another
partition, is no longer the list `[12288]`: it is `[12288, 8192]`, running into the
list of partition 0. -/
theorem kfree_cpu_relinks :
    validFrame smallConf 12288 ∧
    Managed smallConf twoLists (fun i => if i = 0 then [8192] else if i = 1 then [12288] else []) ∧
    IsList twoLists.mem (twoLists.freelist 1) [12288] ∧
    ∃ t, kfree_cpu smallConf twoLists 12288 0 = Except.ok t ∧
      IsList t.mem (t.freelist 1) [12288, 8192] ∧ ¬ IsList t.mem (t.freelist 1) [12288] := by
  have hv : validFrame smallConf 12288 := ⟨by decide, by decide, by decide⟩
  have hl : IsList (writeNext (memset twoLists.mem 12288 1 PGSIZE) 12288 (twoLists.freelist 0))
      (Function.update twoLists.freelist 0 12288 1) [12288, 8192] :=
    ⟨by decide, by decide, by decide, by decide, by show _ = 0; decide⟩
  refine ⟨hv, ?_, ⟨rfl, by decide, rfl⟩, _, kfree_cpu_ok smallConf twoLists (by decide) hv, hl, ?_⟩
  · refine ⟨⟨?_, ?_, ?_, ?_⟩, ?_⟩
    · intro i hi
      have hi' : i < 2 := hi
      interval_cases i
      · exact ⟨rfl, by decide, rfl⟩
      · exact ⟨rfl, by decide, rfl⟩
    · intro i hi a ha
      have hi' : i < 2 := hi
      interval_cases i <;> simp at ha <;> rw [ha] <;> decide
    · intro i hi
      have hi' : i < 2 := hi
      interval_cases i <;> simp
    · intro i j hi hj hij a ha ha'
      have hi' : i < 2 := hi
      have hj' : j < 2 := hj
      interval_cases i <;> interval_cases j <;> simp at ha ha' hij <;> omega
    · intro i hi a ha
      have hi' : i < 2 := hi
      interval_cases i <;> simp at ha <;> rw [ha] <;> decide
  · intro h
    exact absurd (isList_unique hl h) (by decide)

/-- C12: starting from the state `freerange` leaves on a freshly booted allocator (for a
range inside the managed range), after every sequence of `kalloc_cpu` / `kfree_cpu`
calls in which each `kfree_cpu` is given a currently allocated frame: the free lists
`L` of the partitions are chains without repetition and pairwise disjoint; the
allocated frames are on no free list; every `kalloc_cpu` returns, and a frame it
returns is not among the allocated ones and is on no free list of the state it
leaves; every `kfree_cpu` of an allocated frame returns.  Moreover a frame returned by
one `kalloc_cpu` is not returned by a later `kalloc_cpu` as long as no `kfree_cpu` of
that frame comes in between. -/
theorem no_double_issue (c : Conf) (S : c.Sane) (m : Nat → Nat) (cpu0 pa_start pa_end : Nat)
    (hc : cpu0 < c.NCPU) (h1 : c.kend ≤ pa_start) (h2 : pa_start ≤ c.PHYSTOP)
    (h3 : pa_end ≤ c.PHYSTOP) :
    ∃ s0, freerange c (kboot m) (cpu0 : Int) pa_start pa_end = Except.ok s0 ∧
      ∀ calls r, krun c calls { s := s0, used := [] } = some r →
        (∃ L, WF c r.s L ∧ r.used.Nodup ∧ (∀ a ∈ r.used, ∀ i, i < c.NCPU → a ∉ L i) ∧
          (∀ cpu, cpu < c.NCPU → ∃ a t, kalloc_cpu c r.s (cpu : Int) = Except.ok (a, t) ∧
            (a ≠ 0 → a ∉ r.used ∧ ∃ L', WF c t L' ∧ ∀ i, i < c.NCPU → a ∉ L' i)) ∧
          (∀ pa ∈ r.used, ∀ cpu, cpu < c.NCPU →
            ∃ t, kfree_cpu c r.s pa (cpu : Int) = Except.ok t)) ∧
        (∀ (cpu1 a : Nat) (t1 : KMem), kalloc_cpu c r.s (cpu1 : Int) = Except.ok (a, t1) → a ≠ 0 →
          ∀ mid r2, krun c mid { s := t1, used := a :: r.used } = some r2 →
            (∀ cpu, KCall.free a cpu ∉ mid) →
            ∀ (cpu2 b : Nat) (t2 : KMem), kalloc_cpu c r2.s (cpu2 : Int) = Except.ok (b, t2) →
              b ≠ a) := by
  obtain ⟨s0, e0, I0⟩ := seed_inv c S m hc h1 h2 h3
  refine ⟨s0, e0, ?_⟩
  intro calls r hr
  obtain ⟨L, I⟩ := krun_inv S calls I0 hr
  constructor
  · refine ⟨L, I.man.wf, I.nodup, I.apart, ?_, ?_⟩
    · intro cpu hcpu
      obtain ⟨a, t, L', g1, g2, _, g4⟩ := alloc_inv I hcpu
      refine ⟨a, t, g1, ?_⟩
      intro ha
      obtain ⟨k1, k2, _⟩ := g4 ha
      exact ⟨k1, L', g2.man.wf, k2⟩
    · intro pa hpa cpu hcpu
      obtain ⟨t, g1, _⟩ := free_inv S I hcpu hpa
      exact ⟨t, g1⟩
  · intro cpu1 a t1 ea ha mid r2 hmid hno cpu2 b t2 eb
    obtain ⟨a', t', L', g1, g2, _, _⟩ := alloc_inv I (kalloc_ok_idx ea)
    rw [ea] at g1
    injection g1 with g1
    injection g1 with g1a g1t
    subst g1a
    subst g1t
    rw [if_neg ha] at g2
    obtain ⟨L2, I2⟩ := krun_inv S mid g2 hmid
    have hin : a ∈ r2.used := used_stays mid hmid (by simp) hno
    obtain ⟨b', t'', L3, k1, _, _, k4⟩ := alloc_inv I2 (kalloc_ok_idx eb)
    rw [eb] at k1
    injection k1 with k1
    injection k1 with k1b _
    subst k1b
    intro hba
    have hb : b ≠ 0 := by rw [hba]; exact ha
    exact (k4 hb).1 (hba ▸ hin)

/-- C12 at a concrete input: two processors, the pages 4096 .. 16384 seeded by
processor 0; along every run the allocated frames are pairwise distinct. -/
theorem no_double_issue_witness :
    ∃ s0, freerange smallConf (kboot (fun _ => 0)) 0 4096 20480 = Except.ok s0 ∧
      ∀ calls r, krun smallConf calls { s := s0, used := [] } = some r → r.used.Nodup := by
  obtain ⟨s0, e, h⟩ := no_double_issue smallConf ⟨by decide, by decide⟩ (fun _ => 0) 0 4096 20480
    (by decide) (by decide) (by decide) (by decide)
  refine ⟨s0, e, ?_⟩
  intro calls r hr
  obtain ⟨⟨L, _, hn, _⟩, _⟩ := h calls r hr
  exact hn

/-- C13: starting from the state `freerange` leaves on a freshly booted allocator (for a
range inside the managed range), after every sequence of `kalloc_cpu` / `kfree_cpu`
calls in which each `kfree_cpu` is given a currently allocated frame, the number of
frames on the free lists `L` of the state (which are the only lists the state has)
plus the number of allocated frames equals the number of frames seeded,
`(pa_end - PGROUNDUP(pa_start)) / 4096`.  From such a state a `kalloc_cpu` that
returns a frame lowers the free total by exactly one, a `kalloc_cpu` that returns 0
leaves the state as it is, and a `kfree_cpu` of an allocated frame raises the free
total by exactly one. -/
theorem frames_conserved (c : Conf) (S : c.Sane) (m : Nat → Nat) (cpu0 pa_start pa_end : Nat)
    (hc : cpu0 < c.NCPU) (h1 : c.kend ≤ pa_start) (h2 : pa_start ≤ c.PHYSTOP)
    (h3 : pa_end ≤ c.PHYSTOP) :
    ∃ s0, freerange c (kboot m) (cpu0 : Int) pa_start pa_end = Except.ok s0 ∧
      ∀ calls r, krun c calls { s := s0, used := [] } = some r →
        ∃ L, WF c r.s L ∧ (∀ M, WF c r.s M → freeTotal c M = freeTotal c L) ∧
          freeTotal c L + r.used.length = (pa_end - PGROUNDUP pa_start) / PGSIZE ∧
          (∀ cpu, cpu < c.NCPU → ∃ a t L', kalloc_cpu c r.s (cpu : Int) = Except.ok (a, t) ∧
            WF c t L' ∧ (a ≠ 0 → freeTotal c L' + 1 = freeTotal c L) ∧
            (a = 0 → t = r.s ∧ freeTotal c L' = freeTotal c L)) ∧
          (∀ pa ∈ r.used, ∀ cpu, cpu < c.NCPU →
            ∃ t L', kfree_cpu c r.s pa (cpu : Int) = Except.ok t ∧ WF c t L' ∧
              freeTotal c L' = freeTotal c L + 1) := by
  obtain ⟨s0, e0, I0⟩ := seed_inv c S m hc h1 h2 h3
  refine ⟨s0, e0, ?_⟩
  intro calls r hr
  obtain ⟨L, I⟩ := krun_inv S calls I0 hr
  refine ⟨L, I.man.wf, fun M W' => (wf_total_unique I.man.wf W').2, I.count, ?_, ?_⟩
  · intro cpu hcpu
    obtain ⟨a, t, L', g1, g2, g3, g4⟩ := alloc_inv I hcpu
    refine ⟨a, t, L', g1, g2.man.wf, fun ha => (g4 ha).2.2.1, ?_⟩
    intro ha
    obtain ⟨k1, k2, _⟩ := g3 ha
    exact ⟨k1, by rw [k2]⟩
  · intro pa hpa cpu hcpu
    obtain ⟨t, g1, g2, g3⟩ := free_inv S I hcpu hpa
    exact ⟨t, _, g1, g2.man.wf, g3⟩

/-- C13 at a concrete input: two processors, the range 5000 .. 20480 seeded by
processor 0, that is the three pages 8192, 12288 and 16384; along every run the free
and the allocated frames add up to three. -/
theorem frames_conserved_witness :
    ∃ s0, freerange smallConf (kboot (fun _ => 0)) 0 5000 20480 = Except.ok s0 ∧
      ∀ calls r, krun smallConf calls { s := s0, used := [] } = some r →
        ∃ L, WF smallConf r.s L ∧ freeTotal smallConf L + r.used.length = 3 := by
  obtain ⟨s0, e, h⟩ := frames_conserved smallConf ⟨by decide, by decide⟩ (fun _ => 0) 0 5000 20480
    (by decide) (by decide) (by decide) (by decide)
  refine ⟨s0, e, ?_⟩
  intro calls r hr
  obtain ⟨L, W, _, hn, _⟩ := h calls r hr
  exact ⟨L, W, hn.trans (by decide)⟩

/-- C14 (as amended): whenever `kalloc_cpu` returns a non-null frame, taken from the
local partition or from another one, every one of its 4096 bytes equals 5 on return.
`kfree_cpu` of a frame it accepts returns; it overwrites all 4096 bytes of the frame
with the byte 1 (`memset`) and then stores the link to the previous head of the
partition in the first 8 bytes of the frame (`r->next`): afterwards the bytes 8 .. 4095 equal 1, the bytes 0 .. 7
hold the previous head pointer (little-endian), and nothing of the frame's prior
contents remains (the contents do not depend on the memory before the call). -/
theorem scrub_patterns (c : Conf) (s : KMem) (cpu : Nat) (hc : cpu < c.NCPU) :
    (∃ a t, kalloc_cpu c s (cpu : Int) = Except.ok (a, t) ∧
      (a ≠ 0 → ∀ x, a ≤ x → x < a + 4096 → t.mem x = 5)) ∧
    (∀ pa, validFrame c pa →
      ∃ t, kfree_cpu c s pa (cpu : Int) = Except.ok t ∧
        t.mem = writeNext (memset s.mem pa 1 PGSIZE) pa (s.freelist cpu) ∧
        (∀ x, pa + 8 ≤ x → x < pa + 4096 → t.mem x = 1) ∧
        (∀ k, k < 8 → t.mem (pa + k) = s.freelist cpu / 256 ^ k % 256) ∧
        ∀ m', ∃ t', kfree_cpu c { s with mem := m' } pa (cpu : Int) = Except.ok t' ∧
          ∀ x, pa ≤ x → x < pa + 4096 → t'.mem x = t.mem x) := by
  have hP : PGSIZE = 4096 := rfl
  constructor
  · obtain ⟨a, t, h⟩ := kalloc_total c s hc
    refine ⟨a, t, h, ?_⟩
    intro ha x h1 h2
    obtain ⟨m, hm⟩ := kalloc_scrub h ha
    rw [hm]
    unfold memset
    rw [if_pos ⟨h1, h2⟩]
  · intro pa hv
    refine ⟨_, kfree_cpu_ok c s hc hv, rfl, ?_, ?_, ?_⟩
    · intro x h1 h2
      simp only [writeNext, memset, hP]
      rw [if_neg (by omega), if_pos ⟨by omega, h2⟩]
    · intro k hk
      simp only [writeNext]
      rw [if_pos ⟨by omega, by omega⟩, Nat.add_sub_cancel_left]
    · intro m'
      refine ⟨_, kfree_cpu_ok c { s with mem := m' } hc hv, ?_⟩
      intro x h1 h2
      simp only [writeNext, memset, hP]
      split_ifs <;> first | rfl | (exfalso; omega)

/-- C14 at a concrete input: on a memory filled with the byte 7, `kfree_cpu(8192, 0)`
leaves the byte 1 at the addresses 8200 and 12287 of the frame. -/
theorem scrub_patterns_witness :
    ∃ t, kfree_cpu smallConf (kboot (fun _ => 7)) 8192 0 = Except.ok t ∧
      t.mem 8200 = 1 ∧ t.mem 12287 = 1 := by
  obtain ⟨t, e, _, h, _⟩ := (scrub_patterns smallConf (kboot (fun _ => 7)) 0 (by decide)).2 8192
    ⟨by decide, by decide, by decide⟩
  exact ⟨t, e, h 8200 (by decide) (by decide), h 12287 (by decide) (by decide)⟩

/-- C14, counterexample to the claim as stated: on an empty allocator whose memory is
filled with the byte 7, `kfree_cpu(8192, 0)` returns, and immediately afterwards the
first byte of the frame is 0 (a byte of the null link), not the free pattern 1. -/
theorem free_pattern_fails :
    validFrame smallConf 8192 ∧
    ∃ t, kfree_cpu smallConf (kboot (fun _ => 7)) 8192 0 = Except.ok t ∧
      t.mem 8192 = 0 ∧ ¬ (∀ x, 8192 ≤ x → x < 8192 + 4096 → t.mem x = 1) := by
  have hv : validFrame smallConf 8192 := ⟨by decide, by decide, by decide⟩
  have h0 : (writeNext (memset (kboot (fun _ => 7)).mem 8192 1 PGSIZE) 8192
      ((kboot (fun _ => 7)).freelist 0)) 8192 = 0 := by decide
  refine ⟨hv, _, kfree_cpu_ok smallConf (kboot (fun _ => 7)) (by decide) hv, h0, ?_⟩
  intro h
  have h1 := h 8192 (by decide) (by decide)
  exact absurd (h0.symm.trans h1) (by decide)

/-- C15: for every range `[pa_start, pa_end)` inside the managed range (both ends
between the kernel end and `PHYSTOP`), `freerange(pa_start, pa_end)`, run on the
processor `cpu`, does exactly what the calls `kfree(p)` do for the pages
`p = PGROUNDUP(pa_start) + 4096 * k`, `0 ≤ k < n`, made in ascending order, where
`n = (pa_end - PGROUNDUP(pa_start)) / 4096` when `pa_end ≥ PGROUNDUP(pa_start)` and
`n = 0` otherwise.  `PGROUNDUP(pa_start)` is the first page-aligned address at or after
`pa_start`; every page freed is page-aligned, starts at or after `pa_start` and ends at
or before `pa_end`; and every page-aligned address with these bounds is freed.
`freerange` returns, and afterwards all `n` pages are chained from the head pointer of
partition `cpu`, last freed first, in front of the old head, while the head pointer of
every other partition is as before.  When the free lists `L` were well formed and held
none of these pages, they are well formed again, with the `n` pages in front of the
list of `cpu` and every other list unchanged. -/
theorem freerange_pages (c : Conf) (S : c.Sane) (s : KMem) (cpu pa_start pa_end : Nat)
    (hc : cpu < c.NCPU) (h1 : c.kend ≤ pa_start) (h2 : pa_start ≤ c.PHYSTOP)
    (h3 : pa_end ≤ c.PHYSTOP) :
    freerange c s (cpu : Int) pa_start pa_end = kfreeAll c (cpu : Int) (pages pa_start pa_end) s ∧
    (pages pa_start pa_end).length =
      (if PGROUNDUP pa_start ≤ pa_end then (pa_end - PGROUNDUP pa_start) / 4096 else 0) ∧
    (∀ k, k < (pages pa_start pa_end).length →
      (pages pa_start pa_end)[k]? = some (PGROUNDUP pa_start + 4096 * k)) ∧
    (pages pa_start pa_end).Pairwise (fun a b => a < b) ∧
    (PGROUNDUP pa_start % 4096 = 0 ∧ pa_start ≤ PGROUNDUP pa_start ∧
      PGROUNDUP pa_start < pa_start + 4096) ∧
    (∀ a, a ∈ pages pa_start pa_end ↔ (a % 4096 = 0 ∧ pa_start ≤ a ∧ a + 4096 ≤ pa_end)) ∧
    (s.freelist cpu < 18446744073709551616 →
      ∃ t, freerange c s (cpu : Int) pa_start pa_end = Except.ok t ∧
        Chain t.mem (t.freelist cpu) (pages pa_start pa_end).reverse (s.freelist cpu) ∧
        ∀ i, i ≠ cpu → t.freelist i = s.freelist i) ∧
    (∀ L, Managed c s L → (∀ a ∈ pages pa_start pa_end, ∀ i, i < c.NCPU → a ∉ L i) →
      ∃ t, freerange c s (cpu : Int) pa_start pa_end = Except.ok t ∧
        Managed c t (Function.update L cpu ((pages pa_start pa_end).reverse ++ L cpu)) ∧
        ∀ i, i ≠ cpu → t.freelist i = s.freelist i) := by
  have hP : PGSIZE = 4096 := rfl
  have ht := S.top
  have hs : pa_start + PGSIZE ≤ 18446744073709551616 := by rw [hP] at ht ⊢; omega
  have hr := pgroundup_spec hs
  have heq := freerange_eq c S s (cpu : Int) h2 h3
  have hlen : (pages pa_start pa_end).length = (pa_end - PGROUNDUP pa_start) / 4096 := by
    simp [pages, hP]
  have hval : ∀ a ∈ pages pa_start pa_end, validFrame c a := by
    intro a ha
    obtain ⟨g1, g2, g3⟩ := pages_bounds hs ha
    rw [hP] at g3
    exact ⟨g1, by omega, by omega⟩
  refine ⟨heq, ?_, ?_, pages_sorted _ _, hr, ?_, ?_, ?_⟩
  · rw [hlen]
    by_cases h : PGROUNDUP pa_start ≤ pa_end
    · rw [if_pos h]
    · rw [if_neg h, Nat.sub_eq_zero_of_le (by omega)]
  · intro k hk
    rw [hlen] at hk
    simp only [pages, hP, List.getElem?_map, List.getElem?_range hk, Option.map_some']
  · intro a
    constructor
    · intro ha
      exact pages_bounds hs ha
    · rintro ⟨g1, g2, g3⟩
      obtain ⟨r1, r2, r3⟩ := hr
      rw [hP] at r1 r3
      unfold pages
      refine List.mem_map.mpr ⟨(a - PGROUNDUP pa_start) / 4096, List.mem_range.mpr ?_, ?_⟩
      · rw [hP]
        have : a - PGROUNDUP pa_start + 4096 ≤ pa_end - PGROUNDUP pa_start := by omega
        have h4 := Nat.div_le_div_right (c := 4096) this
        rw [Nat.add_div_right _ (by decide)] at h4
        exact h4
      · rw [hP]
        have : (a - PGROUNDUP pa_start) % 4096 = 0 := by omega
        have := Nat.div_add_mod (a - PGROUNDUP pa_start) 4096
        omega
  · intro hz
    obtain ⟨t, e, hch, hh, _⟩ := kfreeAll_chain S hc (pages pa_start pa_end) s hval
      (pages_nodup _ _) hz
    exact ⟨t, heq.trans e, hch, hh⟩
  · intro L M hf
    obtain ⟨t, e, Mt, hh⟩ := managed_pushAll S hc (pages pa_start pa_end) s L M hval
      (pages_nodup _ _) hf
    exact ⟨t, heq.trans e, Mt, hh⟩

/-- C15 at a concrete input: on a freshly booted allocator with two processors,
`freerange(5000, 20480)` run on processor 1 frees the pages 8192, 12288 and 16384, in
this order, and afterwards the free list of processor 1 is 16384, 12288, 8192. -/
theorem freerange_pages_witness :
    pages 5000 20480 = [8192, 12288, 16384] ∧
    ∃ t, freerange smallConf (kboot (fun _ => 0)) 1 5000 20480 = Except.ok t ∧
      IsList t.mem (t.freelist 1) [16384, 12288, 8192] ∧ t.freelist 0 = 0 := by
  obtain ⟨_, _, _, _, _, _, _, h⟩ := freerange_pages smallConf ⟨by decide, by decide⟩
    (kboot (fun _ => 0)) 1 5000 20480 (by decide) (by decide) (by decide) (by decide)
  have M : Managed smallConf (kboot (fun _ => 0)) (fun _ => []) :=
    ⟨⟨fun _ _ => rfl, fun _ _ a ha => by simp at ha, fun _ _ => List.nodup_nil,
      fun _ _ _ _ _ a ha => by simp at ha⟩, fun _ _ a ha => by simp at ha⟩
  obtain ⟨t, e, Mt, hh⟩ := h (fun _ => []) M (fun _ _ _ _ => by simp)
  have hp : pages 5000 20480 = [8192, 12288, 16384] := by decide
  refine ⟨hp, t, e, ?_, (hh 0 (by decide)).trans rfl⟩
  have := Mt.wf.list 1 (by decide)
  rw [Function.update_same, hp] at this
  exact this

/-- C20: `kfree_cpu` has no check that the frame is not free already.  For every frame
address `pa` it accepts and every processor id `cpu`, in every state, two calls
`kfree_cpu(pa, cpu)` in a row both return; afterwards `pa` is the head of the free list
of `cpu` and the next link of `pa` points to `pa` itself; and the next two
`kalloc_cpu(cpu)` calls both return `pa`. -/
theorem double_free (c : Conf) (S : c.Sane) (s : KMem) (pa cpu : Nat) (hc : cpu < c.NCPU)
    (hv : validFrame c pa) :
    ∃ t1 t2 u1 u2, kfree_cpu c s pa (cpu : Int) = Except.ok t1 ∧
      kfree_cpu c t1 pa (cpu : Int) = Except.ok t2 ∧
      t2.freelist cpu = pa ∧ readNext t2.mem pa = pa ∧
      kalloc_cpu c t2 (cpu : Int) = Except.ok (pa, u1) ∧
      kalloc_cpu c u1 (cpu : Int) = Except.ok (pa, u2) := by
  have hpa : pa ≠ 0 := by
    have := S.kend_pos
    have := hv.2.1
    omega
  have hlt : pa < 18446744073709551616 := by
    have := S.top
    have := hv.2.2
    omega
  have e1 := kfree_cpu_ok c s hc hv
  have e2 := kfree_cpu_ok c
    { freelist := Function.update s.freelist cpu pa,
      mem := writeNext (memset s.mem pa 1 PGSIZE) pa (s.freelist cpu) } hc hv
  simp only [Function.update_same, Function.update_idem] at e2
  have hn : readNext (writeNext (memset (writeNext (memset s.mem pa 1 PGSIZE) pa
      (s.freelist cpu)) pa 1 PGSIZE) pa pa) pa = pa := readNext_writeNext _ _ _ hlt
  have k1 := kalloc_head c
    { freelist := Function.update s.freelist cpu pa,
      mem := writeNext (memset (writeNext (memset s.mem pa 1 PGSIZE) pa
        (s.freelist cpu)) pa 1 PGSIZE) pa pa } hc
    (by simp only [Function.update_same]; exact hpa)
  simp only [Function.update_same, Function.update_idem, hn] at k1
  have k2 := kalloc_head c
    { freelist := Function.update s.freelist cpu pa,
      mem := memset (writeNext (memset (writeNext (memset s.mem pa 1 PGSIZE) pa
        (s.freelist cpu)) pa 1 PGSIZE) pa pa) pa 5 PGSIZE } hc
    (by simp only [Function.update_same]; exact hpa)
  simp only [Function.update_same] at k2
  exact ⟨_, _, _, _, e1, e2, by simp only [Function.update_same], hn, k1, k2⟩

/-- C20 at a concrete input: on a freshly booted allocator with two processors the
frame 8192 is freed twice on processor 0; its next link then points to 8192, and two
`kalloc_cpu(0)` calls both return 8192. -/
theorem double_free_witness :
    ∃ t1 t2 u1 u2, kfree_cpu smallConf (kboot (fun _ => 0)) 8192 0 = Except.ok t1 ∧
      kfree_cpu smallConf t1 8192 0 = Except.ok t2 ∧
      t2.freelist 0 = 8192 ∧ readNext t2.mem 8192 = 8192 ∧
      kalloc_cpu smallConf t2 0 = Except.ok (8192, u1) ∧
      kalloc_cpu smallConf u1 0 = Except.ok (8192, u2) :=
  double_free smallConf ⟨by decide, by decide⟩ (kboot (fun _ => 0)) 8192 0 (by decide)
    ⟨by decide, by decide, by decide⟩
end Kalloc
